import Mathlib

/-!
# Folder hierarchy: registry lookup, descendant query and subtree move

A shallow embedding of the Go package `folder` (`folder.go`, `get_folder.go`,
`move_folder.go`).

Go pointers `*Folder` are addresses into a finite store: a state over `n`
folder objects keeps them in `heap : Fin n → Folder n`, and a pointer is an
index `Fin n`; `nil` is `none`.  Pointer identity (`==` on `*Folder`) is equality
of indices.  The driver's slice `folders []*Folder` is the list `folders` of
such pointers; it may list an object twice or leave one out, exactly like
the Go slice.  A `Children` slice is a list of pointers.  Reading a slice as
the list of its elements describes the program as long as no two of these
slices (the driver's `folders` and the folders' `Children`) share cells of
a backing array.  The section on slices in memory keeps the slice headers
and the cells (`Memory`, `MoveFolderS`), where the in-place `append` of
`removeChild` and of `MoveFolder` can overwrite cells another slice sees;
`MoveFolderS_refines` shows that the two readings agree on separated memory.

Loops that follow `Parent` or `Children` links need not end on cyclic data, so
`isDescendant`, `updatePaths` and `MoveFolder` take a fuel argument and
answer `none` when the fuel runs out.
-/

namespace folder

/-- Organization identifier (`uuid.UUID`, sixteen bytes), read as a number;
only equality is ever used.  `uuid.Nil` is `0`. -/
abbrev UUID := Nat

/-- Modelled from the spec: the declaration of the struct `Folder` is not among
the sources; its fields are the ones the code reads and writes (`Name`, `OrgId`,
`Paths`, `Parent`, `Children`), with the types the spec gives them: a name, an
organization id, a dotted path, a back-reference to the parent or none, and
the ordered collection of references to the children. -/
structure Folder (n : Nat) where
  Name : String
  OrgId : UUID
  Paths : String
  Parent : Option (Fin n)
  Children : List (Fin n)
deriving DecidableEq

/-- Store of the folder objects: one record per address. -/
abbrev Heap (n : Nat) := Fin n → Folder n

/-- Writes record `v` at address `p`. -/
def Heap.set {n : Nat} (h : Heap n) (p : Fin n) (v : Folder n) : Heap n :=
  fun q => if q = p then v else h q

/-- The struct `driver` together with the objects its pointers refer to. -/
structure State (n : Nat) where
  heap : Heap n
  folders : List (Fin n)

/-- `NewDriver` of `folder.go`: the driver keeps the slice it is given. -/
def NewDriver {n : Nat} (heap : Heap n) (folders : List (Fin n)) : State n :=
  { heap := heap, folders := folders }

/-- Go `strings.HasPrefix(s, prefix)`:
`len(s) >= len(prefix) && s[:len(prefix)] == prefix`. -/
def HasPrefix (s pre : String) : Bool :=
  decide (pre.data.length ≤ s.data.length) && (s.data.take pre.data.length == pre.data)

/-- Loop of `GetFoldersByOrgID`: appends to `res` each folder whose `OrgId`
equals `orgID`. -/
def orgLoop {n : Nat} (h : Heap n) (orgID : UUID) :
    List (Fin n) → List (Fin n) → List (Fin n)
  | [], res => res
  | f :: rest, res =>
    if (h f).OrgId = orgID then orgLoop h orgID rest (res ++ [f])
    else orgLoop h orgID rest res

/-- `GetFoldersByOrgID` of `get_folder.go`. -/
def GetFoldersByOrgID {n : Nat} (s : State n) (orgID : UUID) : List (Fin n) :=
  orgLoop s.heap orgID s.folders []

/-- First loop of `GetAllChildFolders`: the first folder of the list named
`name`, or `none` (the nil `baseFolder`). -/
def findBase {n : Nat} (h : Heap n) (name : String) : List (Fin n) → Option (Fin n)
  | [] => none
  | f :: rest => if (h f).Name = name then some f else findBase h name rest

/-- Second loop of `GetAllChildFolders`: appends to `childFolders` each folder
whose `Paths` starts with `basePath`. -/
def childLoop {n : Nat} (h : Heap n) (basePath : String) :
    List (Fin n) → List (Fin n) → List (Fin n)
  | [], res => res
  | f :: rest, res =>
    if HasPrefix (h f).Paths basePath then childLoop h basePath rest (res ++ [f])
    else childLoop h basePath rest res

/-- `GetAllChildFolders` of `get_folder.go`.  The log lines are not modelled;
the empty slice literal and the nil slice are both the empty list. -/
def GetAllChildFolders {n : Nat} (s : State n) (orgID : UUID) (name : String) :
    List (Fin n) :=
  let folders := GetFoldersByOrgID s orgID
  if folders.length = 0 then []
  else
    match findBase s.heap name folders with
    | none => []
    | some baseFolder =>
      let basePath := (s.heap baseFolder).Paths ++ "."
      let childFolders := childLoop s.heap basePath folders []
      if childFolders.length = 0 then [] else childFolders

/-- `isDescendant` of `move_folder.go`: walks `Parent` links upward from
`current`; `none` when the fuel is used up before the walk ends. -/
def isDescendantLoop {n : Nat} (h : Heap n) (source : Fin n) :
    Nat → Option (Fin n) → Option Bool
  | _, none => some false
  | 0, some _ => none
  | k + 1, some current =>
    if current = source then some true
    else isDescendantLoop h source k (h current).Parent

/-- `isDescendant(source, dest)` called on two non-nil folders. -/
def isDescendant {n : Nat} (fuel : Nat) (h : Heap n) (source dest : Fin n) : Option Bool :=
  isDescendantLoop h source fuel (some dest)

/-- `removeChild(parent, childToRemove)` for a non-nil `parent`: cuts the
first entry identical to `childToRemove` out of `parent.Children`. -/
def removeFirst {n : Nat} (childToRemove : Fin n) : List (Fin n) → List (Fin n)
  | [] => []
  | child :: rest =>
    if child = childToRemove then rest else child :: removeFirst childToRemove rest

/-- `removeChild` of `move_folder.go`; a nil `parent` changes nothing. -/
def removeChild {n : Nat} (h : Heap n) (parent : Option (Fin n)) (childToRemove : Fin n) :
    Heap n :=
  match parent with
  | none => h
  | some p => h.set p { h p with Children := removeFirst childToRemove (h p).Children }

/-- `updatePaths` of `move_folder.go`: rewrites `folder.Paths`, then visits
the children in order; each visit reads `folder.Paths` again.  `none` when the
fuel is used up. -/
def updatePaths {n : Nat} : Nat → Heap n → Fin n → String → Option (Heap n)
  | 0, _, _, _ => none
  | k + 1, h, folder, parentPath =>
    let h1 := h.set folder { h folder with Paths := parentPath ++ "." ++ (h folder).Name }
    (h folder).Children.foldlM (fun hc child => updatePaths k hc child (hc folder).Paths) h1

/-- Go map `map[string]*Folder`. -/
abbrev FolderMap (n : Nat) := String → Option (Fin n)

/-- Map-building loop of `MoveFolder`: `folderMap[folder.Name] = folder` for
each folder in order, a later entry replacing an earlier one. -/
def buildMap {n : Nat} (h : Heap n) : List (Fin n) → FolderMap n → FolderMap n
  | [], m => m
  | folder :: rest, m =>
    buildMap h rest (fun key => if key = (h folder).Name then some folder else m key)

/-- The errors `MoveFolder` builds with `fmt.Errorf`, one constructor per call;
the argument is the name formatted into the message. -/
inductive MoveError where
  | SourceNotFound (name : String)
  | DestinationNotFound (dst : String)
  | MoveToSelf (name : String)
  | MoveIntoOwnDescendant (name : String)
  | CrossOrganizationMove (name : String)
deriving DecidableEq

/-- Text of the error, as formatted by `fmt.Errorf`. -/
def MoveError.Error : MoveError → String
  | .SourceNotFound name => "source folder '" ++ name ++ "' does not exist"
  | .DestinationNotFound dst => "destination folder '" ++ dst ++ "' does not exist"
  | .MoveToSelf name => "cannot move folder '" ++ name ++ "' to itself"
  | .MoveIntoOwnDescendant name => "cannot move folder '" ++ name ++ "' to a child of itself"
  | .CrossOrganizationMove name =>
    "cannot move folder '" ++ name ++ "' to a different organization"

/-- What a call of `MoveFolder` leaves behind: the state after the call and
the two returned values (`none` is the nil slice, respectively the nil error). -/
structure MoveResult (n : Nat) where
  state : State n
  folders : Option (List (Fin n))
  err : Option MoveError

/-- `MoveFolder` of `move_folder.go`, every slice read as the list of its
elements; `none` when the fuel is used up in the ancestry walk or in the path
rewrite.  The registry list is returned as it is: no statement assigns
`f.folders`, and on lists the two `append`s touch `Children` only.  On slices
that share cells this is not the program; `MoveFolderS` is the translation
that keeps headers and cells. -/
def MoveFolder {n : Nat} (fuel : Nat) (s : State n) (name dst : String) :
    Option (MoveResult n) :=
  let folderMap := buildMap s.heap s.folders (fun _ => none)
  match folderMap name with
  | none => some ⟨s, none, some (.SourceNotFound name)⟩
  | some sourceFolder =>
    match folderMap dst with
    | none => some ⟨s, none, some (.DestinationNotFound dst)⟩
    | some destFolder =>
      if sourceFolder = destFolder then some ⟨s, none, some (.MoveToSelf name)⟩
      else
        match isDescendant fuel s.heap sourceFolder destFolder with
        | none => none
        | some true => some ⟨s, none, some (.MoveIntoOwnDescendant name)⟩
        | some false =>
          if (s.heap sourceFolder).OrgId ≠ (s.heap destFolder).OrgId then
            some ⟨s, none, some (.CrossOrganizationMove name)⟩
          else
            let h1 := removeChild s.heap (s.heap sourceFolder).Parent sourceFolder
            let h2 := h1.set sourceFolder { h1 sourceFolder with Parent := some destFolder }
            let h3 := h2.set destFolder
              { h2 destFolder with Children := (h2 destFolder).Children ++ [sourceFolder] }
            match updatePaths fuel h3 sourceFolder (h3 destFolder).Paths with
            | none => none
            | some h4 => some ⟨{ s with heap := h4 }, some s.folders, none⟩

/-! ## Specification vocabulary -/

/-- Literal string prefix: the characters of `pre` open the characters of `s`. -/
def IsLiteralPrefix (pre s : String) : Prop := pre.data <+: s.data

instance (pre s : String) : Decidable (IsLiteralPrefix pre s) := by
  unfold IsLiteralPrefix; infer_instance

/-- The folders of organization `org` in storage order. -/
def ofOrg {n : Nat} (s : State n) (org : UUID) : List (Fin n) :=
  s.folders.filter (fun f => decide ((s.heap f).OrgId = org))

/-- The first registered folder, in storage order, that belongs to `org` and is
named `name`. -/
def firstNamed {n : Nat} (s : State n) (org : UUID) (name : String) : Option (Fin n) :=
  s.folders.find? (fun f => decide ((s.heap f).OrgId = org) && decide ((s.heap f).Name = name))

/-- Folder `c` has `p` as its `Parent`. -/
def parentRel {n : Nat} (h : Heap n) (c p : Fin n) : Prop := (h c).Parent = some p

/-- Folder `c` is listed in `p.Children`. -/
def childRel {n : Nat} (h : Heap n) (p c : Fin n) : Prop := c ∈ (h p).Children

/-- Folder `a` occurs in the parent chain of `d`, the chain starting at `d`
itself: `a` is reached from `d` by following `Parent` links zero or more times. -/
def InParentChain {n : Nat} (h : Heap n) (a d : Fin n) : Prop :=
  Relation.ReflTransGen (parentRel h) d a

/-- No folder occurs in its own proper parent chain. -/
def Acyclic {n : Nat} (h : Heap n) : Prop :=
  ∀ f, ¬ Relation.TransGen (parentRel h) f f

/-- A folder appears in `p.Children` if and only if `p` is its parent. -/
def Consistent {n : Nat} (h : Heap n) : Prop :=
  ∀ p c, c ∈ (h p).Children ↔ (h c).Parent = some p

/-- No `Children` list holds the same folder twice. -/
def NodupChildren {n : Nat} (h : Heap n) : Prop :=
  ∀ p, (h p).Children.Nodup

/-- Folder `g` is in the subtree of `f`: reachable from `f` through `Children`. -/
def InSubtree {n : Nat} (h : Heap n) (f g : Fin n) : Prop :=
  Relation.ReflTransGen (childRel h) f g

/-- Path invariant at folder `g`: `Paths` is the parent's `Paths`, a dot and
`Name` when there is a parent, and `Name` for a root. -/
def PathInv {n : Nat} (h : Heap n) (g : Fin n) : Prop :=
  match (h g).Parent with
  | none => (h g).Paths = (h g).Name
  | some p => (h g).Paths = (h p).Paths ++ "." ++ (h g).Name

/-- Folder the name index of `MoveFolder` holds for `name`: the last registered
folder with that name, if any. -/
def resolve {n : Nat} (s : State n) (name : String) : Option (Fin n) :=
  (s.folders.filter (fun f => decide ((s.heap f).Name = name))).getLast?

/-- The three relinking statements of `MoveFolder` (cut the source out of its
old parent's `Children`, set its `Parent`, append it to the destination's
`Children`), as one function of the store. -/
def relink {n : Nat} (h : Heap n) (src dst : Fin n) : Heap n :=
  let h1 := removeChild h (h src).Parent src
  let h2 := h1.set src { h1 src with Parent := some dst }
  h2.set dst { h2 dst with Children := (h2 dst).Children ++ [src] }

/-- Two stores differ at most in the `Paths` fields. -/
def SameShape {n : Nat} (h h2 : Heap n) : Prop :=
  ∀ g, (h2 g).Name = (h g).Name ∧ (h2 g).OrgId = (h g).OrgId
    ∧ (h2 g).Parent = (h g).Parent ∧ (h2 g).Children = (h g).Children

/-- Inside the subtree of `f` every listed child names the listing folder as
its parent. -/
def SubtreeSound {n : Nat} (h : Heap n) (f : Fin n) : Prop :=
  ∀ x, InSubtree h f x → ∀ c, c ∈ (h x).Children → (h c).Parent = some x

/-- The call `MoveFolder(name, dst)` on state `s` returns with outcome `r`:
some amount of fuel is enough for it. -/
def MoveFolderReturns {n : Nat} (s : State n) (name dst : String) (r : MoveResult n) : Prop :=
  ∃ fuel, MoveFolder fuel s name dst = some r

/-- Path of `f` rebuilt from the links: the names on the parent chain of `f`,
from the root down to `f`, joined with dots; `none` when the chain is longer
than the fuel. -/
def pathFromRoot {n : Nat} (h : Heap n) : Nat → Fin n → Option String
  | 0, _ => none
  | k + 1, f =>
    match (h f).Parent with
    | none => some (h f).Name
    | some p => (pathFromRoot h k p).map (fun pre => pre ++ "." ++ (h f).Name)

/-- A finite sequence of `MoveFolder` calls on one driver, the way the test
`Test_folder_MoveFolder_MultipleOperations` issues them; the returned values
are dropped, the state is threaded through. -/
def runMoves {n : Nat} (fuel : Nat) : State n → List (String × String) → Option (State n)
  | s, [] => some s
  | s, (name, dst) :: rest =>
    match MoveFolder fuel s name dst with
    | none => none
    | some r => runMoves fuel r.state rest

instance {n : Nat} (h : Heap n) (g : Fin n) : Decidable (PathInv h g) := by
  unfold PathInv; split <;> infer_instance

instance {n : Nat} (h : Heap n) : Decidable (Consistent h) := by
  unfold Consistent; infer_instance

instance {n : Nat} (h : Heap n) : Decidable (NodupChildren h) := by
  unfold NodupChildren; infer_instance

/-- Builds a store from the list of its records; `d` fills addresses past the list. -/
def heapOfList {n : Nat} (l : List (Folder n)) (d : Folder n) : Heap n :=
  fun i => l.getD i.val d

/-- Fixture `initializeFolders` of `move_folder_test.go`, with `orgID1 = 1` and
`orgID2 = 2`: alpha 0, bravo 1, charlie 2, delta 3, echo 4, foxtrot 5, golf 6. -/
def testState : State 7 :=
  { heap := heapOfList
      [ ⟨"alpha", 1, "alpha", none, [1, 3]⟩,
        ⟨"bravo", 1, "alpha.bravo", some 0, [2]⟩,
        ⟨"charlie", 1, "alpha.bravo.charlie", some 1, []⟩,
        ⟨"delta", 1, "alpha.delta", some 0, [4]⟩,
        ⟨"echo", 1, "alpha.delta.echo", some 3, []⟩,
        ⟨"foxtrot", 2, "foxtrot", none, []⟩,
        ⟨"golf", 1, "golf", none, []⟩ ]
      ⟨"", 0, "", none, []⟩
    folders := [0, 1, 2, 3, 4, 5, 6] }

/-- Fixture of `Test_folder_GetAllChildFolders` in `get_folder_test.go`, with
`orgID1 = 1` and `orgID2 = 2`; the records carry name, organization and path
only: no `Parent`, no `Children`. -/
def flatState : State 6 :=
  { heap := heapOfList
      [ ⟨"alpha", 1, "alpha", none, []⟩,
        ⟨"bravo", 1, "alpha.bravo", none, []⟩,
        ⟨"charlie", 1, "alpha.bravo.charlie", none, []⟩,
        ⟨"delta", 1, "alpha.delta", none, []⟩,
        ⟨"echo", 1, "echo", none, []⟩,
        ⟨"foxtrot", 2, "foxtrot", none, []⟩ ]
      ⟨"", 0, "", none, []⟩
    folders := [0, 1, 2, 3, 4, 5] }

/-- A store whose `Parent` links run in a circle: a 0 and b 1 name each other
as parent, c 2 is a root; all three belong to organization 1. -/
def cyclicState : State 3 :=
  { heap := heapOfList
      [ ⟨"a", 1, "b.a", some 1, [1]⟩,
        ⟨"b", 1, "a.b", some 0, [0]⟩,
        ⟨"c", 1, "c", none, []⟩ ]
      ⟨"", 0, "", none, []⟩
    folders := [0, 1, 2] }

/-- A store in which p 0 lists its only child s 1 twice; d 2 and e 3 are
further roots of the same organization. -/
def dupState : State 4 :=
  { heap := heapOfList
      [ ⟨"p", 1, "p", none, [1, 1]⟩,
        ⟨"s", 1, "p.s", some 0, []⟩,
        ⟨"d", 1, "d", none, []⟩,
        ⟨"e", 1, "e", none, []⟩ ]
      ⟨"", 0, "", none, []⟩
    folders := [0, 1, 2, 3] }

/-- Outcome of `MoveFolder("bravo", "delta")` on the test fixture. -/
def testMoved : MoveResult 7 :=
  (MoveFolder 10 testState "bravo" "delta").getD ⟨testState, none, none⟩

/-- State after the three moves of `Test_folder_MoveFolder_MultipleOperations`. -/
def testThreeMoves : State 7 :=
  (runMoves 10 testState [("bravo", "delta"), ("delta", "golf"), ("echo", "bravo")]).getD
    testState

/-- Every folder that has a parent belongs to the parent's organization. -/
def SameOrgAsParent {n : Nat} (h : Heap n) : Prop :=
  ∀ c p, (h c).Parent = some p → (h c).OrgId = (h p).OrgId

instance {n : Nat} (h : Heap n) : Decidable (SameOrgAsParent h) := by
  unfold SameOrgAsParent; infer_instance

/-- Fixture "Cyclic folder structure" of `Test_folder_GetAllChildFolders`, with
`orgID1 = 1`: alpha 0 at `alpha`, bravo 1 at `alpha.bravo` and a second alpha 2
at `alpha.bravo.alpha`. -/
def dupNameState : State 3 :=
  { heap := heapOfList
      [ ⟨"alpha", 1, "alpha", none, []⟩,
        ⟨"bravo", 1, "alpha.bravo", none, []⟩,
        ⟨"alpha", 1, "alpha.bravo.alpha", none, []⟩ ]
      ⟨"", 0, "", none, []⟩
    folders := [0, 1, 2] }

/-- Three roots of organization 1: two folders named x, at 0 and 1, and a
folder d at 2. -/
def twoNamedState : State 3 :=
  { heap := heapOfList
      [ ⟨"x", 1, "x", none, []⟩,
        ⟨"x", 1, "x", none, []⟩,
        ⟨"d", 1, "d", none, []⟩ ]
      ⟨"", 0, "", none, []⟩
    folders := [0, 1, 2] }

/-- Folders of organization 1 whose paths share the letters of `alpha`: alpha
0, its child bravo 1 at `alpha.bravo`, the root alphabet 2 and its child x 3 at
`alphabet.x`. -/
def prefixState : State 4 :=
  { heap := heapOfList
      [ ⟨"alpha", 1, "alpha", none, [1]⟩,
        ⟨"bravo", 1, "alpha.bravo", some 0, []⟩,
        ⟨"alphabet", 1, "alphabet", none, [3]⟩,
        ⟨"x", 1, "alphabet.x", some 2, []⟩ ]
      ⟨"", 0, "", none, []⟩
    folders := [0, 1, 2, 3] }

/-- Two folders carry the same `Name`, `OrgId` and `Paths`; their links are not
compared. -/
def SameRecord {n m : Nat} (h1 : Heap n) (h2 : Heap m) (a : Fin n) (b : Fin m) : Prop :=
  (h1 a).Name = (h2 b).Name ∧ (h1 a).OrgId = (h2 b).OrgId ∧ (h1 a).Paths = (h2 b).Paths

/-- The records of `dupNameState` with links that run in a circle and
contradict each other: every folder names the next one as parent and lists
itself and its parent as children. -/
def cyclicLinksState : State 3 :=
  { heap := heapOfList
      [ ⟨"alpha", 1, "alpha", some 1, [0, 1]⟩,
        ⟨"bravo", 1, "alpha.bravo", some 2, [1, 2]⟩,
        ⟨"alpha", 1, "alpha.bravo.alpha", some 0, [2, 0]⟩ ]
      ⟨"", 0, "", none, []⟩
    folders := [0, 1, 2] }

/-- The string holds no dot. -/
def DotFree (str : String) : Prop := '.' ∉ str.data

instance (str : String) : Decidable (DotFree str) := by
  unfold DotFree; infer_instance

/-- Folder `a` is a proper ancestor of `f`: reached from `f` by following
`Parent` links one or more times. -/
def ProperAncestor {n : Nat} (h : Heap n) (a f : Fin n) : Prop :=
  Relation.TransGen (parentRel h) f a

/-- Every registered folder's parent is registered, in the same organization. -/
def ParentsRegistered {n : Nat} (s : State n) : Prop :=
  ∀ f, f ∈ s.folders → ∀ p, (s.heap f).Parent = some p →
    p ∈ s.folders ∧ (s.heap p).OrgId = (s.heap f).OrgId

/-- No registered folder has a dot in its name. -/
def NamesDotFree {n : Nat} (s : State n) : Prop :=
  ∀ f, f ∈ s.folders → DotFree (s.heap f).Name

/-- The registered folders of `org` have pairwise distinct names. -/
def DistinctNamesIn {n : Nat} (s : State n) (org : UUID) : Prop :=
  ∀ f g, f ∈ s.folders → g ∈ s.folders → (s.heap f).OrgId = org → (s.heap g).OrgId = org →
    (s.heap f).Name = (s.heap g).Name → f = g

instance {n : Nat} (s : State n) : Decidable (ParentsRegistered s) := by
  unfold ParentsRegistered; infer_instance

instance {n : Nat} (s : State n) : Decidable (NamesDotFree s) := by
  unfold NamesDotFree; infer_instance

instance {n : Nat} (s : State n) (org : UUID) : Decidable (DistinctNamesIn s org) := by
  unfold DistinctNamesIn; infer_instance

/-- The registered folders have pairwise distinct names. -/
def DistinctNames {n : Nat} (s : State n) : Prop :=
  ∀ f g, f ∈ s.folders → g ∈ s.folders → (s.heap f).Name = (s.heap g).Name → f = g

instance {n : Nat} (s : State n) : Decidable (DistinctNames s) := by
  unfold DistinctNames; infer_instance

/-- Folder p 0 of organization 1 with its child s 1 at `p.s`, and a root 2 of
organization 2 that is also named s and is registered last. -/
def shadowState : State 3 :=
  { heap := heapOfList
      [ ⟨"p", 1, "p", none, [1]⟩,
        ⟨"s", 1, "p.s", some 0, []⟩,
        ⟨"s", 2, "s", none, []⟩ ]
      ⟨"", 0, "", none, []⟩
    folders := [0, 1, 2] }

/-- `updatePaths` with a log of its calls: the same recursion on the same
store, returning next to the new store the folder of every call, in call
order. -/
def updatePathsLog {n : Nat} : Nat → Heap n → Fin n → String → Option (Heap n × List (Fin n))
  | 0, _, _, _ => none
  | k + 1, h, folder, parentPath =>
    let h1 := h.set folder { h folder with Paths := parentPath ++ "." ++ (h folder).Name }
    (h folder).Children.foldlM
      (fun acc child =>
        (updatePathsLog k acc.1 child (acc.1 folder).Paths).map
          (fun res => (res.1, acc.2 ++ res.2)))
      (h1, [folder])

/-! ### Slices in memory

`Children` and the driver's `folders` are Go slices: a header (pointer, length,
capacity) over cells of memory that several headers may share.  The
definitions above read a slice as the list of its elements, which describes
the program as long as no two of these slices share cells.  The definitions
below keep the headers and the cells, so that the in-place `append` of
`removeChild` and of `MoveFolder` writes cells that other slices may see. -/

/-- Go slice header: address of the first element, length and capacity. -/
structure Slice where
  ptr : Nat
  len : Nat
  cap : Nat
deriving DecidableEq

/-- Modelled from the spec: the struct `Folder`, whose declaration is not among
the sources, with the fields of `Folder` above and its `Children` slice kept
as a header. -/
structure FolderS (n : Nat) where
  Name : String
  OrgId : UUID
  Paths : String
  Parent : Option (Fin n)
  Children : Slice
deriving DecidableEq

/-- Memory of a driver: the folder objects, the cells the slices point into,
the first address not yet handed out by the allocator, and the header of the
driver's `folders` slice. -/
structure Memory (n : Nat) where
  heap : Fin n → FolderS n
  cells : Nat → Fin n
  next : Nat
  folders : Slice

/-- Elements of a slice: the cells from `ptr` up to `ptr + len`. -/
def Slice.elems {n : Nat} (cells : Nat → Fin n) (sl : Slice) : List (Fin n) :=
  (List.range sl.len).map (fun i => cells (sl.ptr + i))

/-- The state a memory stands for: every slice read as the list of its
elements. -/
def Memory.toState {n : Nat} (m : Memory n) : State n :=
  { heap := fun g =>
      { Name := (m.heap g).Name, OrgId := (m.heap g).OrgId, Paths := (m.heap g).Paths,
        Parent := (m.heap g).Parent, Children := (m.heap g).Children.elems m.cells }
    folders := m.folders.elems m.cells }

/-- Loop of `removeChild`: index of the first element identical to
`childToRemove`, counting from `i`. -/
def firstIndex {n : Nat} (childToRemove : Fin n) : List (Fin n) → Nat → Option Nat
  | [], _ => none
  | child :: rest, i =>
    if child = childToRemove then some i else firstIndex childToRemove rest (i + 1)

/-- `removeChild` of `move_folder.go` on memory.  At the first match `i`,
`append(parent.Children[:i], parent.Children[i+1:]...)` has room in place (the
length never exceeds the capacity): the elements after `i` move one cell down,
the last cell keeps its content, and the header loses one in length. -/
def removeChildS {n : Nat} (m : Memory n) (parent : Option (Fin n)) (childToRemove : Fin n) :
    Memory n :=
  match parent with
  | none => m
  | some p =>
    let sl := (m.heap p).Children
    match firstIndex childToRemove (sl.elems m.cells) 0 with
    | none => m
    | some i =>
      { m with
        cells := fun a =>
          if sl.ptr + i ≤ a ∧ a + 1 < sl.ptr + sl.len then m.cells (a + 1) else m.cells a
        heap := fun g =>
          if g = p then { m.heap p with Children := ⟨sl.ptr, sl.len - 1, sl.cap⟩ }
          else m.heap g }

/-- The statement `sourceFolder.Parent = destFolder` on memory. -/
def setParentS {n : Nat} (m : Memory n) (sourceFolder destFolder : Fin n) : Memory n :=
  { m with
    heap := fun g =>
      if g = sourceFolder then { m.heap sourceFolder with Parent := some destFolder }
      else m.heap g }

/-- The statement `destFolder.Children = append(destFolder.Children,
sourceFolder)` on memory: with spare capacity the element is written into the
cell after the last one; otherwise the elements are copied to fresh cells at
`next`, of a capacity chosen by the runtime (`grow` of the old capacity, at
least the new length). -/
def appendChildS {n : Nat} (grow : Nat → Nat) (m : Memory n) (destFolder sourceFolder : Fin n) :
    Memory n :=
  let sl := (m.heap destFolder).Children
  if sl.len < sl.cap then
    { m with
      cells := fun a => if a = sl.ptr + sl.len then sourceFolder else m.cells a
      heap := fun g =>
        if g = destFolder then
          { m.heap destFolder with Children := ⟨sl.ptr, sl.len + 1, sl.cap⟩ }
        else m.heap g }
  else
    let newcap := max (sl.len + 1) (grow sl.cap)
    { m with
      cells := fun a =>
        if m.next ≤ a ∧ a < m.next + sl.len then m.cells (sl.ptr + (a - m.next))
        else if a = m.next + sl.len then sourceFolder
        else m.cells a
      next := m.next + newcap
      heap := fun g =>
        if g = destFolder then
          { m.heap destFolder with Children := ⟨m.next, sl.len + 1, newcap⟩ }
        else m.heap g }

/-- `updatePaths` of `move_folder.go` on memory: it writes `Paths` fields and
reads the children through the slice. -/
def updatePathsS {n : Nat} : Nat → Memory n → Fin n → String → Option (Memory n)
  | 0, _, _, _ => none
  | k + 1, m, folder, parentPath =>
    let m1 : Memory n :=
      { m with
        heap := fun g =>
          if g = folder then
            { m.heap folder with Paths := parentPath ++ "." ++ (m.heap folder).Name }
          else m.heap g }
    ((m.heap folder).Children.elems m.cells).foldlM
      (fun mc child => updatePathsS k mc child (mc.heap folder).Paths) m1

/-- Outcome of `MoveFolder` on memory: the memory after the call, the returned
slice header (`none` is nil) and the error. -/
structure MoveResultS (n : Nat) where
  state : Memory n
  folders : Option Slice
  err : Option MoveError

/-- `MoveFolder` of `move_folder.go` on memory.  The name index and the
ancestry walk only read; the relinking writes cells through `removeChildS` and
`appendChildS`; the call returns the header of `f.folders`.  `grow` is the
runtime's capacity policy for `append`. -/
def MoveFolderS {n : Nat} (grow : Nat → Nat) (fuel : Nat) (m : Memory n) (name dst : String) :
    Option (MoveResultS n) :=
  let folderMap := buildMap m.toState.heap (m.folders.elems m.cells) (fun _ => none)
  match folderMap name with
  | none => some ⟨m, none, some (.SourceNotFound name)⟩
  | some sourceFolder =>
    match folderMap dst with
    | none => some ⟨m, none, some (.DestinationNotFound dst)⟩
    | some destFolder =>
      if sourceFolder = destFolder then some ⟨m, none, some (.MoveToSelf name)⟩
      else
        match isDescendant fuel m.toState.heap sourceFolder destFolder with
        | none => none
        | some true => some ⟨m, none, some (.MoveIntoOwnDescendant name)⟩
        | some false =>
          if (m.heap sourceFolder).OrgId ≠ (m.heap destFolder).OrgId then
            some ⟨m, none, some (.CrossOrganizationMove name)⟩
          else
            let m1 := removeChildS m (m.heap sourceFolder).Parent sourceFolder
            let m2 := setParentS m1 sourceFolder destFolder
            let m3 := appendChildS grow m2 destFolder sourceFolder
            match updatePathsS fuel m3 sourceFolder (m3.heap destFolder).Paths with
            | none => none
            | some m4 => some ⟨m4, some m4.folders, none⟩

/-- What a memory-level outcome stands for: the state of the memory and the
elements of the returned slice. -/
def MoveResultS.toResult {n : Nat} (r : MoveResultS n) : MoveResult n :=
  { state := r.state.toState
    folders := r.folders.map (fun sl => sl.elems r.state.cells)
    err := r.err }

/-- The slice is well formed below the allocation mark: its length is within
its capacity and its cells have been handed out. -/
def Slice.WF (next : Nat) (sl : Slice) : Prop :=
  sl.len ≤ sl.cap ∧ sl.ptr + sl.cap ≤ next

/-- Two slices share no cell: one of them has no capacity, or their capacity
ranges lie apart. -/
def Slice.Apart (a b : Slice) : Prop :=
  a.cap = 0 ∨ b.cap = 0 ∨ a.ptr + a.cap ≤ b.ptr ∨ b.ptr + b.cap ≤ a.ptr

instance (next : Nat) (sl : Slice) : Decidable (sl.WF next) := by
  unfold Slice.WF; infer_instance

instance (a b : Slice) : Decidable (a.Apart b) := by
  unfold Slice.Apart; infer_instance

/-- No two of the slices of a memory share a cell: the registry slice and the
`Children` slices of the folders are well formed and pairwise apart. -/
def Separated {n : Nat} (m : Memory n) : Prop :=
  m.folders.WF m.next
  ∧ (∀ g, (m.heap g).Children.WF m.next)
  ∧ (∀ g, (m.heap g).Children.Apart m.folders)
  ∧ (∀ g g2, g ≠ g2 → (m.heap g).Children.Apart (m.heap g2).Children)

instance {n : Nat} (m : Memory n) : Decidable (Separated m) := by
  unfold Separated; infer_instance

/-- A memory in which a `Children` slice is cut out of the registry slice, as
after `alpha.Children = folders[1:]`: the registry alpha 0, bravo 1, delta 2
occupies the cells 0, 1, 2 and `alpha.Children` is the cells 1, 2; bravo and
delta have alpha as parent and nil `Children`. -/
def sharedMemory : Memory 3 :=
  { heap := fun g =>
      [ (⟨"alpha", 1, "alpha", none, ⟨1, 2, 2⟩⟩ : FolderS 3),
        ⟨"bravo", 1, "alpha.bravo", some 0, ⟨0, 0, 0⟩⟩,
        ⟨"delta", 1, "alpha.delta", some 0, ⟨0, 0, 0⟩⟩ ].getD g.val
        ⟨"", 0, "", none, ⟨0, 0, 0⟩⟩
    cells := fun a => [(0 : Fin 3), 1, 2].getD a 0
    next := 3
    folders := ⟨0, 3, 3⟩ }

/-- The same folders with `alpha.Children` in cells of its own: the registry
occupies the cells 0, 1, 2 and `alpha.Children` the cells 3, 4. -/
def apartMemory : Memory 3 :=
  { heap := fun g =>
      [ (⟨"alpha", 1, "alpha", none, ⟨3, 2, 2⟩⟩ : FolderS 3),
        ⟨"bravo", 1, "alpha.bravo", some 0, ⟨0, 0, 0⟩⟩,
        ⟨"delta", 1, "alpha.delta", some 0, ⟨0, 0, 0⟩⟩ ].getD g.val
        ⟨"", 0, "", none, ⟨0, 0, 0⟩⟩
    cells := fun a => [(0 : Fin 3), 1, 2, 1, 2].getD a 0
    next := 5
    folders := ⟨0, 3, 3⟩ }

/-- Capacity policy used in the examples: double, and one for a nil slice. -/
def growDouble (c : Nat) : Nat := if c = 0 then 1 else 2 * c

/-- The memory `m` with the `Paths` field of every folder taken from the
store `h`; headers and cells stay as they are. -/
def Memory.withPaths {n : Nat} (m : Memory n) (h : Heap n) : Memory n :=
  { m with heap := fun g => { m.heap g with Paths := (h g).Paths } }

/-- `NewDriver` of `folder.go` on memory: the driver keeps the header of the
slice it is given, over the cells the caller built. -/
def NewDriverS {n : Nat} (heap : Fin n → FolderS n) (cells : Nat → Fin n) (next : Nat)
    (folders : Slice) : Memory n :=
  { heap := heap, cells := cells, next := next, folders := folders }

/-- A finite sequence of `MoveFolder` calls on one driver, on memory. -/
def runMovesS {n : Nat} (grow : Nat → Nat) (fuel : Nat) :
    Memory n → List (String × String) → Option (Memory n)
  | m, [] => some m
  | m, (name, dst) :: rest =>
    match MoveFolderS grow fuel m name dst with
    | none => none
    | some r => runMovesS grow fuel r.state rest

/-- Every slice of the memory is well formed (sharing of cells is allowed). -/
def SlicesWF {n : Nat} (m : Memory n) : Prop :=
  m.folders.WF m.next ∧ ∀ g, (m.heap g).Children.WF m.next

instance {n : Nat} (m : Memory n) : Decidable (SlicesWF m) := by
  unfold SlicesWF; infer_instance

/-- Outcome of `MoveFolder("bravo", "delta")` on `apartMemory`. -/
def apartMoved : MoveResultS 3 :=
  (MoveFolderS growDouble 5 apartMemory "bravo" "delta").getD ⟨apartMemory, none, none⟩

/-! ## Theorems -/

/-! ## Registry lookup and descendant query -/

theorem HasPrefix_iff (s pre : String) : HasPrefix s pre = true ↔ IsLiteralPrefix pre s := by
  unfold HasPrefix IsLiteralPrefix
  rw [List.prefix_iff_eq_take]
  constructor
  · intro h
    simp only [Bool.and_eq_true, decide_eq_true_eq, beq_iff_eq] at h
    exact h.2.symm
  · intro h
    simp only [Bool.and_eq_true, decide_eq_true_eq, beq_iff_eq]
    refine ⟨?_, h.symm⟩
    have := congrArg List.length h
    simp only [List.length_take] at this
    omega

theorem orgLoop_eq {n : Nat} (h : Heap n) (org : UUID) (l res : List (Fin n)) :
    orgLoop h org l res = res ++ l.filter (fun f => decide ((h f).OrgId = org)) := by
  induction l generalizing res with
  | nil => simp [orgLoop]
  | cons f rest ih =>
    by_cases hf : (h f).OrgId = org
    · simp [orgLoop, hf, ih]
    · simp [orgLoop, hf, ih]

theorem GetFoldersByOrgID_eq {n : Nat} (s : State n) (org : UUID) :
    GetFoldersByOrgID s org = ofOrg s org := by
  simp [GetFoldersByOrgID, ofOrg, orgLoop_eq]

theorem childLoop_eq {n : Nat} (h : Heap n) (basePath : String) (l res : List (Fin n)) :
    childLoop h basePath l res
      = res ++ l.filter (fun f => decide (IsLiteralPrefix basePath (h f).Paths)) := by
  induction l generalizing res with
  | nil => simp [childLoop]
  | cons f rest ih =>
    by_cases hf : HasPrefix (h f).Paths basePath = true
    · have hp := (HasPrefix_iff _ _).1 hf
      simp [childLoop, hf, hp, ih]
    · have hp : ¬ IsLiteralPrefix basePath (h f).Paths := fun hp => hf ((HasPrefix_iff _ _).2 hp)
      simp [childLoop, hf, hp, ih]

theorem findBase_eq {n : Nat} (h : Heap n) (name : String) (l : List (Fin n)) :
    findBase h name l = l.find? (fun f => decide ((h f).Name = name)) := by
  induction l with
  | nil => rfl
  | cons f rest ih =>
    by_cases hf : (h f).Name = name
    · simp [findBase, hf]
    · simp [findBase, hf, ih]

theorem find?_filter_and {α : Type} (p q : α → Bool) (l : List α) :
    (l.filter p).find? q = l.find? (fun a => p a && q a) := by
  induction l with
  | nil => rfl
  | cons a rest ih =>
    by_cases hp : p a = true
    · by_cases hq : q a = true
      · simp [List.filter_cons, hp, hq]
      · simp [List.filter_cons, hp, hq, ih]
    · simp [List.filter_cons, hp, ih]

theorem GetAllChildFolders_of_base {n : Nat} (s : State n) (org : UUID) (name : String)
    (base : Fin n) (hbase : firstNamed s org name = some base) :
    GetAllChildFolders s org name
      = (ofOrg s org).filter
          (fun f => decide (IsLiteralPrefix ((s.heap base).Paths ++ ".") (s.heap f).Paths)) := by
  have hfb : findBase s.heap name (GetFoldersByOrgID s org) = some base := by
    rw [findBase_eq, GetFoldersByOrgID_eq, ofOrg, find?_filter_and]
    exact hbase
  rw [GetFoldersByOrgID_eq] at hfb
  simp only [GetAllChildFolders, GetFoldersByOrgID_eq, hfb, childLoop_eq, List.nil_append]
  split
  · rename_i h0
    rw [List.length_eq_zero.1 h0]; rfl
  · split
    · rename_i h0
      exact (List.length_eq_zero.1 h0).symm
    · rfl

/-- C7: `GetFoldersByOrgID(org)` is the order-preserving filter of the registry
list by `OrgId = org`; every returned folder belongs to `org`; and the result is
empty for any identifier, the nil UUID `0` included, under which no folder is
registered. -/
theorem GetFoldersByOrgID_filter {n : Nat} (s : State n) (org : UUID) :
    GetFoldersByOrgID s org = s.folders.filter (fun f => decide ((s.heap f).OrgId = org))
    ∧ (∀ f, f ∈ GetFoldersByOrgID s org → (s.heap f).OrgId = org)
    ∧ (∀ f, (GetFoldersByOrgID s org).count f = if (s.heap f).OrgId = org then s.folders.count f else 0)
    ∧ ((∀ f, f ∈ s.folders → (s.heap f).OrgId ≠ org) → GetFoldersByOrgID s org = []) := by
  have h := GetFoldersByOrgID_eq s org
  unfold ofOrg at h
  refine ⟨h, ?_, ?_, ?_⟩
  · intro f hf
    rw [h, List.mem_filter] at hf
    simpa using hf.2
  · intro f
    rw [h]
    by_cases hf : (s.heap f).OrgId = org
    · rw [if_pos hf, List.count_filter (by simpa using hf)]
    · rw [if_neg hf, List.count_eq_zero]
      intro hmem
      rw [List.mem_filter] at hmem
      exact hf (by simpa using hmem.2)
  · intro hno
    rw [h, List.filter_eq_nil_iff]
    intro f hf
    simpa using hno f hf

/-- C1: when some folder of `org` is named `name` and `base` is the first such
folder in storage order, `GetAllChildFolders(org, name)` is exactly the
sub-sequence of `GetFoldersByOrgID(org)` of the folders whose `Paths` has
`base.Paths + "."` as a literal prefix: every returned folder passes the
prefix test, and every folder of `org` that is not returned fails it or is
`base`. -/
theorem GetAllChildFolders_prefix_correct {n : Nat} (s : State n) (org : UUID)
    (name : String) (base : Fin n) (hbase : firstNamed s org name = some base) :
    GetAllChildFolders s org name
      = (GetFoldersByOrgID s org).filter
          (fun f => decide (IsLiteralPrefix ((s.heap base).Paths ++ ".") (s.heap f).Paths))
    ∧ (∀ f, f ∈ GetAllChildFolders s org name →
        IsLiteralPrefix ((s.heap base).Paths ++ ".") (s.heap f).Paths)
    ∧ (∀ g, g ∈ GetFoldersByOrgID s org → g ∉ GetAllChildFolders s org name →
        ¬ IsLiteralPrefix ((s.heap base).Paths ++ ".") (s.heap g).Paths ∨ g = base) := by
  have h := GetAllChildFolders_of_base s org name base hbase
  rw [GetFoldersByOrgID_eq]
  refine ⟨h, ?_, ?_⟩
  · intro f hf
    rw [h, List.mem_filter] at hf
    simpa using hf.2
  · intro g hg hnot
    left
    intro hp
    apply hnot
    rw [h, List.mem_filter]
    exact ⟨hg, by simpa using hp⟩

/-! ## Name resolution and relinking -/

theorem Heap.set_apply {n : Nat} (h : Heap n) (p q : Fin n) (v : Folder n) :
    h.set p v q = if q = p then v else h q := rfl

theorem buildMap_eq {n : Nat} (h : Heap n) (l : List (Fin n)) (m : FolderMap n) (key : String) :
    buildMap h l m key
      = ((l.filter (fun f => decide ((h f).Name = key))).getLast?).or (m key) := by
  induction l generalizing m with
  | nil => simp [buildMap]
  | cons f rest ih =>
    rw [buildMap, ih]
    by_cases hf : (h f).Name = key
    · subst hf
      simp only [decide_True, List.filter_cons_of_pos, if_true]
      cases hr : (List.filter (fun g => decide ((h g).Name = (h f).Name)) rest) with
      | nil => simp
      | cons a t =>
        rw [List.getLast?_cons_cons]
        cases hl : (a :: t).getLast? with
        | none => simp at hl
        | some b => rfl
    · have hk : ¬ key = (h f).Name := fun e => hf e.symm
      simp [hf, hk]

theorem folderMap_eq_resolve {n : Nat} (s : State n) (name : String) :
    buildMap s.heap s.folders (fun _ => none) name = resolve s name := by
  rw [buildMap_eq]; simp [resolve]

theorem resolve_eq_none {n : Nat} (s : State n) (name : String) :
    resolve s name = none ↔ ∀ f, f ∈ s.folders → (s.heap f).Name ≠ name := by
  unfold resolve
  rw [List.getLast?_eq_none_iff, List.filter_eq_nil_iff]
  simp

theorem resolve_some {n : Nat} (s : State n) (name : String) (f : Fin n)
    (h : resolve s name = some f) : f ∈ s.folders ∧ (s.heap f).Name = name := by
  unfold resolve at h
  have hm := List.mem_of_getLast?_eq_some h
  rw [List.mem_filter] at hm
  exact ⟨hm.1, by simpa using hm.2⟩

theorem resolve_isSome {n : Nat} (s : State n) (name : String) :
    (∃ f, resolve s name = some f) ↔ ∃ f, f ∈ s.folders ∧ (s.heap f).Name = name := by
  constructor
  · rintro ⟨f, hf⟩
    exact ⟨f, resolve_some s name f hf⟩
  · rintro ⟨f, hf, hn⟩
    cases hr : resolve s name with
    | none => exact absurd hn ((resolve_eq_none s name).1 hr f hf)
    | some g => exact ⟨g, rfl⟩

theorem relink_Name {n : Nat} (h : Heap n) (src dst g : Fin n) :
    (relink h src dst g).Name = (h g).Name := by
  unfold relink removeChild
  cases (h src).Parent <;> simp only [Heap.set_apply] <;> split_ifs <;> simp_all

theorem relink_OrgId {n : Nat} (h : Heap n) (src dst g : Fin n) :
    (relink h src dst g).OrgId = (h g).OrgId := by
  unfold relink removeChild
  cases (h src).Parent <;> simp only [Heap.set_apply] <;> split_ifs <;> simp_all

theorem relink_Paths {n : Nat} (h : Heap n) (src dst g : Fin n) :
    (relink h src dst g).Paths = (h g).Paths := by
  unfold relink removeChild
  cases (h src).Parent <;> simp only [Heap.set_apply] <;> split_ifs <;> simp_all

theorem relink_Parent {n : Nat} (h : Heap n) (src dst g : Fin n) (hne : src ≠ dst) :
    (relink h src dst g).Parent = if g = src then some dst else (h g).Parent := by
  unfold relink removeChild
  cases (h src).Parent <;> simp only [Heap.set_apply] <;> split_ifs <;> simp_all

theorem relink_Children {n : Nat} (h : Heap n) (src dst g : Fin n) :
    (relink h src dst g).Children
      = (if (h src).Parent = some g then removeFirst src (h g).Children else (h g).Children)
        ++ (if g = dst then [src] else []) := by
  unfold relink removeChild
  cases hp : (h src).Parent <;> simp only [Heap.set_apply] <;> split_ifs <;> simp_all

theorem removeFirst_eq_erase {n : Nat} (c : Fin n) (l : List (Fin n)) :
    removeFirst c l = l.erase c := by
  induction l with
  | nil => rfl
  | cons a t ih =>
    by_cases hac : a = c
    · subst hac
      rw [removeFirst, if_pos rfl, List.erase_cons_head]
    · rw [removeFirst, if_neg hac, ih, List.erase_cons_tail (by simpa using hac)]


/-! ## The validation sequence of `MoveFolder` -/

theorem MoveFolder_unfold {n : Nat} (fuel : Nat) (s : State n) (name dst : String) :
    MoveFolder fuel s name dst =
      match resolve s name with
      | none => some ⟨s, none, some (.SourceNotFound name)⟩
      | some src =>
        match resolve s dst with
        | none => some ⟨s, none, some (.DestinationNotFound dst)⟩
        | some d =>
          if src = d then some ⟨s, none, some (.MoveToSelf name)⟩
          else
            match isDescendant fuel s.heap src d with
            | none => none
            | some true => some ⟨s, none, some (.MoveIntoOwnDescendant name)⟩
            | some false =>
              if (s.heap src).OrgId ≠ (s.heap d).OrgId then
                some ⟨s, none, some (.CrossOrganizationMove name)⟩
              else
                (updatePaths fuel (relink s.heap src d) src (s.heap d).Paths).map
                  (fun h4 => ⟨{ s with heap := h4 }, some s.folders, none⟩) := by
  unfold MoveFolder
  simp only [folderMap_eq_resolve]
  cases resolve s name with
  | none => rfl
  | some src =>
    cases resolve s dst with
    | none => rfl
    | some d =>
      simp only
      split
      · rfl
      · cases isDescendant fuel s.heap src d with
        | none => rfl
        | some b =>
          cases b with
          | true => rfl
          | false =>
            simp only
            split
            · rfl
            · have hp : (relink s.heap src d d).Paths = (s.heap d).Paths := relink_Paths _ _ _ _
              show (match updatePaths fuel (relink s.heap src d) src (relink s.heap src d d).Paths with
                | none => none
                | some h4 => some (MoveResult.mk { s with heap := h4 } (some s.folders) none)) = _
              rw [hp]
              cases updatePaths fuel (relink s.heap src d) src (s.heap d).Paths <;> rfl

/-- A call that returns an error leaves the state as it was and returns no list. -/
theorem MoveFolder_error_state {n : Nat} (fuel : Nat) (s : State n) (name dst : String)
    (r : MoveResult n) (hr : MoveFolder fuel s name dst = some r) (he : r.err ≠ none) :
    r.state = s ∧ r.folders = none := by
  rw [MoveFolder_unfold] at hr
  cases h1 : resolve s name with
  | none => rw [h1] at hr; cases hr; exact ⟨rfl, rfl⟩
  | some src =>
    cases h2 : resolve s dst with
    | none => rw [h1, h2] at hr; cases hr; exact ⟨rfl, rfl⟩
    | some d =>
      rw [h1, h2] at hr
      simp only at hr
      split at hr
      · cases hr; exact ⟨rfl, rfl⟩
      · cases h3 : isDescendant fuel s.heap src d with
        | none => rw [h3] at hr; cases hr
        | some b =>
          rw [h3] at hr
          cases b with
          | true => cases hr; exact ⟨rfl, rfl⟩
          | false =>
            simp only at hr
            split at hr
            · cases hr; exact ⟨rfl, rfl⟩
            · cases h4 : updatePaths fuel (relink s.heap src d) src (s.heap d).Paths with
              | none => rw [h4] at hr; cases hr
              | some hp => rw [h4] at hr; cases hr; exact absurd rfl he

/-- A successful call: both names resolve, to distinct folders of one
organization, the ancestry walk answered no, and the new store is the relinked
one with the paths of the source's subtree rewritten. -/
theorem MoveFolder_success {n : Nat} (fuel : Nat) (s : State n) (name dst : String)
    (r : MoveResult n) (hr : MoveFolder fuel s name dst = some r) (he : r.err = none) :
    ∃ src d, resolve s name = some src ∧ resolve s dst = some d ∧ src ≠ d
      ∧ isDescendant fuel s.heap src d = some false
      ∧ (s.heap src).OrgId = (s.heap d).OrgId
      ∧ updatePaths fuel (relink s.heap src d) src (s.heap d).Paths = some r.state.heap
      ∧ r.state.folders = s.folders ∧ r.folders = some s.folders := by
  rw [MoveFolder_unfold] at hr
  cases h1 : resolve s name with
  | none => rw [h1] at hr; cases hr; cases he
  | some src =>
    cases h2 : resolve s dst with
    | none => rw [h1, h2] at hr; cases hr; cases he
    | some d =>
      rw [h1, h2] at hr
      simp only at hr
      split at hr
      · cases hr; cases he
      · rename_i hne
        cases h3 : isDescendant fuel s.heap src d with
        | none => rw [h3] at hr; cases hr
        | some b =>
          rw [h3] at hr
          cases b with
          | true => cases hr; cases he
          | false =>
            simp only at hr
            split at hr
            · cases hr; cases he
            · rename_i horg
              cases h4 : updatePaths fuel (relink s.heap src d) src (s.heap d).Paths with
              | none => rw [h4] at hr; cases hr
              | some hp =>
                rw [h4] at hr; cases hr
                exact ⟨src, d, rfl, rfl, hne, h3, not_not.1 horg, h4, rfl, rfl⟩


/-! ## The ancestry walk -/

theorem isDescendantLoop_true {n : Nat} (h : Heap n) (src : Fin n) (k : Nat)
    (cur : Option (Fin n)) (hk : isDescendantLoop h src k cur = some true) :
    ∃ c, cur = some c ∧ Relation.ReflTransGen (parentRel h) c src := by
  induction k generalizing cur with
  | zero =>
    cases cur with
    | none => simp [isDescendantLoop] at hk
    | some c => simp [isDescendantLoop] at hk
  | succ k ih =>
    cases cur with
    | none => simp [isDescendantLoop] at hk
    | some c =>
      by_cases hc : c = src
      · exact ⟨c, rfl, hc ▸ Relation.ReflTransGen.refl⟩
      · rw [isDescendantLoop, if_neg hc] at hk
        obtain ⟨p, hp, hchain⟩ := ih _ hk
        exact ⟨c, rfl, Relation.ReflTransGen.head hp hchain⟩

theorem isDescendantLoop_false {n : Nat} (h : Heap n) (src : Fin n) (k : Nat)
    (cur : Option (Fin n)) (hk : isDescendantLoop h src k cur = some false) :
    ∀ c, cur = some c → ¬ Relation.ReflTransGen (parentRel h) c src := by
  induction k generalizing cur with
  | zero =>
    cases cur with
    | none => intro c hc; cases hc
    | some c => simp [isDescendantLoop] at hk
  | succ k ih =>
    cases cur with
    | none => intro c hc; cases hc
    | some c =>
      intro c2 hc2 hchain
      cases hc2
      by_cases hc : c = src
      · rw [isDescendantLoop, if_pos hc] at hk; cases hk
      · rw [isDescendantLoop, if_neg hc] at hk
        rcases hchain.cases_head with heq | ⟨p, hp, hrest⟩
        · exact hc heq
        · exact ih _ hk p hp hrest

theorem isDescendantLoop_mono {n : Nat} (h : Heap n) (src : Fin n) (k : Nat)
    (cur : Option (Fin n)) (b : Bool) (hk : isDescendantLoop h src k cur = some b)
    (k2 : Nat) (hle : k ≤ k2) : isDescendantLoop h src k2 cur = some b := by
  induction k generalizing cur k2 with
  | zero =>
    cases cur with
    | none => cases k2 <;> simpa [isDescendantLoop] using hk
    | some c => simp [isDescendantLoop] at hk
  | succ k ih =>
    cases cur with
    | none => cases k2 <;> simpa [isDescendantLoop] using hk
    | some c =>
      obtain ⟨j, rfl⟩ : ∃ j, k2 = j + 1 := ⟨k2 - 1, by omega⟩
      by_cases hc : c = src
      · rw [isDescendantLoop, if_pos hc] at hk
        rw [isDescendantLoop, if_pos hc]; exact hk
      · rw [isDescendantLoop, if_neg hc] at hk
        rw [isDescendantLoop, if_neg hc]
        exact ih _ hk j (by omega)

/-- The walk finds the source whenever it is in the chain, cyclic data or not. -/
theorem isDescendantLoop_of_chain {n : Nat} (h : Heap n) (src c : Fin n)
    (hchain : Relation.ReflTransGen (parentRel h) c src) :
    ∃ k, isDescendantLoop h src k (some c) = some true := by
  induction hchain using Relation.ReflTransGen.head_induction_on with
  | refl => exact ⟨1, by simp [isDescendantLoop]⟩
  | @head a p hp _ ih =>
    obtain ⟨k, hk⟩ := ih
    by_cases ha : a = src
    · exact ⟨1, by simp [isDescendantLoop, ha]⟩
    · refine ⟨k + 1, ?_⟩
      rw [isDescendantLoop, if_neg ha]
      have hp2 : (h a).Parent = some p := hp
      rw [hp2]; exact hk

theorem wellFounded_parentRel {n : Nat} (h : Heap n) (hA : Acyclic h) :
    WellFounded (parentRel h) := by
  haveI : IsIrrefl (Fin n) (Relation.TransGen (parentRel h)) := ⟨hA⟩
  have hwf : WellFounded (Relation.TransGen (parentRel h)) :=
    Finite.wellFounded_of_trans_of_irrefl _
  exact Subrelation.wf (fun hr => Relation.TransGen.single hr) hwf

theorem wellFounded_swap_parentRel {n : Nat} (h : Heap n) (hA : Acyclic h) :
    WellFounded (Function.swap (parentRel h)) := by
  haveI : IsIrrefl (Fin n) (Function.swap (Relation.TransGen (parentRel h))) := ⟨hA⟩
  haveI : IsTrans (Fin n) (Function.swap (Relation.TransGen (parentRel h))) :=
    ⟨fun _ _ _ hab hbc => Relation.TransGen.trans hbc hab⟩
  have hwf : WellFounded (Function.swap (Relation.TransGen (parentRel h))) :=
    Finite.wellFounded_of_trans_of_irrefl _
  exact Subrelation.wf
    (r := Function.swap (Relation.TransGen (parentRel h)))
    (fun hr => Relation.TransGen.single (r := parentRel h) hr) hwf

/-- On an acyclic parent chain the walk ends. -/
theorem isDescendantLoop_terminates {n : Nat} (h : Heap n) (hA : Acyclic h) (src : Fin n)
    (cur : Option (Fin n)) : ∃ k b, isDescendantLoop h src k cur = some b := by
  cases cur with
  | none => exact ⟨0, false, rfl⟩
  | some c =>
    induction c using (wellFounded_swap_parentRel h hA).induction with
    | _ c ih =>
      by_cases hc : c = src
      · exact ⟨1, true, by simp [isDescendantLoop, hc]⟩
      · cases hp : (h c).Parent with
        | none => exact ⟨1, false, by simp [isDescendantLoop, hc, hp]⟩
        | some p =>
          obtain ⟨k, b, hk⟩ := ih p hp
          exact ⟨k + 1, b, by rw [isDescendantLoop, if_neg hc, hp]; exact hk⟩

/-- What the walk answers, when it answers: whether the source is in the
parent chain of the destination. -/
theorem isDescendant_iff {n : Nat} (fuel : Nat) (h : Heap n) (src d : Fin n) (b : Bool)
    (hk : isDescendant fuel h src d = some b) : b = true ↔ InParentChain h src d := by
  unfold isDescendant at hk
  unfold InParentChain
  cases b with
  | true =>
    obtain ⟨c, hc, hchain⟩ := isDescendantLoop_true h src fuel _ hk
    cases hc
    exact ⟨fun _ => hchain, fun _ => rfl⟩
  | false =>
    have := isDescendantLoop_false h src fuel _ hk d rfl
    exact ⟨fun hb => Bool.noConfusion hb, fun hc => absurd hc this⟩


/-! ## The path rewrite -/

theorem foldlM_option_inv {α β : Type} (f : β → α → Option β) (I : β → List α → Prop)
    (l : List α) (b b2 : β) (h0 : I b [])
    (step : ∀ x done a y, I x done → a ∈ l → f x a = some y → I y (done ++ [a]))
    (hr : l.foldlM f b = some b2) : I b2 l := by
  have key : ∀ (rest done : List α) (x : β), done ++ rest = l → I x done →
      rest.foldlM f x = some b2 → I b2 l := by
    intro rest
    induction rest with
    | nil =>
      intro done x hl hI hx
      simp only [List.foldlM_nil, pure, Option.some.injEq] at hx
      rw [List.append_nil] at hl
      subst hl; subst hx; exact hI
    | cons a t ih =>
      intro done x hl hI hx
      rw [List.foldlM_cons] at hx
      cases hfa : f x a with
      | none => rw [hfa] at hx; cases hx
      | some y =>
        rw [hfa] at hx
        have ha : a ∈ l := by rw [← hl]; simp
        exact ih (done ++ [a]) y (by rw [← hl]; simp) (step x done a y hI ha hfa) hx
  exact key l [] b rfl h0 hr

theorem foldlM_option_mono {α β : Type} (f g : β → α → Option β) (l : List α) (b b2 : β)
    (hfg : ∀ x a y, a ∈ l → f x a = some y → g x a = some y)
    (hr : l.foldlM f b = some b2) : l.foldlM g b = some b2 := by
  induction l generalizing b with
  | nil => simpa using hr
  | cons a t ih =>
    rw [List.foldlM_cons] at hr
    rw [List.foldlM_cons]
    cases hfa : f b a with
    | none => rw [hfa] at hr; cases hr
    | some y =>
      rw [hfa] at hr
      rw [hfg b a y (by simp) hfa]
      exact ih y (fun x c z hc hz => hfg x c z (List.mem_cons_of_mem _ hc) hz) hr

theorem foldlM_option_isSome {α β : Type} (f : β → α → Option β) (I : β → Prop)
    (l : List α) (b : β) (h0 : I b)
    (step : ∀ x a, I x → a ∈ l → ∃ y, f x a = some y ∧ I y) :
    ∃ b2, l.foldlM f b = some b2 := by
  induction l generalizing b with
  | nil => exact ⟨b, rfl⟩
  | cons a t ih =>
    obtain ⟨y, hy, hIy⟩ := step b a h0 (by simp)
    obtain ⟨b2, hb2⟩ := ih y hIy (fun x c hx hc => step x c hx (List.mem_cons_of_mem _ hc))
    exact ⟨b2, by rw [List.foldlM_cons, hy]; exact hb2⟩

theorem updatePaths_succ {n : Nat} (k : Nat) (h : Heap n) (f : Fin n) (pp : String) :
    updatePaths (k + 1) h f pp
      = (h f).Children.foldlM (fun hc child => updatePaths k hc child (hc f).Paths)
          (h.set f { h f with Paths := pp ++ "." ++ (h f).Name }) := rfl

theorem SameShape.refl {n : Nat} (h : Heap n) : SameShape h h :=
  fun _ => ⟨rfl, rfl, rfl, rfl⟩

theorem SameShape.trans {n : Nat} {h1 h2 h3 : Heap n} (h12 : SameShape h1 h2)
    (h23 : SameShape h2 h3) : SameShape h1 h3 := fun g =>
  ⟨(h23 g).1.trans (h12 g).1, (h23 g).2.1.trans (h12 g).2.1,
    (h23 g).2.2.1.trans (h12 g).2.2.1, (h23 g).2.2.2.trans (h12 g).2.2.2⟩

theorem SameShape.symm {n : Nat} {h1 h2 : Heap n} (h12 : SameShape h1 h2) :
    SameShape h2 h1 := fun g =>
  ⟨(h12 g).1.symm, (h12 g).2.1.symm, (h12 g).2.2.1.symm, (h12 g).2.2.2.symm⟩

theorem SameShape.set_Paths {n : Nat} (h : Heap n) (f : Fin n) (str : String) :
    SameShape h (h.set f { h f with Paths := str }) := by
  intro g
  rw [Heap.set_apply]
  split
  · rename_i hg; subst hg; exact ⟨rfl, rfl, rfl, rfl⟩
  · exact ⟨rfl, rfl, rfl, rfl⟩

theorem SameShape.parentRel_eq {n : Nat} {h1 h2 : Heap n} (h12 : SameShape h1 h2) :
    parentRel h2 = parentRel h1 := by
  funext c p
  unfold parentRel
  rw [(h12 c).2.2.1]

theorem SameShape.childRel_eq {n : Nat} {h1 h2 : Heap n} (h12 : SameShape h1 h2) :
    childRel h2 = childRel h1 := by
  funext p c
  unfold childRel
  rw [(h12 p).2.2.2]

/-- The rewrite changes `Paths` fields only. -/
theorem updatePaths_shape {n : Nat} (k : Nat) (h h2 : Heap n) (f : Fin n) (pp : String)
    (hr : updatePaths k h f pp = some h2) : SameShape h h2 := by
  induction k generalizing h h2 f pp with
  | zero => cases hr
  | succ k ih =>
    rw [updatePaths_succ] at hr
    refine foldlM_option_inv _ (fun x _ => SameShape h x) _ _ _ ?_ ?_ hr
    · exact SameShape.set_Paths h f _
    · intro x _ a y hx _ hy
      exact hx.trans (ih _ _ _ _ hy)

/-- More fuel does not change the result of the rewrite. -/
theorem updatePaths_mono {n : Nat} (k : Nat) (h h2 : Heap n) (f : Fin n) (pp : String)
    (hr : updatePaths k h f pp = some h2) (k2 : Nat) (hle : k ≤ k2) :
    updatePaths k2 h f pp = some h2 := by
  induction k generalizing h h2 f pp k2 with
  | zero => cases hr
  | succ k ih =>
    obtain ⟨j, rfl⟩ : ∃ j, k2 = j + 1 := ⟨k2 - 1, by omega⟩
    rw [updatePaths_succ] at hr
    rw [updatePaths_succ]
    exact foldlM_option_mono _ _ _ _ _
      (fun x a y _ hy => ih _ _ _ _ hy j (by omega)) hr

/-- The rewrite leaves every folder outside the subtree of `f` as it was. -/
theorem updatePaths_frame {n : Nat} (k : Nat) (h h2 : Heap n) (f : Fin n) (pp : String)
    (hr : updatePaths k h f pp = some h2) (g : Fin n) (hg : ¬ InSubtree h f g) :
    h2 g = h g := by
  induction k generalizing h h2 f pp with
  | zero => cases hr
  | succ k ih =>
    rw [updatePaths_succ] at hr
    have hgf : g ≠ f := fun e => hg (e ▸ Relation.ReflTransGen.refl)
    have key := foldlM_option_inv _ (fun x _ => SameShape h x ∧ x g = h g) _ _ _ ?_ ?_ hr
    · exact key.2
    · refine ⟨SameShape.set_Paths h f _, ?_⟩
      rw [Heap.set_apply, if_neg hgf]
    · intro x _ a y hx ha hy
      refine ⟨hx.1.trans (updatePaths_shape _ _ _ _ _ hy), ?_⟩
      rw [ih _ _ _ _ hy, hx.2]
      intro hsub
      apply hg
      unfold InSubtree at hsub ⊢
      rw [hx.1.childRel_eq] at hsub
      exact Relation.ReflTransGen.head ha hsub


theorem SameShape.inSubtree_iff {n : Nat} {h1 h2 : Heap n} (h12 : SameShape h1 h2)
    (f g : Fin n) : InSubtree h2 f g ↔ InSubtree h1 f g := by
  unfold InSubtree; rw [h12.childRel_eq]

theorem SameShape.acyclic {n : Nat} {h1 h2 : Heap n} (h12 : SameShape h1 h2)
    (hA : Acyclic h1) : Acyclic h2 := by
  unfold Acyclic; rw [h12.parentRel_eq]; exact hA

theorem SameShape.subtreeSound {n : Nat} {h1 h2 : Heap n} (h12 : SameShape h1 h2)
    (f : Fin n) (hS : SubtreeSound h1 f) : SubtreeSound h2 f := by
  intro x hx c hc
  rw [h12.inSubtree_iff] at hx
  rw [(h12 x).2.2.2] at hc
  rw [(h12 c).2.2.1]
  exact hS x hx c hc

theorem SubtreeSound.child {n : Nat} {h : Heap n} {f c : Fin n} (hS : SubtreeSound h f)
    (hc : InSubtree h f c) : SubtreeSound h c :=
  fun x hx => hS x (Relation.ReflTransGen.trans hc hx)

/-- Inside a sound subtree, going down through `Children` is going up through
`Parent` in reverse. -/
theorem SubtreeSound.chain {n : Nat} {h : Heap n} {f x : Fin n} (hS : SubtreeSound h f)
    (hx : InSubtree h f x) : Relation.ReflTransGen (parentRel h) x f := by
  unfold InSubtree at hx
  induction hx with
  | refl => exact Relation.ReflTransGen.refl
  | tail hb hbc ih =>
    exact Relation.ReflTransGen.head (hS _ hb _ hbc) ih

theorem SubtreeSound.no_back {n : Nat} {h : Heap n} {f c : Fin n} (hS : SubtreeSound h f)
    (hA : Acyclic h) (hc : c ∈ (h f).Children) : ¬ InSubtree h c f := by
  intro hcf
  have hcsub : InSubtree h f c := Relation.ReflTransGen.single hc
  have hchain := (hS.child hcsub).chain hcf
  have hpar : parentRel h c f := hS f Relation.ReflTransGen.refl c hc
  exact hA c (Relation.TransGen.head' hpar hchain)

/-- A folder strictly inside the subtree of `a` is listed by a folder of that
subtree. -/
theorem InSubtree.lister {n : Nat} {h : Heap n} {a g : Fin n} (hg : InSubtree h a g) :
    g = a ∨ ∃ z, InSubtree h a z ∧ g ∈ (h z).Children :=
  Relation.ReflTransGen.cases_tail hg

/-- The rewrite of the subtree of `f`, on a store where that subtree is sound
and the parent chain acyclic: `f` gets `parentPath + "." + Name`, and every
folder listed inside the subtree gets the new path of the folder listing it, a
dot and its own name. -/
theorem updatePaths_tree {n : Nat} (k : Nat) (h h2 : Heap n) (f : Fin n) (pp : String)
    (hS : SubtreeSound h f) (hA : Acyclic h) (hr : updatePaths k h f pp = some h2) :
    (h2 f).Paths = pp ++ "." ++ (h f).Name
    ∧ ∀ x, InSubtree h f x → ∀ c, c ∈ (h x).Children →
        (h2 c).Paths = (h2 x).Paths ++ "." ++ (h c).Name := by
  induction k generalizing h h2 f pp with
  | zero => cases hr
  | succ k ih =>
    rw [updatePaths_succ] at hr
    have key := foldlM_option_inv _
      (fun (x : Heap n) (done : List (Fin n)) =>
        SameShape h x ∧ (x f).Paths = pp ++ "." ++ (h f).Name
        ∧ ∀ c, c ∈ done → c ∈ (h f).Children
            ∧ (x c).Paths = pp ++ "." ++ (h f).Name ++ "." ++ (h c).Name
            ∧ ∀ z, InSubtree h c z → ∀ c2, c2 ∈ (h z).Children →
                (x c2).Paths = (x z).Paths ++ "." ++ (h c2).Name) _ _ _ ?_ ?_ hr
    · obtain ⟨_, hPf, hdone⟩ := key
      refine ⟨hPf, ?_⟩
      intro x hx c hc
      rcases Relation.ReflTransGen.cases_head hx with heq | ⟨c0, hc0, hrest⟩
      · subst heq
        rw [(hdone c hc).2.1, hPf]
      · exact (hdone c0 hc0).2.2 x hrest c hc
    · refine ⟨SameShape.set_Paths h f _, ?_, ?_⟩
      · rw [Heap.set_apply, if_pos rfl]
      · intro c hc; cases hc
    · intro x done a y hI ha hy
      obtain ⟨hsh, hPf, hdone⟩ := hI
      have haf : InSubtree h f a := Relation.ReflTransGen.single ha
      have hSa : SubtreeSound x a := hsh.subtreeSound a (hS.child haf)
      have hAx : Acyclic x := hsh.acyclic hA
      obtain ⟨hPa, hedges⟩ := ih x y a (x f).Paths hSa hAx hy
      have hshy : SameShape x y := updatePaths_shape _ _ _ _ _ hy
      have hframe : ∀ g, ¬ InSubtree h a g → y g = x g := fun g hg =>
        updatePaths_frame _ _ _ _ _ hy g (fun hsub => hg ((hsh.inSubtree_iff a g).1 hsub))
      have hnb : ¬ InSubtree h a f := hS.no_back hA ha
      have hyf : y f = x f := hframe f hnb
      have hPa2 : (y a).Paths = pp ++ "." ++ (h f).Name ++ "." ++ (h a).Name := by
        rw [hPa, hPf, (hsh a).1]
      have hedges2 : ∀ z, InSubtree h a z → ∀ c2, c2 ∈ (h z).Children →
          (y c2).Paths = (y z).Paths ++ "." ++ (h c2).Name := by
        intro z hz c2 hc2
        have := hedges z ((hsh.inSubtree_iff a z).2 hz) c2 (by rw [(hsh z).2.2.2]; exact hc2)
        rw [this, (hsh c2).1]
      have hparA : (h a).Parent = some f := hS f Relation.ReflTransGen.refl a ha
      refine ⟨hsh.trans hshy, by rw [hyf, hPf], ?_⟩
      intro c hc
      rw [List.mem_append, List.mem_singleton] at hc
      by_cases hca : c = a
      · subst hca
        exact ⟨ha, hPa2, hedges2⟩
      · have hcd : c ∈ done := hc.resolve_right hca
        obtain ⟨hcf, hPc, hcedges⟩ := hdone c hcd
        have hparC : (h c).Parent = some f := hS f Relation.ReflTransGen.refl c hcf
        have hcsub : InSubtree h f c := Relation.ReflTransGen.single hcf
        -- `c` is not inside the subtree of `a`
        have hnac : ¬ InSubtree h a c := by
          intro hac
          rcases InSubtree.lister hac with heq | ⟨z, hz, hcz⟩
          · exact hca heq
          · have hpz : (h c).Parent = some z :=
              hS z (Relation.ReflTransGen.trans haf hz) c hcz
            rw [hparC] at hpz
            cases hpz
            exact hnb hz
        refine ⟨hcf, by rw [hframe c hnac, hPc], ?_⟩
        intro z hz c2 hc2
        by_cases haz : InSubtree h a z
        · exact hedges2 z haz c2 hc2
        · have hzsub : InSubtree h f z := Relation.ReflTransGen.trans hcsub hz
          have hpc2 : (h c2).Parent = some z := hS z hzsub c2 hc2
          have hnac2 : ¬ InSubtree h a c2 := by
            intro hac2
            rcases InSubtree.lister hac2 with heq | ⟨w, hw, hcw⟩
            · subst heq
              rw [hparA] at hpc2
              cases hpc2
              exact hS.no_back hA hcf hz
            · have hpw : (h c2).Parent = some w :=
                hS w (Relation.ReflTransGen.trans haf hw) c2 hcw
              rw [hpc2] at hpw
              cases hpw
              exact haz hw
          rw [hframe c2 hnac2, hframe z haz]
          exact hcedges z hz c2 hc2

/-- With consistent `Children`, the subtree of `f` holds exactly the folders
that have `f` in their parent chain. -/
theorem inSubtree_iff_chain {n : Nat} (h : Heap n) (hC : Consistent h) (f g : Fin n) :
    InSubtree h f g ↔ InParentChain h f g := by
  unfold InSubtree InParentChain
  constructor
  · intro hsub
    induction hsub with
    | refl => exact Relation.ReflTransGen.refl
    | tail _ hbc ih => exact Relation.ReflTransGen.head ((hC _ _).1 hbc) ih
  · intro hch
    induction hch using Relation.ReflTransGen.head_induction_on with
    | refl => exact Relation.ReflTransGen.refl
    | head hp _ ih => exact Relation.ReflTransGen.tail ih ((hC _ _).2 hp)

/-- A parent chain of the relinked store either avoids the new link or runs
through it. -/
theorem relink_transGen {n : Nat} (h : Heap n) (src d a b : Fin n) (hne : src ≠ d)
    (hab : Relation.TransGen (parentRel (relink h src d)) a b) :
    Relation.TransGen (parentRel h) a b
      ∨ (Relation.ReflTransGen (parentRel h) a src ∧ Relation.ReflTransGen (parentRel h) d b) := by
  have edge : ∀ x y, parentRel (relink h src d) x y →
      (x = src ∧ y = d) ∨ (x ≠ src ∧ parentRel h x y) := by
    intro x y hxy
    unfold parentRel at hxy
    rw [relink_Parent h src d x hne] at hxy
    by_cases hx : x = src
    · rw [if_pos hx] at hxy
      exact Or.inl ⟨hx, (Option.some.inj hxy).symm⟩
    · rw [if_neg hx] at hxy
      exact Or.inr ⟨hx, hxy⟩
  induction hab with
  | single hxy =>
    rcases edge _ _ hxy with ⟨hx, hy⟩ | ⟨_, hp⟩
    · subst hx; subst hy
      exact Or.inr ⟨Relation.ReflTransGen.refl, Relation.ReflTransGen.refl⟩
    · exact Or.inl (Relation.TransGen.single hp)
  | tail _ hbc ih =>
    rcases edge _ _ hbc with ⟨hx, hy⟩ | ⟨_, hp⟩
    · subst hx; subst hy
      rcases ih with hl | ⟨hr, _⟩
      · exact Or.inr ⟨hl.to_reflTransGen, Relation.ReflTransGen.refl⟩
      · exact Or.inr ⟨hr, Relation.ReflTransGen.refl⟩
    · rcases ih with hl | ⟨hr1, hr2⟩
      · exact Or.inl (Relation.TransGen.tail hl hp)
      · exact Or.inr ⟨hr1, Relation.ReflTransGen.tail hr2 hp⟩

/-- Relinking the source under a destination whose parent chain does not hold
the source creates no cycle. -/
theorem relink_acyclic {n : Nat} (h : Heap n) (src d : Fin n) (hne : src ≠ d)
    (hA : Acyclic h) (hnc : ¬ InParentChain h src d) : Acyclic (relink h src d) := by
  intro f hf
  rcases relink_transGen h src d f f hne hf with hl | ⟨h1, h2⟩
  · exact hA f hl
  · exact hnc (Relation.ReflTransGen.trans h2 h1)

/-- Relinking does not touch the `Children` lists inside the subtree of the
source. -/
theorem relink_Children_subtree {n : Nat} (h : Heap n) (src d : Fin n) (hC : Consistent h)
    (hA : Acyclic h) (hnc : ¬ InParentChain h src d) (g : Fin n) (hg : InSubtree h src g) :
    (relink h src d g).Children = (h g).Children := by
  have hch := (inSubtree_iff_chain h hC src g).1 hg
  rw [relink_Children]
  have h1 : ¬ (h src).Parent = some g := by
    intro hp
    exact hA src (Relation.TransGen.head' hp hch)
  have h2 : ¬ g = d := by
    intro e; subst e; exact hnc hch
  rw [if_neg h1, if_neg h2, List.append_nil]

theorem relink_inSubtree {n : Nat} (h : Heap n) (src d : Fin n) (hC : Consistent h)
    (hA : Acyclic h) (hnc : ¬ InParentChain h src d) (g : Fin n) :
    InSubtree (relink h src d) src g ↔ InSubtree h src g := by
  unfold InSubtree
  constructor
  · intro hsub
    induction hsub with
    | refl => exact Relation.ReflTransGen.refl
    | tail _ hbc ih =>
      refine Relation.ReflTransGen.tail ih ?_
      unfold childRel at hbc ⊢
      rwa [relink_Children_subtree h src d hC hA hnc _ ih] at hbc
  · intro hsub
    induction hsub with
    | refl => exact Relation.ReflTransGen.refl
    | tail hb hbc ih =>
      refine Relation.ReflTransGen.tail ih ?_
      unfold childRel at hbc ⊢
      rwa [relink_Children_subtree h src d hC hA hnc _ hb]

theorem relink_subtreeSound {n : Nat} (h : Heap n) (src d : Fin n) (hne : src ≠ d)
    (hC : Consistent h) (hA : Acyclic h) (hnc : ¬ InParentChain h src d) :
    SubtreeSound (relink h src d) src := by
  intro x hx c hc
  have hx2 := (relink_inSubtree h src d hC hA hnc x).1 hx
  rw [relink_Children_subtree h src d hC hA hnc x hx2] at hc
  have hp : parentRel h c x := (hC x c).1 hc
  rw [relink_Parent h src d c hne]
  by_cases hcs : c = src
  · subst hcs
    have hch : InParentChain h c x := (inSubtree_iff_chain h hC c x).1 hx2
    exact absurd (Relation.TransGen.head' hp hch) (hA c)
  · rw [if_neg hcs]; exact hp

theorem exists_uniform_fuel {α : Type} (P : Nat → α → Prop)
    (hmono : ∀ k k2 a, k ≤ k2 → P k a → P k2 a) (l : List α)
    (hl : ∀ a, a ∈ l → ∃ k, P k a) : ∃ K, ∀ a, a ∈ l → P K a := by
  induction l with
  | nil => exact ⟨0, fun a ha => by cases ha⟩
  | cons b t ih =>
    obtain ⟨k1, hk1⟩ := hl b (by simp)
    obtain ⟨k2, hk2⟩ := ih (fun a ha => hl a (List.mem_cons_of_mem _ ha))
    refine ⟨max k1 k2, ?_⟩
    intro a ha
    rcases List.mem_cons.1 ha with rfl | hat
    · exact hmono k1 _ _ (le_max_left _ _) hk1
    · exact hmono k2 _ _ (le_max_right _ _) (hk2 a hat)

/-- The rewrite of a sound subtree ends when the parent chain is acyclic: some
amount of fuel serves every store of the same shape and every parent path. -/
theorem updatePaths_terminates {n : Nat} (h : Heap n) (hA : Acyclic h) (f : Fin n)
    (hS : SubtreeSound h f) :
    ∃ k, ∀ (h1 : Heap n) (pp : String), SameShape h h1 → ∃ h2, updatePaths k h1 f pp = some h2 := by
  induction f using (wellFounded_parentRel h hA).induction with
  | _ f ih =>
    have hchildren : ∀ a, a ∈ (h f).Children →
        ∃ k, ∀ (h1 : Heap n) (pp : String), SameShape h h1 →
          ∃ h2, updatePaths k h1 a pp = some h2 := by
      intro a ha
      exact ih a (hS f Relation.ReflTransGen.refl a ha)
        (hS.child (Relation.ReflTransGen.single ha))
    obtain ⟨K, hK⟩ := exists_uniform_fuel
      (fun k a => ∀ (h1 : Heap n) (pp : String), SameShape h h1 →
          ∃ h2, updatePaths k h1 a pp = some h2)
      (fun k k2 a hle hP h1 pp hsh => by
        obtain ⟨h2, hh2⟩ := hP h1 pp hsh
        exact ⟨h2, updatePaths_mono _ _ _ _ _ hh2 k2 hle⟩)
      (h f).Children hchildren
    refine ⟨K + 1, ?_⟩
    intro h1 pp hsh
    rw [updatePaths_succ, (hsh f).2.2.2]
    refine foldlM_option_isSome _ (fun x => SameShape h x) _ _ ?_ ?_
    · exact hsh.trans (SameShape.set_Paths h1 f _)
    · intro x a hx ha
      obtain ⟨y, hy⟩ := hK a ha x (x f).Paths hx
      exact ⟨y, hy, hx.trans (updatePaths_shape _ _ _ _ _ hy)⟩


/-! ## Whole calls -/

/-- More fuel does not change the outcome of a call. -/
theorem MoveFolder_mono {n : Nat} (k : Nat) (s : State n) (name dst : String)
    (r : MoveResult n) (hr : MoveFolder k s name dst = some r) (k2 : Nat) (hle : k ≤ k2) :
    MoveFolder k2 s name dst = some r := by
  rw [MoveFolder_unfold] at hr ⊢
  cases h1 : resolve s name with
  | none => rw [h1] at hr; exact hr
  | some src =>
    cases h2 : resolve s dst with
    | none => rw [h1, h2] at hr; exact hr
    | some d =>
      rw [h1, h2] at hr
      simp only at hr ⊢
      split
      · rename_i he; rw [if_pos he] at hr; exact hr
      · rename_i hne
        rw [if_neg hne] at hr
        cases h3 : isDescendant k s.heap src d with
        | none => rw [h3] at hr; cases hr
        | some b =>
          rw [h3] at hr
          have h3b : isDescendant k2 s.heap src d = some b :=
            isDescendantLoop_mono _ _ _ _ _ h3 k2 hle
          rw [h3b]
          cases b with
          | true => exact hr
          | false =>
            simp only at hr ⊢
            split
            · rename_i ho; rw [if_pos ho] at hr; exact hr
            · rename_i ho
              rw [if_neg ho] at hr
              cases h4 : updatePaths k (relink s.heap src d) src (s.heap d).Paths with
              | none => rw [h4] at hr; cases hr
              | some hp =>
                rw [h4] at hr
                rw [updatePaths_mono _ _ _ _ _ h4 k2 hle]
                exact hr

/-- The outcome of a call does not depend on the fuel that was enough for it. -/
theorem MoveFolder_deterministic {n : Nat} (k1 k2 : Nat) (s : State n) (name dst : String)
    (r1 r2 : MoveResult n) (h1 : MoveFolder k1 s name dst = some r1)
    (h2 : MoveFolder k2 s name dst = some r2) : r1 = r2 := by
  have e1 := MoveFolder_mono k1 s name dst r1 h1 (max k1 k2) (le_max_left _ _)
  have e2 := MoveFolder_mono k2 s name dst r2 h2 (max k1 k2) (le_max_right _ _)
  rw [e1] at e2
  exact Option.some.inj e2

/-- The rewrite that ends a successful relinking returns, on a consistent and
acyclic store. -/
theorem updatePaths_relink_terminates {n : Nat} (h : Heap n) (src d : Fin n) (hne : src ≠ d)
    (hC : Consistent h) (hA : Acyclic h) (hnc : ¬ InParentChain h src d) (pp : String) :
    ∃ k h2, updatePaths k (relink h src d) src pp = some h2 := by
  obtain ⟨k, hk⟩ := updatePaths_terminates (relink h src d)
    (relink_acyclic h src d hne hA hnc) src (relink_subtreeSound h src d hne hC hA hnc)
  obtain ⟨h2, hh2⟩ := hk (relink h src d) pp (SameShape.refl _)
  exact ⟨k, h2, hh2⟩

/-- On a consistent, acyclic store every call returns. -/
theorem MoveFolder_total {n : Nat} (s : State n) (name dst : String)
    (hC : Consistent s.heap) (hA : Acyclic s.heap) :
    ∃ fuel r, MoveFolder fuel s name dst = some r := by
  cases h1 : resolve s name with
  | none => exact ⟨0, _, by rw [MoveFolder_unfold, h1]⟩
  | some src =>
    cases h2 : resolve s dst with
    | none => exact ⟨0, _, by rw [MoveFolder_unfold, h1, h2]⟩
    | some d =>
      by_cases hsd : src = d
      · exact ⟨0, ⟨s, none, some (.MoveToSelf name)⟩, by
          rw [MoveFolder_unfold, h1, h2]; simp only [if_pos hsd]⟩
      · obtain ⟨k, b, hk⟩ := isDescendantLoop_terminates s.heap hA src (some d)
        cases b with
        | true =>
          refine ⟨k, ⟨s, none, some (.MoveIntoOwnDescendant name)⟩, ?_⟩
          rw [MoveFolder_unfold, h1, h2]
          simp only [if_neg hsd]
          have : isDescendant k s.heap src d = some true := hk
          rw [this]
        | false =>
          have hnc : ¬ InParentChain s.heap src d :=
            isDescendantLoop_false _ _ _ _ hk d rfl
          by_cases ho : (s.heap src).OrgId ≠ (s.heap d).OrgId
          · refine ⟨k, ⟨s, none, some (.CrossOrganizationMove name)⟩, ?_⟩
            rw [MoveFolder_unfold, h1, h2]
            simp only [if_neg hsd]
            have : isDescendant k s.heap src d = some false := hk
            rw [this]
            simp only [if_pos ho]
          · obtain ⟨k2, h4, hh4⟩ :=
              updatePaths_relink_terminates s.heap src d hsd hC hA hnc (s.heap d).Paths
            refine ⟨max k k2, ⟨{ s with heap := h4 }, some s.folders, none⟩, ?_⟩
            rw [MoveFolder_unfold, h1, h2]
            simp only [if_neg hsd]
            have : isDescendant (max k k2) s.heap src d = some false :=
              isDescendantLoop_mono _ _ _ _ _ hk _ (le_max_left _ _)
            rw [this]
            simp only [if_neg ho]
            rw [updatePaths_mono _ _ _ _ _ hh4 _ (le_max_right _ _)]
            rfl


/-- What a successful call did, in terms of the folders the two names resolve
to. -/
theorem MoveFolder_success_heap {n : Nat} (fuel : Nat) (s : State n) (name dst : String)
    (r : MoveResult n) (hr : MoveFolder fuel s name dst = some r) (he : r.err = none)
    (src d : Fin n) (hsrc : resolve s name = some src) (hdst : resolve s dst = some d) :
    src ≠ d ∧ ¬ InParentChain s.heap src d ∧ (s.heap src).OrgId = (s.heap d).OrgId
      ∧ updatePaths fuel (relink s.heap src d) src (s.heap d).Paths = some r.state.heap
      ∧ SameShape (relink s.heap src d) r.state.heap := by
  obtain ⟨a, b, ha, hb, hne, hdesc, horg, hup, _, _⟩ := MoveFolder_success fuel s name dst r hr he
  rw [hsrc] at ha; rw [hdst] at hb
  cases ha; cases hb
  exact ⟨hne, isDescendantLoop_false _ _ _ _ hdesc d rfl, horg, hup,
    updatePaths_shape _ _ _ _ _ hup⟩

/-- A rank that drops along every `Parent` link rules out cycles. -/
theorem acyclic_of_rank {n : Nat} (h : Heap n) (rank : Fin n → Nat)
    (hrank : ∀ c p, (h c).Parent = some p → rank p < rank c) : Acyclic h := by
  have key : ∀ a b, Relation.TransGen (parentRel h) a b → rank b < rank a := by
    intro a b hab
    induction hab with
    | single hxy => exact hrank _ _ hxy
    | tail _ hbc ih => exact lt_trans (hrank _ _ hbc) ih
  intro f hf
  exact lt_irrefl _ (key f f hf)

theorem testState_acyclic : Acyclic testState.heap :=
  acyclic_of_rank _ (fun f => (testState.heap f).Paths.length) (by decide)

theorem testState_consistent : Consistent testState.heap := by decide

theorem testState_nodupChildren : NodupChildren testState.heap := by decide

theorem testState_pathInv : ∀ g, PathInv testState.heap g := by decide

/-- Relinking keeps `Children` consistent with `Parent` when no `Children` list
holds a folder twice. -/
theorem relink_consistent {n : Nat} (h : Heap n) (src d : Fin n) (hne : src ≠ d)
    (hC : Consistent h) (hN : NodupChildren h) : Consistent (relink h src d) := by
  intro g c
  rw [relink_Children, relink_Parent h src d c hne, removeFirst_eq_erase, List.mem_append]
  by_cases hcs : c = src
  · subst hcs
    rw [if_pos rfl]
    by_cases hgd : g = d
    · subst hgd
      simp
    · have hdg : ¬ d = g := fun e => hgd e.symm
      simp only [hgd, if_false, List.not_mem_nil, or_false, Option.some.injEq, hdg, iff_false]
      split
      · exact fun hmem => ((hN g).mem_erase_iff.1 hmem).1 rfl
      · rename_i hp
        exact fun hmem => hp ((hC g c).1 hmem)
  · rw [if_neg hcs]
    have h1 : c ∉ (if g = d then [src] else []) := by
      split
      · simpa using hcs
      · simp
    rw [← hC g c]
    constructor
    · rintro (hmem | hmem)
      · split at hmem
        · exact List.mem_of_mem_erase hmem
        · exact hmem
      · exact absurd hmem h1
    · intro hmem
      left
      split
      · exact (List.mem_erase_of_ne hcs).2 hmem
      · exact hmem

theorem relink_nodupChildren {n : Nat} (h : Heap n) (src d : Fin n)
    (hC : Consistent h) (hN : NodupChildren h) : NodupChildren (relink h src d) := by
  intro g
  rw [relink_Children, removeFirst_eq_erase]
  have hbase : (if (h src).Parent = some g then (h g).Children.erase src
      else (h g).Children).Nodup := by
    split
    · exact (hN g).erase _
    · exact hN g
  by_cases hgd : g = d
  · rw [if_pos hgd]
    refine List.Nodup.append hbase (List.nodup_singleton _) ?_
    rw [List.disjoint_singleton]
    split
    · exact fun hmem => ((hN g).mem_erase_iff.1 hmem).1 rfl
    · rename_i hp
      exact fun hmem => hp ((hC g src).1 hmem)
  · rw [if_neg hgd, List.append_nil]
    exact hbase

theorem SameShape.consistent {n : Nat} {h1 h2 : Heap n} (h12 : SameShape h1 h2)
    (hC : Consistent h1) : Consistent h2 := by
  intro p c
  rw [(h12 p).2.2.2, (h12 c).2.2.1]
  exact hC p c

theorem SameShape.nodupChildren {n : Nat} {h1 h2 : Heap n} (h12 : SameShape h1 h2)
    (hN : NodupChildren h1) : NodupChildren h2 := by
  intro p
  rw [(h12 p).2.2.2]
  exact hN p

/-- Every call keeps consistency together with duplicate-free `Children`. -/
theorem MoveFolder_keeps_consistent {n : Nat} (fuel : Nat) (s : State n) (name dst : String)
    (r : MoveResult n) (hr : MoveFolder fuel s name dst = some r)
    (hC : Consistent s.heap) (hN : NodupChildren s.heap) :
    Consistent r.state.heap ∧ NodupChildren r.state.heap := by
  cases he : r.err with
  | some e =>
    have := (MoveFolder_error_state fuel s name dst r hr (by rw [he]; simp)).1
    rw [this]; exact ⟨hC, hN⟩
  | none =>
    obtain ⟨a, b, ha, hb, _⟩ := MoveFolder_success fuel s name dst r hr he
    obtain ⟨hne, _, _, _, hsh⟩ := MoveFolder_success_heap fuel s name dst r hr he a b ha hb
    exact ⟨hsh.consistent (relink_consistent _ _ _ hne hC hN),
      hsh.nodupChildren (relink_nodupChildren _ _ _ hC hN)⟩

/-- Every call keeps the parent chain acyclic. -/
theorem MoveFolder_keeps_acyclic {n : Nat} (fuel : Nat) (s : State n) (name dst : String)
    (r : MoveResult n) (hr : MoveFolder fuel s name dst = some r) (hA : Acyclic s.heap) :
    Acyclic r.state.heap := by
  cases he : r.err with
  | some e =>
    have := (MoveFolder_error_state fuel s name dst r hr (by rw [he]; simp)).1
    rw [this]; exact hA
  | none =>
    obtain ⟨a, b, ha, hb, _⟩ := MoveFolder_success fuel s name dst r hr he
    obtain ⟨hne, hnc, _, _, hsh⟩ := MoveFolder_success_heap fuel s name dst r hr he a b ha hb
    exact hsh.acyclic (relink_acyclic _ _ _ hne hA hnc)


theorem PathInv.of_some {n : Nat} {h : Heap n} {g p : Fin n} (hp : (h g).Parent = some p)
    (hpath : (h g).Paths = (h p).Paths ++ "." ++ (h g).Name) : PathInv h g := by
  unfold PathInv; rw [hp]; exact hpath

theorem PathInv.of_none {n : Nat} {h : Heap n} {g : Fin n} (hp : (h g).Parent = none)
    (hpath : (h g).Paths = (h g).Name) : PathInv h g := by
  unfold PathInv; rw [hp]; exact hpath

theorem PathInv.some {n : Nat} {h : Heap n} {g p : Fin n} (hI : PathInv h g)
    (hp : (h g).Parent = some p) : (h g).Paths = (h p).Paths ++ "." ++ (h g).Name := by
  unfold PathInv at hI; rw [hp] at hI; exact hI

theorem PathInv.none {n : Nat} {h : Heap n} {g : Fin n} (hI : PathInv h g)
    (hp : (h g).Parent = none) : (h g).Paths = (h g).Name := by
  unfold PathInv at hI; rw [hp] at hI; exact hI

/-- The store after a successful move of `src` under `d`, from a consistent
and acyclic store: the subtree of `src` is the same set of folders as before,
everything outside it is as relinking left it, the destination keeps its path,
the source gets the destination's path, a dot and its name, and every other
folder of the subtree gets its parent's new path, a dot and its own name. -/
theorem MoveFolder_success_paths {n : Nat} (fuel : Nat) (s : State n) (name dst : String)
    (r : MoveResult n) (hr : MoveFolder fuel s name dst = some r) (he : r.err = none)
    (src d : Fin n) (hsrc : resolve s name = some src) (hdst : resolve s dst = some d)
    (hC : Consistent s.heap) (hA : Acyclic s.heap) :
    (∀ g, InSubtree r.state.heap src g ↔ InSubtree s.heap src g)
    ∧ (∀ g, ¬ InSubtree s.heap src g → r.state.heap g = relink s.heap src d g)
    ∧ ¬ InSubtree s.heap src d
    ∧ (r.state.heap d).Paths = (s.heap d).Paths
    ∧ (r.state.heap src).Paths = (s.heap d).Paths ++ "." ++ (s.heap src).Name
    ∧ (r.state.heap src).Parent = some d
    ∧ (∀ f, InSubtree s.heap src f → f ≠ src →
        ∃ p, (r.state.heap f).Parent = some p ∧ InSubtree s.heap src p
          ∧ (r.state.heap f).Paths = (r.state.heap p).Paths ++ "." ++ (r.state.heap f).Name) := by
  obtain ⟨hne, hnc, _, hup, hsh⟩ :=
    MoveFolder_success_heap fuel s name dst r hr he src d hsrc hdst
  have hSS := relink_subtreeSound s.heap src d hne hC hA hnc
  have hAR := relink_acyclic s.heap src d hne hA hnc
  have hsubR : ∀ g, InSubtree (relink s.heap src d) src g ↔ InSubtree s.heap src g :=
    relink_inSubtree s.heap src d hC hA hnc
  obtain ⟨htop, hedges⟩ := updatePaths_tree fuel _ _ src _ hSS hAR hup
  have hframe : ∀ g, ¬ InSubtree s.heap src g → r.state.heap g = relink s.heap src d g :=
    fun g hg => updatePaths_frame _ _ _ _ _ hup g (fun hsub => hg ((hsubR g).1 hsub))
  have hdsub : ¬ InSubtree s.heap src d :=
    fun hsub => hnc ((inSubtree_iff_chain s.heap hC src d).1 hsub)
  refine ⟨fun g => (hsh.inSubtree_iff src g).trans (hsubR g), hframe, hdsub, ?_, ?_, ?_, ?_⟩
  · rw [hframe d hdsub, relink_Paths]
  · rw [htop, relink_Name]
  · rw [(hsh src).2.2.1, relink_Parent _ _ _ _ hne, if_pos rfl]
  · intro f hf hfs
    rcases InSubtree.lister ((hsubR f).2 hf) with heq | ⟨z, hz, hfz⟩
    · exact absurd heq hfs
    · refine ⟨z, ?_, (hsubR z).1 hz, ?_⟩
      · rw [(hsh f).2.2.1]; exact hSS z hz f hfz
      · rw [hedges z hz f hfz, (hsh f).1]

/-- Every call keeps the path invariant, on a consistent and acyclic store. -/
theorem MoveFolder_keeps_pathInv {n : Nat} (fuel : Nat) (s : State n) (name dst : String)
    (r : MoveResult n) (hr : MoveFolder fuel s name dst = some r)
    (hP : ∀ g, PathInv s.heap g) (hC : Consistent s.heap) (hA : Acyclic s.heap) :
    ∀ g, PathInv r.state.heap g := by
  cases he : r.err with
  | some e =>
    have := (MoveFolder_error_state fuel s name dst r hr (by rw [he]; simp)).1
    rw [this]; exact hP
  | none =>
    obtain ⟨src, d, hsrc, hdst, _⟩ := MoveFolder_success fuel s name dst r hr he
    obtain ⟨hne, _, _, _, hsh⟩ := MoveFolder_success_heap fuel s name dst r hr he src d hsrc hdst
    obtain ⟨_, hframe, hdsub, hdP, hsP, hsPar, hrest⟩ :=
      MoveFolder_success_paths fuel s name dst r hr he src d hsrc hdst hC hA
    intro g
    by_cases hg : InSubtree s.heap src g
    · by_cases hgs : g = src
      · subst hgs
        refine PathInv.of_some hsPar ?_
        rw [hsP, hdP, (hsh g).1, relink_Name]
      · obtain ⟨p, hp, _, hpath⟩ := hrest g hg hgs
        exact PathInv.of_some hp hpath
    · have hgs : g ≠ src := fun e => hg (e ▸ Relation.ReflTransGen.refl)
      have hpar : (r.state.heap g).Parent = (s.heap g).Parent := by
        rw [hframe g hg, relink_Parent _ _ _ _ hne, if_neg hgs]
      cases hp : (s.heap g).Parent with
      | none =>
        refine PathInv.of_none (hpar.trans hp) ?_
        rw [hframe g hg, relink_Paths, relink_Name]
        exact (hP g).none hp
      | some p =>
        have hpsub : ¬ InSubtree s.heap src p := fun hsub =>
          hg (Relation.ReflTransGen.tail hsub ((hC p g).2 hp))
        refine PathInv.of_some (hpar.trans hp) ?_
        rw [hframe g hg, hframe p hpsub, relink_Paths, relink_Paths, relink_Name]
        exact (hP g).some hp


/-! ## Claims about the registry lookup and the descendant query: witnesses -/

theorem GetFoldersByOrgID_filter_witness :
    (∀ f, f ∈ flatState.folders → (flatState.heap f).OrgId ≠ 0)
    ∧ GetFoldersByOrgID flatState 0 = [] :=
  ⟨by decide, (GetFoldersByOrgID_filter flatState 0).2.2.2 (by decide)⟩

theorem GetAllChildFolders_prefix_correct_witness :
    firstNamed flatState 1 "alpha" = some 0
    ∧ GetAllChildFolders flatState 1 "alpha"
        = (GetFoldersByOrgID flatState 1).filter
            (fun f => decide (IsLiteralPrefix ((flatState.heap 0).Paths ++ ".")
              (flatState.heap f).Paths)) :=
  ⟨by decide, (GetAllChildFolders_prefix_correct flatState 1 "alpha" 0 (by decide)).1⟩

/-! ## Claims about `MoveFolder` -/

/-- C3: `MoveFolder` fails closed.  Whenever a call returns an error, the
state after the call is the state before it (the store of folder records,
hence every `Name`, `OrgId`, `Paths`, `Parent` and `Children`, and the registry
list), and the returned folder list is nil. -/
theorem MoveFolder_fails_closed {n : Nat} (fuel : Nat) (s : State n) (name dst : String)
    (r : MoveResult n) (e : MoveError) (hr : MoveFolder fuel s name dst = some r)
    (he : r.err = some e) :
    r.state = s ∧ r.folders = none
    ∧ (∀ g, r.state.heap g = s.heap g) ∧ r.state.folders = s.folders := by
  obtain ⟨h1, h2⟩ := MoveFolder_error_state fuel s name dst r hr (by rw [he]; simp)
  exact ⟨h1, h2, fun g => by rw [h1], by rw [h1]⟩

theorem MoveFolder_fails_closed_witness :
    MoveFolder 10 testState "bravo" "charlie"
        = some ⟨testState, none, some (.MoveIntoOwnDescendant "bravo")⟩
    ∧ (MoveResult.mk testState none (some (.MoveIntoOwnDescendant "bravo"))).state = testState :=
  ⟨rfl, (MoveFolder_fails_closed 10 testState "bravo" "charlie"
    ⟨testState, none, some (.MoveIntoOwnDescendant "bravo")⟩
    (.MoveIntoOwnDescendant "bravo") rfl rfl).1⟩

/-- C10: acyclicity is preserved.  If no folder occurs in its own proper parent
chain before a call of `MoveFolder`, then none does after the call, whether it
succeeded or failed; a successful move creates no cycle of `Parent` links. -/
theorem MoveFolder_preserves_acyclic {n : Nat} (fuel : Nat) (s : State n) (name dst : String)
    (r : MoveResult n) (hA : Acyclic s.heap) (hr : MoveFolder fuel s name dst = some r) :
    Acyclic r.state.heap :=
  MoveFolder_keeps_acyclic fuel s name dst r hr hA

theorem MoveFolder_preserves_acyclic_witness :
    Acyclic testState.heap ∧ MoveFolder 10 testState "bravo" "delta" = some testMoved
    ∧ testMoved.err = none ∧ Acyclic testMoved.state.heap :=
  ⟨testState_acyclic, rfl, rfl,
    MoveFolder_preserves_acyclic 10 testState "bravo" "delta" testMoved testState_acyclic rfl⟩

/-- C9, as stated, fails: in `dupState` a folder is in `p.Children` exactly when
`p` is its parent, yet after the successful `MoveFolder("s", "d")` folder s is
still listed by p while its parent is d. -/
theorem MoveFolder_consistency_counterexample :
    Consistent dupState.heap
    ∧ (MoveFolder 2 dupState "s" "d").map
        (fun r => (r.err, decide (Consistent r.state.heap), (r.state.heap 0).Children,
          (r.state.heap 1).Parent))
      = some (none, false, [1], some 2) := by
  decide

/-- C9, amended: if a folder appears in `p.Children` exactly when `p` is its
parent and no `Children` list holds a folder twice, then both hold again after
a call of `MoveFolder`; after a successful call the moved folder is in the
destination's `Children` and in no other folder's. -/
theorem MoveFolder_preserves_consistent {n : Nat} (fuel : Nat) (s : State n)
    (name dst : String) (r : MoveResult n) (hC : Consistent s.heap)
    (hN : NodupChildren s.heap) (hr : MoveFolder fuel s name dst = some r) :
    Consistent r.state.heap ∧ NodupChildren r.state.heap
    ∧ (r.err = none → ∀ src d, resolve s name = some src → resolve s dst = some d →
        src ∈ (r.state.heap d).Children
        ∧ ∀ g, src ∈ (r.state.heap g).Children → g = d) := by
  obtain ⟨hC2, hN2⟩ := MoveFolder_keeps_consistent fuel s name dst r hr hC hN
  refine ⟨hC2, hN2, ?_⟩
  intro he src d hsrc hdst
  obtain ⟨hne, _, _, _, hsh⟩ := MoveFolder_success_heap fuel s name dst r hr he src d hsrc hdst
  have hpar : (r.state.heap src).Parent = some d := by
    rw [(hsh src).2.2.1, relink_Parent _ _ _ _ hne, if_pos rfl]
  refine ⟨(hC2 d src).2 hpar, ?_⟩
  intro g hg
  have := (hC2 g src).1 hg
  rw [hpar] at this
  exact (Option.some.inj this).symm

theorem MoveFolder_preserves_consistent_witness :
    (Consistent testState.heap ∧ NodupChildren testState.heap
      ∧ MoveFolder 10 testState "bravo" "delta" = some testMoved)
    ∧ Consistent testMoved.state.heap ∧ NodupChildren testMoved.state.heap :=
  ⟨⟨testState_consistent, testState_nodupChildren, rfl⟩,
    (MoveFolder_preserves_consistent 10 testState "bravo" "delta" testMoved
      testState_consistent testState_nodupChildren rfl).1,
    (MoveFolder_preserves_consistent 10 testState "bravo" "delta" testMoved
      testState_consistent testState_nodupChildren rfl).2.1⟩


/-- C4, as stated, fails when the source already sits under the destination:
`MoveFolder("bravo", "alpha")` on the test fixture succeeds, bravo's parent is
alpha before and after, and alpha's `Children` go from `[bravo, delta]` to
`[delta, bravo]`: not the earlier list with bravo appended, and bravo is still
among the old parent's children. -/
theorem MoveFolder_relink_counterexample :
    (testState.heap 1).Parent = some 0 ∧ (testState.heap 0).Children = [1, 3]
    ∧ (MoveFolder 10 testState "bravo" "alpha").map
        (fun r => (r.err, (r.state.heap 1).Parent, (r.state.heap 0).Children,
          decide ((r.state.heap 0).Children = (testState.heap 0).Children ++ [1]),
          decide ((1 : Fin 7) ∈ (r.state.heap 0).Children)))
      = some (none, some 0, [3, 1], false, true) := by
  decide

/-- C4, amended: after a successful `MoveFolder(name, dst)` the source's
`Parent` is the destination.  If the source had no parent, or a parent other
than the destination, the destination's `Children` are its earlier `Children`
with the source appended; an old parent other than the destination has its
earlier `Children` with the first entry identical to the source removed (the
order of the others kept), and the source is no longer among them if it was
listed there at most once.  If the old parent is the destination itself, its
`Children` are the earlier ones with the first entry identical to the source
removed and the source appended at the end. -/
theorem MoveFolder_relinks {n : Nat} (fuel : Nat) (s : State n) (name dst : String)
    (r : MoveResult n) (src d : Fin n) (hr : MoveFolder fuel s name dst = some r)
    (he : r.err = none) (hsrc : resolve s name = some src) (hdst : resolve s dst = some d) :
    (r.state.heap src).Parent = some d
    ∧ ((s.heap src).Parent ≠ some d →
        (r.state.heap d).Children = (s.heap d).Children ++ [src])
    ∧ (∀ p, (s.heap src).Parent = some p → p ≠ d →
        (r.state.heap p).Children = (s.heap p).Children.erase src
        ∧ ((s.heap p).Children.count src ≤ 1 → src ∉ (r.state.heap p).Children))
    ∧ ((s.heap src).Parent = some d →
        (r.state.heap d).Children = (s.heap d).Children.erase src ++ [src]) := by
  obtain ⟨hne, _, _, _, hsh⟩ := MoveFolder_success_heap fuel s name dst r hr he src d hsrc hdst
  refine ⟨?_, ?_, ?_, ?_⟩
  · rw [(hsh src).2.2.1, relink_Parent _ _ _ _ hne, if_pos rfl]
  · intro hp
    rw [(hsh d).2.2.2, relink_Children, if_neg hp, if_pos rfl]
  · intro p hp hpd
    have hch : (r.state.heap p).Children = (s.heap p).Children.erase src := by
      rw [(hsh p).2.2.2, relink_Children, if_pos hp, if_neg hpd, List.append_nil,
        removeFirst_eq_erase]
    refine ⟨hch, ?_⟩
    intro hcount hmem
    rw [hch] at hmem
    have h0 : 0 < ((s.heap p).Children.erase src).count src := List.count_pos_iff.2 hmem
    rw [List.count_erase_self] at h0
    omega
  · intro hp
    rw [(hsh d).2.2.2, relink_Children, if_pos hp, if_pos rfl, removeFirst_eq_erase]

theorem MoveFolder_relinks_witness :
    (MoveFolder 10 testState "bravo" "delta" = some testMoved ∧ testMoved.err = none
      ∧ resolve testState "bravo" = some 1 ∧ resolve testState "delta" = some 3)
    ∧ (testMoved.state.heap 1).Parent = some 3
    ∧ (testMoved.state.heap 3).Children = (testState.heap 3).Children ++ [1]
    ∧ (testMoved.state.heap 0).Children = (testState.heap 0).Children.erase 1 :=
  ⟨⟨rfl, rfl, by decide, by decide⟩,
    (MoveFolder_relinks 10 testState "bravo" "delta" testMoved 1 3 rfl rfl
      (by decide) (by decide)).1,
    (MoveFolder_relinks 10 testState "bravo" "delta" testMoved 1 3 rfl rfl
      (by decide) (by decide)).2.1 (by decide),
    ((MoveFolder_relinks 10 testState "bravo" "delta" testMoved 1 3 rfl rfl
      (by decide) (by decide)).2.2.1 0 (by decide) (by decide)).1⟩

theorem pathFromRoot_succ_some {n : Nat} (h : Heap n) (k : Nat) (f p : Fin n) (str : String)
    (hp : (h f).Parent = some p) (hk : pathFromRoot h k p = some str) :
    pathFromRoot h (k + 1) f = some (str ++ "." ++ (h f).Name) := by
  rw [pathFromRoot, hp]
  simp only [hk, Option.map_some']

/-- C5: full subtree path rewrite.  In a state whose `Children` lists are
consistent with the `Parent` links and whose parent chain is acyclic, after a
successful `MoveFolder(name, dst)` the moved folder's `Paths` is the
destination's `Paths` (unchanged by the move), a dot and `name`; every other
folder of the moved subtree (reachable from the source through `Children`, the
same folders before and after) has a parent inside the subtree and its `Paths`
is that parent's new `Paths`, a dot and its own `Name`, whatever the paths in
the subtree were before; hence, when the destination's path is the dot-join
of the names on its parent chain, so is the path of every folder of the
subtree. -/
theorem MoveFolder_rewrites_subtree {n : Nat} (fuel : Nat) (s : State n) (name dst : String)
    (r : MoveResult n) (src d : Fin n) (hC : Consistent s.heap) (hA : Acyclic s.heap)
    (hr : MoveFolder fuel s name dst = some r) (he : r.err = none)
    (hsrc : resolve s name = some src) (hdst : resolve s dst = some d) :
    (r.state.heap d).Paths = (s.heap d).Paths
    ∧ (r.state.heap src).Paths = (r.state.heap d).Paths ++ "." ++ name
    ∧ (∀ f, InSubtree r.state.heap src f ↔ InSubtree s.heap src f)
    ∧ (∀ f, InSubtree r.state.heap src f → f ≠ src →
        ∃ p, (r.state.heap f).Parent = some p ∧ InSubtree r.state.heap src p
          ∧ (r.state.heap f).Paths = (r.state.heap p).Paths ++ "." ++ (r.state.heap f).Name)
    ∧ (∀ k, pathFromRoot r.state.heap k d = some (r.state.heap d).Paths →
        ∀ f, InSubtree r.state.heap src f →
          ∃ k2, pathFromRoot r.state.heap k2 f = some (r.state.heap f).Paths) := by
  obtain ⟨hsub, _, _, hdP, hsP, hsPar, hrest⟩ :=
    MoveFolder_success_paths fuel s name dst r hr he src d hsrc hdst hC hA
  obtain ⟨_, _, _, _, hsh⟩ := MoveFolder_success_heap fuel s name dst r hr he src d hsrc hdst
  have hname : (r.state.heap src).Name = name := by
    rw [(hsh src).1, relink_Name]; exact (resolve_some s name src hsrc).2
  have hsP2 : (r.state.heap src).Paths = (r.state.heap d).Paths ++ "." ++ name := by
    rw [hsP, hdP, (resolve_some s name src hsrc).2]
  have hrest2 : ∀ f, InSubtree r.state.heap src f → f ≠ src →
      ∃ p, (r.state.heap f).Parent = some p ∧ InSubtree r.state.heap src p
        ∧ (r.state.heap f).Paths = (r.state.heap p).Paths ++ "." ++ (r.state.heap f).Name := by
    intro f hf hfs
    obtain ⟨p, hp, hpsub, hpath⟩ := hrest f ((hsub f).1 hf) hfs
    exact ⟨p, hp, (hsub p).2 hpsub, hpath⟩
  refine ⟨hdP, hsP2, hsub, hrest2, ?_⟩
  intro k hk f hf
  unfold InSubtree at hf
  induction hf with
  | refl =>
    refine ⟨k + 1, ?_⟩
    rw [pathFromRoot_succ_some _ k src d _ hsPar hk, hsP2, hname]
  | @tail b c hb hbc ih =>
    by_cases hcs : c = src
    · subst hcs
      refine ⟨k + 1, ?_⟩
      rw [pathFromRoot_succ_some _ k c d _ hsPar hk, hsP2, hname]
    · obtain ⟨p, hp, hpsub, hpath⟩ := hrest2 c (Relation.ReflTransGen.tail hb hbc) hcs
      -- the parent of `c` is the folder `b` that lists it
      have hpar : (r.state.heap c).Parent = some b := by
        have hSS : SubtreeSound r.state.heap src := by
          obtain ⟨hne, hnc, _, _, _⟩ :=
            MoveFolder_success_heap fuel s name dst r hr he src d hsrc hdst
          exact hsh.subtreeSound src (relink_subtreeSound s.heap src d hne hC hA hnc)
        exact hSS b hb c hbc
      rw [hp] at hpar
      have hpb : p = b := Option.some.inj hpar
      rw [hpb] at hp hpath
      obtain ⟨kb, hkb⟩ := ih
      exact ⟨kb + 1, by rw [pathFromRoot_succ_some _ kb c b _ hp hkb, hpath]⟩


theorem MoveFolder_rewrites_subtree_witness :
    (Consistent testState.heap ∧ Acyclic testState.heap
      ∧ MoveFolder 10 testState "bravo" "delta" = some testMoved ∧ testMoved.err = none
      ∧ resolve testState "bravo" = some 1 ∧ resolve testState "delta" = some 3)
    ∧ (testMoved.state.heap 1).Paths = (testMoved.state.heap 3).Paths ++ "." ++ "bravo" :=
  ⟨⟨testState_consistent, testState_acyclic, rfl, rfl, by decide, by decide⟩,
    (MoveFolder_rewrites_subtree 10 testState "bravo" "delta" testMoved 1 3
      testState_consistent testState_acyclic rfl rfl (by decide) (by decide)).2.1⟩

/-- C6, at the failing input: in `flatState`, loaded with name, organization
and path only, bravo (path `alpha.bravo`) is reported by
`GetAllChildFolders(org, "alpha")` and its path starts with alpha's path and a
dot; yet `MoveFolder("alpha", "bravo")` returns no error and the full list,
makes bravo the parent of alpha, lists alpha in bravo's `Children` and rewrites
alpha's path to `alpha.bravo.alpha`. -/
theorem MoveFolder_into_path_descendant :
    GetAllChildFolders flatState 1 "alpha" = [1, 2, 3]
    ∧ IsLiteralPrefix ((flatState.heap 0).Paths ++ ".") (flatState.heap 1).Paths
    ∧ (MoveFolder 1 flatState "alpha" "bravo").map (fun r => (r.err, r.folders))
      = some (none, some [0, 1, 2, 3, 4, 5])
    ∧ (MoveFolder 1 flatState "alpha" "bravo").map
        (fun r => ((r.state.heap 0).Parent, (r.state.heap 0).Paths,
          (r.state.heap 1).Children, (r.state.heap 1).Paths))
      = some (some 1, "alpha.bravo.alpha", [0], "alpha.bravo") :=
  ⟨by decide, by decide, by decide, by decide⟩

theorem dupState_acyclic : Acyclic dupState.heap :=
  acyclic_of_rank _ (fun f => (dupState.heap f).Paths.length) (by decide)

/-- C8, as stated, fails for sequences of moves: `dupState` satisfies the path
invariant at every folder, its `Children` are consistent with `Parent` and its
parent chain is acyclic; the moves s to d and p to e both succeed; afterwards
folder s has parent d, whose path is `d`, but its own path is `e.p.s`. -/
theorem runMoves_pathInv_counterexample :
    ((∀ g, PathInv dupState.heap g) ∧ Consistent dupState.heap ∧ Acyclic dupState.heap)
    ∧ (MoveFolder 2 dupState "s" "d").map (fun r => r.err) = some none
    ∧ ((MoveFolder 2 dupState "s" "d").bind
        (fun r => (MoveFolder 2 r.state "p" "e").map (fun r2 => r2.err))) = some none
    ∧ (runMoves 2 dupState [("s", "d"), ("p", "e")]).map
        (fun s2 => (decide (PathInv s2.heap 1), (s2.heap 1).Parent, (s2.heap 1).Paths,
          (s2.heap 2).Paths))
      = some (false, some 2, "e.p.s", "d") :=
  ⟨⟨by decide, by decide, dupState_acyclic⟩, by decide, by decide, by decide⟩

theorem runMoves_mono {n : Nat} (k : Nat) (s s2 : State n) (moves : List (String × String))
    (hr : runMoves k s moves = some s2) (k2 : Nat) (hle : k ≤ k2) :
    runMoves k2 s moves = some s2 := by
  induction moves generalizing s with
  | nil => exact hr
  | cons m rest ih =>
    obtain ⟨name, dst⟩ := m
    rw [runMoves] at hr ⊢
    cases h1 : MoveFolder k s name dst with
    | none => rw [h1] at hr; cases hr
    | some r =>
      rw [h1] at hr
      rw [MoveFolder_mono k s name dst r h1 k2 hle]
      exact ih r.state hr

/-- C8, amended: if every folder satisfies the path invariant, `Children` are
consistent with `Parent` and the parent chain is acyclic, then after a call of
`MoveFolder`, successful or not, every folder satisfies the path invariant
again; if moreover no `Children` list holds a folder twice, the four
properties together hold after the call, hence after every finite sequence of
moves, and every such sequence runs to its end. -/
theorem MoveFolder_preserves_pathInv {n : Nat} (s : State n)
    (hP : ∀ g, PathInv s.heap g) (hC : Consistent s.heap) (hA : Acyclic s.heap) :
    (∀ fuel name dst r, MoveFolder fuel s name dst = some r → ∀ g, PathInv r.state.heap g)
    ∧ (NodupChildren s.heap →
        (∀ fuel moves s2, runMoves fuel s moves = some s2 →
          (∀ g, PathInv s2.heap g) ∧ Consistent s2.heap ∧ NodupChildren s2.heap
            ∧ Acyclic s2.heap)
        ∧ ∀ moves, ∃ fuel s2, runMoves fuel s moves = some s2) := by
  refine ⟨fun fuel name dst r hr => MoveFolder_keeps_pathInv fuel s name dst r hr hP hC hA, ?_⟩
  intro hN
  have step : ∀ fuel (moves : List (String × String)) (s1 s2 : State n),
      (∀ g, PathInv s1.heap g) → Consistent s1.heap → NodupChildren s1.heap → Acyclic s1.heap →
      runMoves fuel s1 moves = some s2 →
      (∀ g, PathInv s2.heap g) ∧ Consistent s2.heap ∧ NodupChildren s2.heap
        ∧ Acyclic s2.heap := by
    intro fuel moves
    induction moves with
    | nil =>
      intro s1 s2 h1 h2 h3 h4 hr
      cases hr
      exact ⟨h1, h2, h3, h4⟩
    | cons m rest ih =>
      intro s1 s2 h1 h2 h3 h4 hr
      obtain ⟨name, dst⟩ := m
      rw [runMoves] at hr
      cases hm : MoveFolder fuel s1 name dst with
      | none => rw [hm] at hr; cases hr
      | some r =>
        rw [hm] at hr
        have hc := MoveFolder_keeps_consistent fuel s1 name dst r hm h2 h3
        exact ih r.state s2 (MoveFolder_keeps_pathInv fuel s1 name dst r hm h1 h2 h4)
          hc.1 hc.2 (MoveFolder_keeps_acyclic fuel s1 name dst r hm h4) hr
  refine ⟨fun fuel moves s2 hr => step fuel moves s s2 hP hC hN hA hr, ?_⟩
  intro moves
  have total : ∀ (s1 : State n), (∀ g, PathInv s1.heap g) → Consistent s1.heap →
      NodupChildren s1.heap → Acyclic s1.heap → ∃ fuel s2, runMoves fuel s1 moves = some s2 := by
    induction moves with
    | nil => intro s1 _ _ _ _; exact ⟨0, s1, rfl⟩
    | cons m rest ih =>
      intro s1 h1 h2 h3 h4
      obtain ⟨name, dst⟩ := m
      obtain ⟨k1, r, hr⟩ := MoveFolder_total s1 name dst h2 h4
      have hc := MoveFolder_keeps_consistent k1 s1 name dst r hr h2 h3
      obtain ⟨k2, s2, hs2⟩ := ih r.state
        (MoveFolder_keeps_pathInv k1 s1 name dst r hr h1 h2 h4) hc.1 hc.2
        (MoveFolder_keeps_acyclic k1 s1 name dst r hr h4)
      refine ⟨max k1 k2, s2, ?_⟩
      rw [runMoves, MoveFolder_mono k1 s1 name dst r hr _ (le_max_left _ _)]
      exact runMoves_mono k2 r.state s2 rest hs2 _ (le_max_right _ _)
  exact total s hP hC hN hA

theorem MoveFolder_preserves_pathInv_witness :
    ((∀ g, PathInv testState.heap g) ∧ Consistent testState.heap ∧ Acyclic testState.heap
      ∧ NodupChildren testState.heap
      ∧ runMoves 10 testState [("bravo", "delta"), ("delta", "golf"), ("echo", "bravo")]
          = some testThreeMoves)
    ∧ (testThreeMoves.heap 4).Paths = "golf.delta.bravo.echo"
    ∧ PathInv testThreeMoves.heap 4 :=
  ⟨⟨testState_pathInv, testState_consistent, testState_acyclic, testState_nodupChildren, rfl⟩,
    by decide,
    (((MoveFolder_preserves_pathInv testState testState_pathInv testState_consistent
      testState_acyclic).2 testState_nodupChildren).1 10
        [("bravo", "delta"), ("delta", "golf"), ("echo", "bravo")] testThreeMoves rfl).1 4⟩


/-- Every outcome of a call falls under exactly one check of the validation
sequence, the first that fires, or under none of them. -/
theorem MoveFolder_classify {n : Nat} (fuel : Nat) (s : State n) (name dst : String)
    (r : MoveResult n) (hr : MoveFolder fuel s name dst = some r) :
    (resolve s name = none ∧ r.err = some (.SourceNotFound name))
    ∨ (∃ a, resolve s name = some a ∧ resolve s dst = none
        ∧ r.err = some (.DestinationNotFound dst))
    ∨ (∃ a, resolve s name = some a ∧ resolve s dst = some a
        ∧ r.err = some (.MoveToSelf name))
    ∨ (∃ a d, resolve s name = some a ∧ resolve s dst = some d ∧ a ≠ d
        ∧ InParentChain s.heap a d ∧ r.err = some (.MoveIntoOwnDescendant name))
    ∨ (∃ a d, resolve s name = some a ∧ resolve s dst = some d ∧ a ≠ d
        ∧ ¬ InParentChain s.heap a d ∧ (s.heap a).OrgId ≠ (s.heap d).OrgId
        ∧ r.err = some (.CrossOrganizationMove name))
    ∨ (∃ a d, resolve s name = some a ∧ resolve s dst = some d ∧ a ≠ d
        ∧ ¬ InParentChain s.heap a d ∧ (s.heap a).OrgId = (s.heap d).OrgId
        ∧ r.err = none) := by
  rw [MoveFolder_unfold] at hr
  cases h1 : resolve s name with
  | none => rw [h1] at hr; cases hr; exact Or.inl ⟨rfl, rfl⟩
  | some a =>
    cases h2 : resolve s dst with
    | none => rw [h1, h2] at hr; cases hr; exact Or.inr (Or.inl ⟨a, rfl, rfl, rfl⟩)
    | some d =>
      rw [h1, h2] at hr
      simp only at hr
      split at hr
      · rename_i he
        cases hr; subst he
        exact Or.inr (Or.inr (Or.inl ⟨a, rfl, rfl, rfl⟩))
      · rename_i hne
        cases h3 : isDescendant fuel s.heap a d with
        | none => rw [h3] at hr; cases hr
        | some b =>
          rw [h3] at hr
          have hiff := isDescendant_iff fuel s.heap a d b h3
          cases b with
          | true =>
            cases hr
            exact Or.inr (Or.inr (Or.inr (Or.inl ⟨a, d, rfl, rfl, hne, hiff.1 rfl, rfl⟩)))
          | false =>
            have hnc : ¬ InParentChain s.heap a d := fun hc => Bool.noConfusion (hiff.2 hc)
            simp only at hr
            split at hr
            · rename_i ho
              cases hr
              exact Or.inr (Or.inr (Or.inr (Or.inr (Or.inl ⟨a, d, rfl, rfl, hne, hnc, ho, rfl⟩))))
            · rename_i ho
              cases h4 : updatePaths fuel (relink s.heap a d) a (s.heap d).Paths with
              | none => rw [h4] at hr; cases hr
              | some hp =>
                rw [h4] at hr; cases hr
                exact Or.inr (Or.inr (Or.inr (Or.inr (Or.inr
                  ⟨a, d, rfl, rfl, hne, hnc, not_not.1 ho, rfl⟩))))

theorem cyclicState_chain (x : Fin 3) (hx : InParentChain cyclicState.heap x 0) : x ≠ 2 := by
  unfold InParentChain at hx
  induction hx with
  | refl => decide
  | @tail b c _ hbc ih =>
    have key : ∀ b c : Fin 3, (cyclicState.heap b).Parent = some c → b ≠ 2 → c ≠ 2 := by
      decide
    exact key b c hbc ih

/-- C2, as stated, fails on cyclic data: in `cyclicState` the names c and a
resolve to distinct folders of one organization and c is not in the parent chain
of a, so no check of the sequence fails; yet `MoveFolder("c", "a")` does not
succeed: the ancestry walk goes round the circle a, b, a, ... and the call
never returns. -/
theorem MoveFolder_cyclic_counterexample :
    (resolve cyclicState "c" = some 2 ∧ resolve cyclicState "a" = some 0
      ∧ ¬ InParentChain cyclicState.heap 2 0
      ∧ (cyclicState.heap 2).OrgId = (cyclicState.heap 0).OrgId)
    ∧ ∀ fuel, MoveFolder fuel cyclicState "c" "a" = none := by
  refine ⟨⟨by decide, by decide, fun hc => cyclicState_chain 2 hc rfl, by decide⟩, ?_⟩
  have walk : ∀ fuel (x : Fin 3), x ≠ 2 →
      isDescendantLoop cyclicState.heap 2 fuel (some x) = none := by
    intro fuel
    induction fuel with
    | zero => intro x _; rfl
    | succ k ih =>
      intro x hx
      rw [isDescendantLoop, if_neg hx]
      have hpar : ∃ y, (cyclicState.heap x).Parent = some y ∧ y ≠ 2 := by
        revert x; decide
      obtain ⟨y, hy, hy2⟩ := hpar
      rw [hy]; exact ih y hy2
  intro fuel
  rw [MoveFolder_unfold]
  have h1 : resolve cyclicState "c" = some 2 := by decide
  have h2 : resolve cyclicState "a" = some 0 := by decide
  rw [h1, h2]
  have h3 : isDescendant fuel cyclicState.heap 2 0 = none := walk fuel 0 (by decide)
  simp only [h3]
  rfl


/-- C2, amended: `MoveFolder(name, dst)` reports the first failing check of the
validation sequence.  It returns `SourceNotFound` iff no registered folder is
named `name`; `DestinationNotFound` iff the source resolves and no folder is
named `dst`; `MoveToSelf` iff both resolve to the same folder;
`MoveIntoOwnDescendant` iff both resolve to distinct folders and the source
occurs in the destination's parent chain.  It returns `CrossOrganizationMove`
only if all earlier checks pass and the two `OrgId`s differ, and it does so
then provided the parent chain is acyclic; it returns no error only if both
resolve, are distinct, the source is not in the destination's parent chain and
the `OrgId`s are equal, and it does so then provided the parent chain is
acyclic and the `Children` lists are consistent with the `Parent` links. -/
theorem MoveFolder_validation {n : Nat} (s : State n) (name dst : String) :
    ((∃ r, MoveFolderReturns s name dst r ∧ r.err = some (.SourceNotFound name))
        ↔ ∀ f, f ∈ s.folders → (s.heap f).Name ≠ name)
    ∧ ((∃ r, MoveFolderReturns s name dst r ∧ r.err = some (.DestinationNotFound dst))
        ↔ (∃ f, f ∈ s.folders ∧ (s.heap f).Name = name)
          ∧ ∀ f, f ∈ s.folders → (s.heap f).Name ≠ dst)
    ∧ ((∃ r, MoveFolderReturns s name dst r ∧ r.err = some (.MoveToSelf name))
        ↔ ∃ a, resolve s name = some a ∧ resolve s dst = some a)
    ∧ ((∃ r, MoveFolderReturns s name dst r ∧ r.err = some (.MoveIntoOwnDescendant name))
        ↔ ∃ a d, resolve s name = some a ∧ resolve s dst = some d ∧ a ≠ d
            ∧ InParentChain s.heap a d)
    ∧ ((∃ r, MoveFolderReturns s name dst r ∧ r.err = some (.CrossOrganizationMove name))
        → ∃ a d, resolve s name = some a ∧ resolve s dst = some d ∧ a ≠ d
            ∧ ¬ InParentChain s.heap a d ∧ (s.heap a).OrgId ≠ (s.heap d).OrgId)
    ∧ (Acyclic s.heap →
        (∃ a d, resolve s name = some a ∧ resolve s dst = some d ∧ a ≠ d
            ∧ ¬ InParentChain s.heap a d ∧ (s.heap a).OrgId ≠ (s.heap d).OrgId)
        → ∃ r, MoveFolderReturns s name dst r ∧ r.err = some (.CrossOrganizationMove name))
    ∧ ((∃ r, MoveFolderReturns s name dst r ∧ r.err = none)
        → ∃ a d, resolve s name = some a ∧ resolve s dst = some d ∧ a ≠ d
            ∧ ¬ InParentChain s.heap a d ∧ (s.heap a).OrgId = (s.heap d).OrgId)
    ∧ (Acyclic s.heap → Consistent s.heap →
        (∃ a d, resolve s name = some a ∧ resolve s dst = some d ∧ a ≠ d
            ∧ ¬ InParentChain s.heap a d ∧ (s.heap a).OrgId = (s.heap d).OrgId)
        → ∃ r, MoveFolderReturns s name dst r ∧ r.err = none) := by
  refine ⟨⟨?_, ?_⟩, ⟨?_, ?_⟩, ⟨?_, ?_⟩, ⟨?_, ?_⟩, ?_, ?_, ?_, ?_⟩
  · rintro ⟨r, ⟨fuel, hr⟩, he⟩
    rcases MoveFolder_classify fuel s name dst r hr with
      ⟨h1, _⟩ | ⟨_, _, _, h⟩ | ⟨_, _, _, h⟩ | ⟨_, _, _, _, _, _, h⟩ |
      ⟨_, _, _, _, _, _, _, h⟩ | ⟨_, _, _, _, _, _, _, h⟩
    · exact (resolve_eq_none s name).1 h1
    all_goals (rw [he] at h; cases h)
  · intro hno
    have h1 := (resolve_eq_none s name).2 hno
    exact ⟨⟨s, none, some (.SourceNotFound name)⟩, ⟨0, by rw [MoveFolder_unfold, h1]⟩, rfl⟩
  · rintro ⟨r, ⟨fuel, hr⟩, he⟩
    rcases MoveFolder_classify fuel s name dst r hr with
      ⟨_, h⟩ | ⟨a, h1, h2, _⟩ | ⟨_, _, _, h⟩ | ⟨_, _, _, _, _, _, h⟩ |
      ⟨_, _, _, _, _, _, _, h⟩ | ⟨_, _, _, _, _, _, _, h⟩
    · rw [he] at h; cases h
    · exact ⟨(resolve_isSome s name).1 ⟨a, h1⟩, (resolve_eq_none s dst).1 h2⟩
    all_goals (rw [he] at h; cases h)
  · rintro ⟨hsrc, hno⟩
    obtain ⟨a, h1⟩ := (resolve_isSome s name).2 hsrc
    have h2 := (resolve_eq_none s dst).2 hno
    exact ⟨⟨s, none, some (.DestinationNotFound dst)⟩,
      ⟨0, by rw [MoveFolder_unfold, h1, h2]⟩, rfl⟩
  · rintro ⟨r, ⟨fuel, hr⟩, he⟩
    rcases MoveFolder_classify fuel s name dst r hr with
      ⟨_, h⟩ | ⟨_, _, _, h⟩ | ⟨a, h1, h2, _⟩ | ⟨_, _, _, _, _, _, h⟩ |
      ⟨_, _, _, _, _, _, _, h⟩ | ⟨_, _, _, _, _, _, _, h⟩
    · rw [he] at h; cases h
    · rw [he] at h; cases h
    · exact ⟨a, h1, h2⟩
    all_goals (rw [he] at h; cases h)
  · rintro ⟨a, h1, h2⟩
    exact ⟨⟨s, none, some (.MoveToSelf name)⟩,
      ⟨0, by rw [MoveFolder_unfold, h1, h2]; simp only [if_true]⟩, rfl⟩
  · rintro ⟨r, ⟨fuel, hr⟩, he⟩
    rcases MoveFolder_classify fuel s name dst r hr with
      ⟨_, h⟩ | ⟨_, _, _, h⟩ | ⟨_, _, _, h⟩ | ⟨a, d, h1, h2, hne, hc, _⟩ |
      ⟨_, _, _, _, _, _, _, h⟩ | ⟨_, _, _, _, _, _, _, h⟩
    · rw [he] at h; cases h
    · rw [he] at h; cases h
    · rw [he] at h; cases h
    · exact ⟨a, d, h1, h2, hne, hc⟩
    all_goals (rw [he] at h; cases h)
  · rintro ⟨a, d, h1, h2, hne, hc⟩
    obtain ⟨k, hk⟩ := isDescendantLoop_of_chain s.heap a d hc
    refine ⟨⟨s, none, some (.MoveIntoOwnDescendant name)⟩, ⟨k, ?_⟩, rfl⟩
    rw [MoveFolder_unfold, h1, h2]
    simp only [if_neg hne]
    have : isDescendant k s.heap a d = some true := hk
    rw [this]
  · rintro ⟨r, ⟨fuel, hr⟩, he⟩
    rcases MoveFolder_classify fuel s name dst r hr with
      ⟨_, h⟩ | ⟨_, _, _, h⟩ | ⟨_, _, _, h⟩ | ⟨_, _, _, _, _, _, h⟩ |
      ⟨a, d, h1, h2, hne, hc, ho, _⟩ | ⟨_, _, _, _, _, _, _, h⟩
    · rw [he] at h; cases h
    · rw [he] at h; cases h
    · rw [he] at h; cases h
    · rw [he] at h; cases h
    · exact ⟨a, d, h1, h2, hne, hc, ho⟩
    · rw [he] at h; cases h
  · rintro hA ⟨a, d, h1, h2, hne, hc, ho⟩
    obtain ⟨k, b, hk⟩ := isDescendantLoop_terminates s.heap hA a (some d)
    cases b with
    | true =>
      obtain ⟨c, hcd, hch⟩ := isDescendantLoop_true _ _ _ _ hk
      cases hcd
      exact absurd hch hc
    | false =>
      refine ⟨⟨s, none, some (.CrossOrganizationMove name)⟩, ⟨k, ?_⟩, rfl⟩
      rw [MoveFolder_unfold, h1, h2]
      simp only [if_neg hne]
      have : isDescendant k s.heap a d = some false := hk
      rw [this]
      simp only [if_pos ho]
  · rintro ⟨r, ⟨fuel, hr⟩, he⟩
    rcases MoveFolder_classify fuel s name dst r hr with
      ⟨_, h⟩ | ⟨_, _, _, h⟩ | ⟨_, _, _, h⟩ | ⟨_, _, _, _, _, _, h⟩ |
      ⟨_, _, _, _, _, _, _, h⟩ | ⟨a, d, h1, h2, hne, hc, ho, _⟩
    · rw [he] at h; cases h
    · rw [he] at h; cases h
    · rw [he] at h; cases h
    · rw [he] at h; cases h
    · rw [he] at h; cases h
    · exact ⟨a, d, h1, h2, hne, hc, ho⟩
  · rintro hA hC ⟨a, d, h1, h2, hne, hc, ho⟩
    obtain ⟨fuel, r, hr⟩ := MoveFolder_total s name dst hC hA
    refine ⟨r, ⟨fuel, hr⟩, ?_⟩
    rcases MoveFolder_classify fuel s name dst r hr with
      ⟨g1, _⟩ | ⟨_, _, g2, _⟩ | ⟨x, g1, g2, _⟩ | ⟨x, y, g1, g2, _, gc, _⟩ |
      ⟨x, y, g1, g2, _, _, go, _⟩ | ⟨_, _, _, _, _, _, _, h⟩
    · rw [h1] at g1; cases g1
    · rw [h2] at g2; cases g2
    · rw [h1] at g1; rw [h2] at g2; cases g1; cases g2; exact absurd rfl hne
    · rw [h1] at g1; rw [h2] at g2; cases g1; cases g2; exact absurd gc hc
    · rw [h1] at g1; rw [h2] at g2; cases g1; cases g2; exact absurd ho go
    · exact h

theorem MoveFolder_validation_witness :
    (Acyclic testState.heap ∧ Consistent testState.heap
      ∧ ∃ a d, resolve testState "bravo" = some a ∧ resolve testState "delta" = some d ∧ a ≠ d
          ∧ ¬ InParentChain testState.heap a d
          ∧ (testState.heap a).OrgId = (testState.heap d).OrgId)
    ∧ ∃ r, MoveFolderReturns testState "bravo" "delta" r ∧ r.err = none :=
  have hcond : ∃ a d, resolve testState "bravo" = some a ∧ resolve testState "delta" = some d
      ∧ a ≠ d ∧ ¬ InParentChain testState.heap a d
      ∧ (testState.heap a).OrgId = (testState.heap d).OrgId :=
    (MoveFolder_validation testState "bravo" "delta").2.2.2.2.2.2.1 ⟨testMoved, ⟨10, rfl⟩, rfl⟩
  ⟨⟨testState_acyclic, testState_consistent, hcond⟩,
    (MoveFolder_validation testState "bravo" "delta").2.2.2.2.2.2.2
      testState_acyclic testState_consistent hcond⟩


/-! ## Organization boundary -/

/-- C11: organization boundary preserved.  A successful `MoveFolder` links the
source under a destination with the same `OrgId` and leaves every `OrgId` as it
was; so if before the call every folder has the `OrgId` of its parent, the same
holds after the call, successful or not. -/
theorem MoveFolder_preserves_org {n : Nat} (fuel : Nat) (s : State n) (name dst : String)
    (r : MoveResult n) (hr : MoveFolder fuel s name dst = some r) :
    (∀ g, (r.state.heap g).OrgId = (s.heap g).OrgId)
    ∧ (r.err = none → ∀ src d, resolve s name = some src → resolve s dst = some d →
        (r.state.heap src).Parent = some d
        ∧ (r.state.heap src).OrgId = (r.state.heap d).OrgId)
    ∧ (SameOrgAsParent s.heap → SameOrgAsParent r.state.heap) := by
  cases he : r.err with
  | some e =>
    have hst := (MoveFolder_error_state fuel s name dst r hr (by rw [he]; simp)).1
    rw [hst]
    exact ⟨fun _ => rfl, fun h => Option.noConfusion h, fun h => h⟩
  | none =>
    obtain ⟨src, d, hsrc, hdst, _⟩ := MoveFolder_success fuel s name dst r hr he
    obtain ⟨hne, _, horg, _, hsh⟩ :=
      MoveFolder_success_heap fuel s name dst r hr he src d hsrc hdst
    have horgs : ∀ g, (r.state.heap g).OrgId = (s.heap g).OrgId := fun g => by
      rw [(hsh g).2.1, relink_OrgId]
    have hpar : ∀ g, (r.state.heap g).Parent = if g = src then some d else (s.heap g).Parent :=
      fun g => by rw [(hsh g).2.2.1, relink_Parent _ _ _ _ hne]
    refine ⟨horgs, ?_, ?_⟩
    · intro _ a b ha hb
      rw [hsrc] at ha; rw [hdst] at hb
      cases ha; cases hb
      exact ⟨by rw [hpar, if_pos rfl], by rw [horgs, horgs]; exact horg⟩
    · intro hinv c p hcp
      rw [hpar] at hcp
      rw [horgs, horgs]
      by_cases hc : c = src
      · rw [if_pos hc] at hcp
        cases hcp
        rw [hc]; exact horg
      · rw [if_neg hc] at hcp
        exact hinv c p hcp

theorem MoveFolder_preserves_org_witness :
    (MoveFolder 10 testState "bravo" "delta" = some testMoved
      ∧ SameOrgAsParent testState.heap)
    ∧ SameOrgAsParent testMoved.state.heap :=
  ⟨⟨rfl, by decide⟩,
    (MoveFolder_preserves_org 10 testState "bravo" "delta" testMoved rfl).2.2 (by decide)⟩

/-! ## More on the descendant query -/

theorem not_prefix_append_dot (p : String) : ¬ IsLiteralPrefix (p ++ ".") p := by
  intro h
  have hl := List.IsPrefix.length_le h
  rw [String.data_append, List.length_append] at hl
  have : (".").data.length = 1 := rfl
  omega

/-- C12: `GetAllChildFolders` never returns the base folder.  The folder chosen
as base, the first folder of `org` named `name`, is not in the result: its own
path cannot start with that path followed by a dot. -/
theorem GetAllChildFolders_excludes_base {n : Nat} (s : State n) (org : UUID)
    (name : String) (base : Fin n) (hbase : firstNamed s org name = some base) :
    base ∉ GetAllChildFolders s org name
    ∧ ¬ IsLiteralPrefix ((s.heap base).Paths ++ ".") (s.heap base).Paths := by
  refine ⟨?_, not_prefix_append_dot _⟩
  intro hmem
  rw [GetAllChildFolders_of_base s org name base hbase, List.mem_filter] at hmem
  exact not_prefix_append_dot _ (by simpa using hmem.2)

theorem GetAllChildFolders_excludes_base_witness :
    firstNamed flatState 1 "alpha" = some 0
    ∧ (0 : Fin 6) ∉ GetAllChildFolders flatState 1 "alpha" :=
  ⟨by decide, (GetAllChildFolders_excludes_base flatState 1 "alpha" 0 (by decide)).1⟩

theorem GetAllChildFolders_of_no_base {n : Nat} (s : State n) (org : UUID) (name : String)
    (hno : ∀ f, f ∈ s.folders → (s.heap f).OrgId = org → (s.heap f).Name ≠ name) :
    GetAllChildFolders s org name = [] := by
  have hfb : findBase s.heap name (ofOrg s org) = none := by
    rw [findBase_eq, List.find?_eq_none]
    intro f hf
    unfold ofOrg at hf
    rw [List.mem_filter] at hf
    simpa using hno f hf.1 (by simpa using hf.2)
  simp only [GetAllChildFolders, GetFoldersByOrgID_eq, hfb]
  split <;> rfl

/-- C13: absence is an empty result.  `GetAllChildFolders(org, name)` is the
empty sequence whenever no registered folder of `org` is named `name`: when
`org` has no registered folder at all, when `name` is the empty string and no
folder has an empty name, and when a folder of that name exists in another
organization only. -/
theorem GetAllChildFolders_absent {n : Nat} (s : State n) (org : UUID) (name : String) :
    ((∀ f, f ∈ s.folders → (s.heap f).OrgId = org → (s.heap f).Name ≠ name) →
        GetAllChildFolders s org name = [])
    ∧ ((∀ f, f ∈ s.folders → (s.heap f).OrgId ≠ org) → GetAllChildFolders s org name = [])
    ∧ ((∀ f, f ∈ s.folders → (s.heap f).Name ≠ "") → GetAllChildFolders s org "" = [])
    ∧ ((∀ f, f ∈ s.folders → (s.heap f).Name = name → (s.heap f).OrgId ≠ org) →
        GetAllChildFolders s org name = []) := by
  refine ⟨GetAllChildFolders_of_no_base s org name, ?_, ?_, ?_⟩
  · intro h
    exact GetAllChildFolders_of_no_base s org name (fun f hf ho => absurd ho (h f hf))
  · intro h
    exact GetAllChildFolders_of_no_base s org "" (fun f hf _ => h f hf)
  · intro h
    exact GetAllChildFolders_of_no_base s org name (fun f hf ho hn => h f hf hn ho)

theorem GetAllChildFolders_absent_witness :
    (∀ f, f ∈ flatState.folders → (flatState.heap f).Name = "foxtrot" →
        (flatState.heap f).OrgId ≠ 1)
    ∧ GetAllChildFolders flatState 1 "foxtrot" = [] :=
  ⟨by decide, (GetAllChildFolders_absent flatState 1 "foxtrot").2.2.2 (by decide)⟩


theorem firstNamed_of_split {n : Nat} (s : State n) (org : UUID) (name : String)
    (pre post : List (Fin n)) (base : Fin n) (hsplit : s.folders = pre ++ base :: post)
    (hpre : ∀ f, f ∈ pre → ¬ ((s.heap f).OrgId = org ∧ (s.heap f).Name = name))
    (hb : (s.heap base).OrgId = org ∧ (s.heap base).Name = name) :
    firstNamed s org name = some base := by
  unfold firstNamed
  rw [hsplit]
  clear hsplit
  induction pre with
  | nil => simp [hb.1, hb.2]
  | cons a t ih =>
    have ha := hpre a (by simp)
    have hfalse : (decide ((s.heap a).OrgId = org) && decide ((s.heap a).Name = name)) = false := by
      simpa using ha
    rw [List.cons_append, List.find?_cons, hfalse]
    exact ih (fun f hf => hpre f (List.mem_cons_of_mem _ hf))

/-- C14: duplicate names resolve to the first stored match.  When the registry
list reads `pre ++ base :: post`, `base` is a folder of `org` named `name` and
no folder of `pre` is, `GetAllChildFolders(org, name)` tests every folder of
`org` against `base.Paths + "."`, whatever further folders named `name` follow
in `post`; such a folder is returned exactly when it passes that test.  In the
test fixture with alpha, `alpha.bravo` and a second alpha at
`alpha.bravo.alpha` the result is bravo and the second alpha. -/
theorem GetAllChildFolders_first_match {n : Nat} (s : State n) (org : UUID) (name : String)
    (pre post : List (Fin n)) (base : Fin n) (hsplit : s.folders = pre ++ base :: post)
    (hpre : ∀ f, f ∈ pre → ¬ ((s.heap f).OrgId = org ∧ (s.heap f).Name = name))
    (hb : (s.heap base).OrgId = org ∧ (s.heap base).Name = name) :
    GetAllChildFolders s org name
      = (GetFoldersByOrgID s org).filter
          (fun f => decide (IsLiteralPrefix ((s.heap base).Paths ++ ".") (s.heap f).Paths))
    ∧ (∀ g, g ∈ post → (s.heap g).OrgId = org → (s.heap g).Name = name →
        (g ∈ GetAllChildFolders s org name
          ↔ IsLiteralPrefix ((s.heap base).Paths ++ ".") (s.heap g).Paths))
    ∧ GetAllChildFolders dupNameState 1 "alpha" = [1, 2] := by
  have hfirst := firstNamed_of_split s org name pre post base hsplit hpre hb
  have h := GetAllChildFolders_of_base s org name base hfirst
  refine ⟨by rw [GetFoldersByOrgID_eq]; exact h, ?_, by decide⟩
  intro g hg hgo _
  rw [h, List.mem_filter]
  have hmem : g ∈ ofOrg s org := by
    unfold ofOrg
    rw [List.mem_filter, hsplit]
    exact ⟨by simp [hg], by simpa using hgo⟩
  constructor
  · intro hx; simpa using hx.2
  · intro hx; exact ⟨hmem, by simpa using hx⟩

theorem GetAllChildFolders_first_match_witness :
    (dupNameState.folders = [] ++ 0 :: [1, 2]
      ∧ ((dupNameState.heap 0).OrgId = 1 ∧ (dupNameState.heap 0).Name = "alpha"))
    ∧ ((2 : Fin 3) ∈ GetAllChildFolders dupNameState 1 "alpha"
        ↔ IsLiteralPrefix ((dupNameState.heap 0).Paths ++ ".") (dupNameState.heap 2).Paths) :=
  ⟨⟨rfl, by decide⟩,
    (GetAllChildFolders_first_match dupNameState 1 "alpha" [] [1, 2] 0 rfl
      (fun f hf => by cases hf) (by decide)).2.1 2 (by decide) (by decide) (by decide)⟩

/-- C20: segment-boundary disambiguation.  With `base` the first folder of `org`
named `name` and `p` its path, a folder whose path is `p` followed by a string
that does not begin with a dot (for base alpha: alphabet, or `alphabet.x`) is
not returned by `GetAllChildFolders(org, name)`. -/
theorem GetAllChildFolders_segment_boundary {n : Nat} (s : State n) (org : UUID)
    (name : String) (base g : Fin n) (t : String)
    (hbase : firstNamed s org name = some base)
    (hg : (s.heap g).Paths = (s.heap base).Paths ++ t)
    (ht : t.data.head? ≠ some '.') :
    g ∉ GetAllChildFolders s org name := by
  intro hmem
  rw [GetAllChildFolders_of_base s org name base hbase, List.mem_filter] at hmem
  have hp : IsLiteralPrefix ((s.heap base).Paths ++ ".") (s.heap g).Paths := by
    simpa using hmem.2
  unfold IsLiteralPrefix at hp
  rw [hg, String.data_append, String.data_append, List.prefix_append_right_inj] at hp
  obtain ⟨rest, hrest⟩ := hp
  apply ht
  rw [← hrest]
  rfl

theorem GetAllChildFolders_segment_boundary_witness :
    (firstNamed prefixState 1 "alpha" = some 0
      ∧ (prefixState.heap 3).Paths = (prefixState.heap 0).Paths ++ "bet.x"
      ∧ ("bet.x").data.head? ≠ some '.')
    ∧ (3 : Fin 4) ∉ GetAllChildFolders prefixState 1 "alpha" :=
  ⟨⟨by decide, by decide, by decide⟩,
    GetAllChildFolders_segment_boundary prefixState 1 "alpha" 0 3 "bet.x"
      (by decide) (by decide) (by decide)⟩


/-! ## More on `MoveFolder` -/

theorem resolve_of_split {n : Nat} (s : State n) (name : String) (pre post : List (Fin n))
    (a : Fin n) (hsplit : s.folders = pre ++ a :: post) (ha : (s.heap a).Name = name)
    (hpost : ∀ f, f ∈ post → (s.heap f).Name ≠ name) : resolve s name = some a := by
  unfold resolve
  have hnil : post.filter (fun f => decide ((s.heap f).Name = name)) = [] := by
    rw [List.filter_eq_nil_iff]
    intro f hf
    simpa using hpost f hf
  rw [hsplit, List.filter_append, List.filter_cons_of_pos (by simpa using ha), hnil]
  exact List.getLast?_concat _

/-- C15, as stated, fails: in `twoNamedState` the first folder named x is
folder 0, but the name index holds folder 1 for x; `MoveFolder("x", "d")` moves
folder 1 under d and leaves folder 0 a root, and `MoveFolder("d", "x")` puts d
under folder 1. -/
theorem MoveFolder_first_match_counterexample :
    twoNamedState.folders.find? (fun f => decide ((twoNamedState.heap f).Name = "x")) = some 0
    ∧ buildMap twoNamedState.heap twoNamedState.folders (fun _ => none) "x" = some 1
    ∧ (MoveFolder 1 twoNamedState "x" "d").map
        (fun r => (r.err, (r.state.heap 0).Parent, (r.state.heap 1).Parent,
          (r.state.heap 2).Children))
      = some (none, none, some 2, [1])
    ∧ (MoveFolder 1 twoNamedState "d" "x").map
        (fun r => (r.err, (r.state.heap 2).Parent, (r.state.heap 0).Children,
          (r.state.heap 1).Children))
      = some (none, some 1, [], [2]) :=
  ⟨by decide, by decide, by decide, by decide⟩

/-- C15, amended: the name resolution of `MoveFolder` is organization-unscoped
and last-match.  When the registry list reads `pre ++ a :: post`, folder `a` is
named `name` and no folder of `post` is, whatever the organizations of the
folders, the name index built by `MoveFolder` holds `a` for `name`; a
successful `MoveFolder(name, dst)` puts `a` under the destination, and a
successful `MoveFolder(src, name)` puts the source under `a`. -/
theorem MoveFolder_last_match {n : Nat} (s : State n) (name : String)
    (pre post : List (Fin n)) (a : Fin n) (hsplit : s.folders = pre ++ a :: post)
    (ha : (s.heap a).Name = name) (hpost : ∀ f, f ∈ post → (s.heap f).Name ≠ name) :
    buildMap s.heap s.folders (fun _ => none) name = some a
    ∧ (∀ fuel dst r d, MoveFolder fuel s name dst = some r → r.err = none →
        resolve s dst = some d → (r.state.heap a).Parent = some d)
    ∧ (∀ fuel src r b, MoveFolder fuel s src name = some r → r.err = none →
        resolve s src = some b → (r.state.heap b).Parent = some a) := by
  have hres := resolve_of_split s name pre post a hsplit ha hpost
  refine ⟨by rw [folderMap_eq_resolve]; exact hres, ?_, ?_⟩
  · intro fuel dst r d hr he hd
    obtain ⟨hne, _, _, _, hsh⟩ := MoveFolder_success_heap fuel s name dst r hr he a d hres hd
    rw [(hsh a).2.2.1, relink_Parent _ _ _ _ hne, if_pos rfl]
  · intro fuel src r b hr he hb
    obtain ⟨hne, _, _, _, hsh⟩ := MoveFolder_success_heap fuel s src name r hr he b a hb hres
    rw [(hsh b).2.2.1, relink_Parent _ _ _ _ hne, if_pos rfl]

theorem MoveFolder_last_match_witness :
    (twoNamedState.folders = [0] ++ 1 :: [2] ∧ (twoNamedState.heap 1).Name = "x")
    ∧ buildMap twoNamedState.heap twoNamedState.folders (fun _ => none) "x" = some 1 :=
  ⟨⟨rfl, by decide⟩,
    (MoveFolder_last_match twoNamedState "x" [0] [2] 1 rfl (by decide) (by decide)).1⟩

theorem append3_ne_of_tail (A x B B2 : String) (h : B.data ≠ B2.data) :
    A ++ x ++ B ≠ A ++ x ++ B2 := by
  intro he
  apply h
  have := congrArg String.data he
  simp only [String.data_append] at this
  exact List.append_cancel_left this

theorem append3_ne_of_head (A A2 x y B B2 : String) (c c2 : Char) (rest rest2 : List Char)
    (hA : A.data = c :: rest) (hA2 : A2.data = c2 :: rest2) (hc : c ≠ c2) :
    A ++ x ++ B ≠ A2 ++ y ++ B2 := by
  intro he
  apply hc
  have := congrArg String.data he
  simp only [String.data_append, hA, hA2, List.cons_append] at this
  exact (List.cons.inj this).1

/-- C16, amended: stable error messages.  Whenever `MoveFolder(name, dst)` returns an
error, its text is the one of the failing check, with the argument quoted:
`source folder 'name' does not exist`, `destination folder 'dst' does not
exist`, `cannot move folder 'name' to itself`, `cannot move folder 'name' to a
child of itself` or `cannot move folder 'name' to a different organization`;
for fixed arguments the five texts are pairwise distinct; and with an empty
destination name and no empty-named folder the call returns an error, whose
text is `destination folder '' does not exist` when the source is registered
(and the source text otherwise). -/
theorem MoveFolder_error_texts {n : Nat} (s : State n) (name dst : String) :
    (∀ fuel r e, MoveFolder fuel s name dst = some r → r.err = some e →
        (resolve s name = none
          ∧ e.Error = "source folder '" ++ name ++ "' does not exist")
        ∨ (∃ a, resolve s name = some a ∧ resolve s dst = none
          ∧ e.Error = "destination folder '" ++ dst ++ "' does not exist")
        ∨ (∃ a, resolve s name = some a ∧ resolve s dst = some a
          ∧ e.Error = "cannot move folder '" ++ name ++ "' to itself")
        ∨ (∃ a d, resolve s name = some a ∧ resolve s dst = some d ∧ a ≠ d
          ∧ InParentChain s.heap a d
          ∧ e.Error = "cannot move folder '" ++ name ++ "' to a child of itself")
        ∨ (∃ a d, resolve s name = some a ∧ resolve s dst = some d ∧ a ≠ d
          ∧ ¬ InParentChain s.heap a d ∧ (s.heap a).OrgId ≠ (s.heap d).OrgId
          ∧ e.Error = "cannot move folder '" ++ name ++ "' to a different organization"))
    ∧ List.Pairwise (fun x y => x ≠ y)
        [ "source folder '" ++ name ++ "' does not exist",
          "destination folder '" ++ dst ++ "' does not exist",
          "cannot move folder '" ++ name ++ "' to itself",
          "cannot move folder '" ++ name ++ "' to a child of itself",
          "cannot move folder '" ++ name ++ "' to a different organization" ]
    ∧ ((∀ f, f ∈ s.folders → (s.heap f).Name ≠ "") →
        ((∃ f, f ∈ s.folders ∧ (s.heap f).Name = name) →
          ∀ fuel, ∃ r e, MoveFolder fuel s name "" = some r ∧ r.err = some e
            ∧ e.Error = "destination folder '' does not exist")
        ∧ ((∀ f, f ∈ s.folders → (s.heap f).Name ≠ name) →
          ∀ fuel, ∃ r e, MoveFolder fuel s name "" = some r ∧ r.err = some e
            ∧ e.Error = "source folder '" ++ name ++ "' does not exist")) := by
  refine ⟨?_, ?_, ?_⟩
  · intro fuel r e hr he
    rcases MoveFolder_classify fuel s name dst r hr with
      ⟨h1, h⟩ | ⟨a, h1, h2, h⟩ | ⟨a, h1, h2, h⟩ | ⟨a, d, h1, h2, hne, hc, h⟩ |
      ⟨a, d, h1, h2, hne, hc, ho, h⟩ | ⟨_, _, _, _, _, _, _, h⟩
    · rw [he] at h; cases h
      exact Or.inl ⟨h1, rfl⟩
    · rw [he] at h; cases h
      exact Or.inr (Or.inl ⟨a, h1, h2, rfl⟩)
    · rw [he] at h; cases h
      exact Or.inr (Or.inr (Or.inl ⟨a, h1, h2, rfl⟩))
    · rw [he] at h; cases h
      exact Or.inr (Or.inr (Or.inr (Or.inl ⟨a, d, h1, h2, hne, hc, rfl⟩)))
    · rw [he] at h; cases h
      exact Or.inr (Or.inr (Or.inr (Or.inr ⟨a, d, h1, h2, hne, hc, ho, rfl⟩)))
    · rw [he] at h; cases h
  · simp only [List.pairwise_cons, List.mem_cons, List.mem_singleton, List.not_mem_nil,
      forall_eq_or_imp, forall_eq, IsEmpty.forall_iff, implies_true, List.Pairwise.nil,
      and_true]
    refine ⟨⟨?_, ?_, ?_, ?_⟩, ⟨?_, ?_, ?_⟩, ⟨?_, ?_⟩, ?_⟩
    · exact append3_ne_of_head _ _ _ _ _ _ 's' 'd' _ _ rfl rfl (by decide)
    · exact append3_ne_of_head _ _ _ _ _ _ 's' 'c' _ _ rfl rfl (by decide)
    · exact append3_ne_of_head _ _ _ _ _ _ 's' 'c' _ _ rfl rfl (by decide)
    · exact append3_ne_of_head _ _ _ _ _ _ 's' 'c' _ _ rfl rfl (by decide)
    · exact append3_ne_of_head _ _ _ _ _ _ 'd' 'c' _ _ rfl rfl (by decide)
    · exact append3_ne_of_head _ _ _ _ _ _ 'd' 'c' _ _ rfl rfl (by decide)
    · exact append3_ne_of_head _ _ _ _ _ _ 'd' 'c' _ _ rfl rfl (by decide)
    · exact append3_ne_of_tail _ _ _ _ (by decide)
    · exact append3_ne_of_tail _ _ _ _ (by decide)
    · exact append3_ne_of_tail _ _ _ _ (by decide)
  · intro hempty
    have h2 := (resolve_eq_none s "").2 hempty
    constructor
    · intro hsrc fuel
      obtain ⟨a, h1⟩ := (resolve_isSome s name).2 hsrc
      exact ⟨⟨s, none, some (.DestinationNotFound "")⟩, .DestinationNotFound "",
        by rw [MoveFolder_unfold, h1, h2], rfl, rfl⟩
    · intro hno fuel
      have h1 := (resolve_eq_none s name).2 hno
      exact ⟨⟨s, none, some (.SourceNotFound name)⟩, .SourceNotFound name,
        by rw [MoveFolder_unfold, h1], rfl, rfl⟩

theorem MoveFolder_error_texts_witness :
    ((∀ f, f ∈ testState.folders → (testState.heap f).Name ≠ "")
      ∧ ∃ f, f ∈ testState.folders ∧ (testState.heap f).Name = "bravo")
    ∧ ∃ r e, MoveFolder 0 testState "bravo" "" = some r ∧ r.err = some e
        ∧ e.Error = "destination folder '' does not exist" :=
  ⟨⟨by decide, by decide⟩,
    ((MoveFolder_error_texts testState "bravo" "").2.2 (by decide)).1 (by decide) 0⟩


/-- Frame of a successful `MoveFolder` on the lists of elements, in a state
whose `Children` are consistent with `Parent` and whose parent chain is acyclic.
The registry list and every `Name` and `OrgId` are unchanged; `Parent` changes for the moved
folder only; `Children` change at most for the old parent and the destination;
`Paths` change only inside the moved subtree; so a folder outside that subtree
keeps its `Paths`, its `Parent` and, unless it is the old parent or the
destination, its `Children`. -/
theorem MoveFolder_frame {n : Nat} (fuel : Nat) (s : State n) (name dst : String)
    (r : MoveResult n) (src d : Fin n) (hC : Consistent s.heap) (hA : Acyclic s.heap)
    (hr : MoveFolder fuel s name dst = some r) (he : r.err = none)
    (hsrc : resolve s name = some src) (hdst : resolve s dst = some d) :
    r.state.folders = s.folders
    ∧ (∀ g, (r.state.heap g).Name = (s.heap g).Name ∧ (r.state.heap g).OrgId = (s.heap g).OrgId)
    ∧ (∀ g, g ≠ src → (r.state.heap g).Parent = (s.heap g).Parent)
    ∧ (∀ g, g ≠ d → (s.heap src).Parent ≠ some g →
        (r.state.heap g).Children = (s.heap g).Children)
    ∧ (∀ g, ¬ InSubtree s.heap src g → (r.state.heap g).Paths = (s.heap g).Paths)
    ∧ (∀ g, ¬ InSubtree s.heap src g →
        (r.state.heap g).Paths = (s.heap g).Paths
        ∧ (r.state.heap g).Parent = (s.heap g).Parent
        ∧ (g ≠ d → (s.heap src).Parent ≠ some g →
            (r.state.heap g).Children = (s.heap g).Children)) := by
  obtain ⟨_, _, _, _, _, _, _, _, hfold, _⟩ := MoveFolder_success fuel s name dst r hr he
  obtain ⟨hne, _, _, _, hsh⟩ := MoveFolder_success_heap fuel s name dst r hr he src d hsrc hdst
  obtain ⟨_, hframe, _, _, _, _, _⟩ :=
    MoveFolder_success_paths fuel s name dst r hr he src d hsrc hdst hC hA
  have hpar : ∀ g, g ≠ src → (r.state.heap g).Parent = (s.heap g).Parent := fun g hg => by
    rw [(hsh g).2.2.1, relink_Parent _ _ _ _ hne, if_neg hg]
  have hch : ∀ g, g ≠ d → (s.heap src).Parent ≠ some g →
      (r.state.heap g).Children = (s.heap g).Children := fun g hgd hp => by
    rw [(hsh g).2.2.2, relink_Children, if_neg hp, if_neg hgd, List.append_nil]
  have hpaths : ∀ g, ¬ InSubtree s.heap src g → (r.state.heap g).Paths = (s.heap g).Paths :=
    fun g hg => by rw [hframe g hg, relink_Paths]
  refine ⟨hfold, ?_, hpar, hch, hpaths, ?_⟩
  · intro g
    exact ⟨by rw [(hsh g).1, relink_Name], by rw [(hsh g).2.1, relink_OrgId]⟩
  · intro g hg
    have hgs : g ≠ src := fun e => hg (e ▸ Relation.ReflTransGen.refl)
    exact ⟨hpaths g hg, hpar g hgs, hch g⟩

theorem MoveFolder_frame_witness :
    (Consistent testState.heap ∧ Acyclic testState.heap
      ∧ MoveFolder 10 testState "bravo" "delta" = some testMoved ∧ testMoved.err = none
      ∧ resolve testState "bravo" = some 1 ∧ resolve testState "delta" = some 3)
    ∧ testMoved.state.folders = testState.folders
    ∧ (testMoved.state.heap 4).Parent = (testState.heap 4).Parent :=
  ⟨⟨testState_consistent, testState_acyclic, rfl, rfl, by decide, by decide⟩,
    (MoveFolder_frame 10 testState "bravo" "delta" testMoved 1 3 testState_consistent
      testState_acyclic rfl rfl (by decide) (by decide)).1,
    (MoveFolder_frame 10 testState "bravo" "delta" testMoved 1 3 testState_consistent
      testState_acyclic rfl rfl (by decide) (by decide)).2.2.1 4 (by decide)⟩

/-- No call replaces the registry list. -/
theorem MoveFolder_keeps_folders {n : Nat} (fuel : Nat) (s : State n) (name dst : String)
    (r : MoveResult n) (hr : MoveFolder fuel s name dst = some r) :
    r.state.folders = s.folders := by
  cases he : r.err with
  | some e =>
    rw [(MoveFolder_error_state fuel s name dst r hr (by rw [he]; simp)).1]
  | none =>
    obtain ⟨_, _, _, _, _, _, _, _, hfold, _⟩ := MoveFolder_success fuel s name dst r hr he
    exact hfold

theorem runMoves_keeps_folders {n : Nat} (fuel : Nat) (s s2 : State n)
    (moves : List (String × String)) (hr : runMoves fuel s moves = some s2) :
    s2.folders = s.folders := by
  induction moves generalizing s with
  | nil => cases hr; rfl
  | cons m rest ih =>
    obtain ⟨name, dst⟩ := m
    rw [runMoves] at hr
    cases hm : MoveFolder fuel s name dst with
    | none => rw [hm] at hr; cases hr
    | some r =>
      rw [hm] at hr
      rw [ih r.state hr, MoveFolder_keeps_folders fuel s name dst r hm]

/-- On the lists of elements a successful `MoveFolder` returns no error
together with the registry list: the very list the driver was built from by `NewDriver`,
same folders, same order, same length, neither filtered nor sorted; and this
stays so after any earlier sequence of moves on that driver. -/
theorem MoveFolder_returns_registry {n : Nat} (heap : Heap n) (folders : List (Fin n))
    (fuel : Nat) (name dst : String) (r : MoveResult n)
    (hr : MoveFolder fuel (NewDriver heap folders) name dst = some r) (he : r.err = none) :
    r.folders = some folders
    ∧ (∀ l, r.folders = some l → l.length = folders.length)
    ∧ r.state.folders = folders
    ∧ (∀ moves s2 fuel2 name2 dst2 r2, runMoves fuel (NewDriver heap folders) moves = some s2 →
        MoveFolder fuel2 s2 name2 dst2 = some r2 → r2.err = none →
        r2.folders = some folders) := by
  obtain ⟨_, _, _, _, _, _, _, _, hfold, hret⟩ :=
    MoveFolder_success fuel (NewDriver heap folders) name dst r hr he
  refine ⟨hret, ?_, hfold, ?_⟩
  · intro l hl
    rw [hret] at hl
    cases hl; rfl
  · intro moves s2 fuel2 name2 dst2 r2 hrun hr2 he2
    obtain ⟨_, _, _, _, _, _, _, _, _, hret2⟩ := MoveFolder_success fuel2 s2 name2 dst2 r2 hr2 he2
    rw [hret2, runMoves_keeps_folders fuel _ s2 moves hrun]
    rfl

theorem MoveFolder_returns_registry_witness :
    (MoveFolder 10 (NewDriver testState.heap [0, 1, 2, 3, 4, 5, 6]) "bravo" "delta"
        = some testMoved ∧ testMoved.err = none)
    ∧ testMoved.folders = some [0, 1, 2, 3, 4, 5, 6] :=
  ⟨⟨rfl, rfl⟩,
    (MoveFolder_returns_registry testState.heap [0, 1, 2, 3, 4, 5, 6] 10 "bravo" "delta"
      testMoved rfl rfl).1⟩

/-- C19: idempotent failure.  When `MoveFolder(name, dst)` fails, the state
after the call is the state before it, the same call on the resulting state
returns again, with the same error, and leaves the same state once more. -/
theorem MoveFolder_idempotent_failure {n : Nat} (fuel : Nat) (s : State n)
    (name dst : String) (r : MoveResult n) (e : MoveError)
    (hr : MoveFolder fuel s name dst = some r) (he : r.err = some e) :
    r.state = s
    ∧ (∃ r2, MoveFolder fuel r.state name dst = some r2 ∧ r2.err = some e ∧ r2.state = s)
    ∧ (∀ fuel2 r2, MoveFolder fuel2 r.state name dst = some r2 →
        r2.err = some e ∧ r2.state = s ∧ r2.folders = none) := by
  obtain ⟨hst, hnil⟩ := MoveFolder_error_state fuel s name dst r hr (by rw [he]; simp)
  refine ⟨hst, ⟨r, by rw [hst]; exact hr, he, hst⟩, ?_⟩
  intro fuel2 r2 hr2
  rw [hst] at hr2
  have := MoveFolder_deterministic fuel fuel2 s name dst r r2 hr hr2
  rw [← this]
  exact ⟨he, hst, hnil⟩

theorem MoveFolder_idempotent_failure_witness :
    MoveFolder 10 testState "bravo" "foxtrot"
        = some ⟨testState, none, some (.CrossOrganizationMove "bravo")⟩
    ∧ ∃ r2, MoveFolder 10 testState "bravo" "foxtrot" = some r2
        ∧ r2.err = some (.CrossOrganizationMove "bravo") ∧ r2.state = testState :=
  ⟨rfl, (MoveFolder_idempotent_failure 10 testState "bravo" "foxtrot"
    ⟨testState, none, some (.CrossOrganizationMove "bravo")⟩
    (.CrossOrganizationMove "bravo") rfl rfl).2.1⟩


/-! ## The descendant query reads the flat list only -/

/-- The query as one filter of the registry list. -/
theorem GetAllChildFolders_eq_filter {n : Nat} (s : State n) (org : UUID) (name : String) :
    GetAllChildFolders s org name
      = match firstNamed s org name with
        | none => []
        | some base =>
          s.folders.filter (fun f =>
            decide (IsLiteralPrefix ((s.heap base).Paths ++ ".") (s.heap f).Paths)
              && decide ((s.heap f).OrgId = org)) := by
  cases hb : firstNamed s org name with
  | none =>
    apply GetAllChildFolders_of_no_base
    intro f hf ho hn
    unfold firstNamed at hb
    rw [List.find?_eq_none] at hb
    exact hb f hf (by simp [ho, hn])
  | some base =>
    rw [GetAllChildFolders_of_base s org name base hb]
    unfold ofOrg
    rw [List.filter_filter]

theorem basePath_agree {n m : Nat} (h1 : Heap n) (h2 : Heap m) (org : UUID) (name : String)
    (l1 : List (Fin n)) (l2 : List (Fin m)) (hag : List.Forall₂ (SameRecord h1 h2) l1 l2) :
    (l1.find? (fun f => decide ((h1 f).OrgId = org) && decide ((h1 f).Name = name))).map
        (fun b => (h1 b).Paths)
      = (l2.find? (fun f => decide ((h2 f).OrgId = org) && decide ((h2 f).Name = name))).map
          (fun b => (h2 b).Paths) := by
  induction hag with
  | nil => rfl
  | @cons a b t1 t2 hab _ ih =>
    obtain ⟨hn, ho, hp⟩ := hab
    rw [List.find?_cons, List.find?_cons, ← hn, ← ho]
    cases hc : (decide ((h1 a).OrgId = org) && decide ((h1 a).Name = name)) with
    | true => simp only [Option.map_some']; rw [hp]
    | false => exact ih

theorem filter_zip_agree {α β : Type} (R : α → β → Prop) (q1 : α → Bool) (q2 : β → Bool)
    (hq : ∀ a b, R a b → q1 a = q2 b) (l1 : List α) (l2 : List β)
    (hag : List.Forall₂ R l1 l2) :
    l1.filter q1 = ((l1.zip l2).filter (fun ab => q1 ab.1)).map Prod.fst
    ∧ l2.filter q2 = ((l1.zip l2).filter (fun ab => q1 ab.1)).map Prod.snd := by
  induction hag with
  | nil => exact ⟨rfl, rfl⟩
  | @cons a b t1 t2 hab _ ih =>
    have hqa := hq a b hab
    rw [List.zip_cons_cons]
    cases hc : q1 a with
    | true =>
      have hcb : q2 b = true := by rw [← hqa]; exact hc
      simp only [List.filter_cons, hc, hcb, if_true, List.map_cons]
      exact ⟨congrArg _ ih.1, congrArg _ ih.2⟩
    | false =>
      have hcb : q2 b = false := by rw [← hqa]; exact hc
      simp only [List.filter_cons, hc, hcb, Bool.false_eq_true, if_false]
      exact ih

/-- C22: cyclic-data safety of the descendant query.  `GetAllChildFolders` is a
total function of the flat list and never reads `Parent` or `Children`: for two
registries, over any two stores, that agree position by position on `Name`,
`OrgId` and `Paths`, whatever their links are, the two results are the folders
at the same positions of the two lists: one selection `sel` of positions of the
zipped lists gives both results. -/
theorem GetAllChildFolders_ignores_links {n m : Nat} (s1 : State n) (s2 : State m)
    (org : UUID) (name : String)
    (hag : List.Forall₂ (SameRecord s1.heap s2.heap) s1.folders s2.folders) :
    ∃ sel : List (Fin n × Fin m), List.Sublist sel (s1.folders.zip s2.folders)
      ∧ GetAllChildFolders s1 org name = sel.map Prod.fst
      ∧ GetAllChildFolders s2 org name = sel.map Prod.snd := by
  have hbase := basePath_agree s1.heap s2.heap org name s1.folders s2.folders hag
  rw [GetAllChildFolders_eq_filter, GetAllChildFolders_eq_filter]
  unfold firstNamed
  cases hb1 : s1.folders.find?
      (fun f => decide ((s1.heap f).OrgId = org) && decide ((s1.heap f).Name = name)) with
  | none =>
    rw [hb1] at hbase
    cases hb2 : s2.folders.find?
        (fun f => decide ((s2.heap f).OrgId = org) && decide ((s2.heap f).Name = name)) with
    | none => exact ⟨[], List.nil_sublist _, rfl, rfl⟩
    | some b2 => rw [hb2] at hbase; cases hbase
  | some b1 =>
    rw [hb1] at hbase
    cases hb2 : s2.folders.find?
        (fun f => decide ((s2.heap f).OrgId = org) && decide ((s2.heap f).Name = name)) with
    | none => rw [hb2] at hbase; cases hbase
    | some b2 =>
      rw [hb2] at hbase
      have hpath : (s1.heap b1).Paths = (s2.heap b2).Paths := Option.some.inj hbase
      have key := filter_zip_agree (SameRecord s1.heap s2.heap)
        (fun f => decide (IsLiteralPrefix ((s1.heap b1).Paths ++ ".") (s1.heap f).Paths)
          && decide ((s1.heap f).OrgId = org))
        (fun f => decide (IsLiteralPrefix ((s2.heap b2).Paths ++ ".") (s2.heap f).Paths)
          && decide ((s2.heap f).OrgId = org))
        (fun a b hab => by
          obtain ⟨_, ho, hp⟩ := hab
          simp only [hpath, ho, hp])
        s1.folders s2.folders hag
      exact ⟨_, List.filter_sublist _, key.1, key.2⟩

theorem GetAllChildFolders_ignores_links_witness :
    List.Forall₂ (SameRecord dupNameState.heap cyclicLinksState.heap)
        dupNameState.folders cyclicLinksState.folders
    ∧ ∃ sel : List (Fin 3 × Fin 3),
        List.Sublist sel (dupNameState.folders.zip cyclicLinksState.folders)
        ∧ GetAllChildFolders dupNameState 1 "alpha" = sel.map Prod.fst
        ∧ GetAllChildFolders cyclicLinksState 1 "alpha" = sel.map Prod.snd :=
  have hag : List.Forall₂ (SameRecord dupNameState.heap cyclicLinksState.heap)
      dupNameState.folders cyclicLinksState.folders :=
    List.Forall₂.cons ⟨rfl, rfl, rfl⟩
      (List.Forall₂.cons ⟨rfl, rfl, rfl⟩ (List.Forall₂.cons ⟨rfl, rfl, rfl⟩ List.Forall₂.nil))
  ⟨hag, GetAllChildFolders_ignores_links dupNameState cyclicLinksState 1 "alpha" hag⟩


/-! ## Dotted paths and parent chains -/

theorem dot_mem_of_append_eq (X Y a : List Char) (h : X ++ ['.'] = Y ++ a) (ha : a ≠ []) :
    '.' ∈ a := by
  rcases List.eq_nil_or_concat a with hnil | ⟨L, b, hLb⟩
  · exact absurd hnil ha
  · rw [List.concat_eq_append] at hLb
    rw [hLb, ← List.append_assoc] at h
    have := (List.append_inj' h rfl).2
    rw [hLb]
    simp only [List.cons.injEq, and_true] at this
    rw [← this]
    simp

/-- A dotted prefix `B.` of `P.N`, with `N` free of dots, is a prefix of `P` or
is `P.` itself. -/
theorem prefix_dot_cases (B P N : List Char) (hN : '.' ∉ N)
    (h : B ++ ['.'] <+: P ++ ['.'] ++ N) : B ++ ['.'] <+: P ∨ B = P := by
  obtain ⟨t, ht⟩ := h
  rcases List.append_eq_append_iff.1 ht with ⟨a, ha, _⟩ | ⟨c, hc, hNc⟩
  · -- `P.` is `B.` followed by `a`
    rcases List.eq_nil_or_concat a with hnil | ⟨L, b, hLb⟩
    · rw [hnil, List.append_nil] at ha
      exact Or.inr (List.append_inj' ha rfl).1.symm
    · rw [List.concat_eq_append] at hLb
      rw [hLb, ← List.append_assoc] at ha
      have := (List.append_inj' ha rfl).1
      exact Or.inl ⟨L, this.symm⟩
  · -- `B.` is `P.` followed by `c`, a piece of `N`
    by_cases hcn : c = []
    · rw [hcn, List.append_nil] at hc
      exact Or.inr (List.append_inj' hc rfl).1
    · have hdot := dot_mem_of_append_eq B (P ++ ['.']) c hc hcn
      exact absurd (by rw [hNc]; exact List.mem_append_left _ hdot) hN

/-- The text after the last dot of a path is determined by the path. -/
theorem last_segment_unique (X1 X2 N1 N2 : List Char) (h1 : '.' ∉ N1) (h2 : '.' ∉ N2)
    (h : X1 ++ ['.'] ++ N1 = X2 ++ ['.'] ++ N2) : N1 = N2 := by
  rcases List.append_eq_append_iff.1 h with ⟨a, ha, hN⟩ | ⟨c, hc, hN⟩
  · by_cases han : a = []
    · rw [hN, han, List.nil_append]
    · have hdot := dot_mem_of_append_eq X2 (X1 ++ ['.']) a ha han
      exact absurd (by rw [hN]; exact List.mem_append_left _ hdot) h1
  · by_cases hcn : c = []
    · rw [hN, hcn, List.nil_append]
    · have hdot := dot_mem_of_append_eq X1 (X2 ++ ['.']) c hc hcn
      exact absurd (by rw [hN]; exact List.mem_append_left _ hdot) h2

theorem pathInv_data_some {n : Nat} {h : Heap n} {g p : Fin n} (hI : PathInv h g)
    (hp : (h g).Parent = some p) :
    (h g).Paths.data = (h p).Paths.data ++ ['.'] ++ (h g).Name.data := by
  rw [hI.some hp, String.data_append, String.data_append]

theorem pathInv_data_none {n : Nat} {h : Heap n} {g : Fin n} (hI : PathInv h g)
    (hp : (h g).Parent = none) : (h g).Paths.data = (h g).Name.data := by
  rw [hI.none hp]

/-- Two folders with the path invariant, dot-free names and the same path have
the same name. -/
theorem name_eq_of_paths_eq {n : Nat} (h : Heap n) (a b : Fin n) (ha : PathInv h a)
    (hb : PathInv h b) (hda : DotFree (h a).Name) (hdb : DotFree (h b).Name)
    (hpath : (h a).Paths = (h b).Paths) : (h a).Name = (h b).Name := by
  have hdata : (h a).Paths.data = (h b).Paths.data := by rw [hpath]
  unfold DotFree at hda hdb
  apply String.ext
  cases hpa : (h a).Parent with
  | none =>
    have ea := pathInv_data_none ha hpa
    cases hpb : (h b).Parent with
    | none =>
      have eb := pathInv_data_none hb hpb
      rw [← ea, ← eb, hdata]
    | some q =>
      have eb := pathInv_data_some hb hpb
      rw [ea, eb] at hdata
      exact absurd (by rw [hdata]; simp) hda
  | some p =>
    have ea := pathInv_data_some ha hpa
    cases hpb : (h b).Parent with
    | none =>
      have eb := pathInv_data_none hb hpb
      rw [ea, eb] at hdata
      exact absurd (by rw [← hdata]; simp) hdb
    | some q =>
      have eb := pathInv_data_some hb hpb
      rw [ea, eb] at hdata
      exact last_segment_unique _ _ _ _ hda hdb hdata

theorem firstNamed_some {n : Nat} (s : State n) (org : UUID) (name : String) (base : Fin n)
    (hb : firstNamed s org name = some base) :
    base ∈ s.folders ∧ (s.heap base).OrgId = org ∧ (s.heap base).Name = name := by
  unfold firstNamed at hb
  have hm := List.mem_of_find?_eq_some hb
  have hp := List.find?_some hb
  simp only [Bool.and_eq_true, decide_eq_true_eq] at hp
  exact ⟨hm, hp.1, hp.2⟩

/-- The path of a folder starts with the path of each proper ancestor and a
dot. -/
theorem prefix_of_ancestor {n : Nat} (s : State n) (hPR : ParentsRegistered s)
    (hPI : ∀ f, f ∈ s.folders → PathInv s.heap f) (base f : Fin n) (hf : f ∈ s.folders)
    (hanc : ProperAncestor s.heap base f) :
    IsLiteralPrefix ((s.heap base).Paths ++ ".") (s.heap f).Paths := by
  unfold ProperAncestor at hanc
  revert hf
  induction hanc using Relation.TransGen.head_induction_on with
  | base hab =>
    intro hf
    unfold IsLiteralPrefix
    rw [pathInv_data_some (hPI _ hf) hab, String.data_append]
    exact List.prefix_append _ _
  | ih hac _ hrec =>
    intro hf
    have hc := (hPR _ hf _ hac).1
    have hpre := hrec hc
    unfold IsLiteralPrefix at hpre ⊢
    rw [pathInv_data_some (hPI _ hf) hac, List.append_assoc]
    exact hpre.trans (List.prefix_append _ _)

/-- With dot-free names that are distinct inside the organization, a folder
whose path starts with the base path and a dot has the base among its proper
ancestors. -/
theorem ancestor_of_dotted {n : Nat} (s : State n) (org : UUID) (hPR : ParentsRegistered s)
    (hDF : NamesDotFree s) (hPI : ∀ f, f ∈ s.folders → PathInv s.heap f)
    (hDN : DistinctNamesIn s org) (base : Fin n) (hb : base ∈ s.folders)
    (hbo : (s.heap base).OrgId = org) (k : Nat) :
    ∀ f, (s.heap f).Paths.data.length < k → f ∈ s.folders → (s.heap f).OrgId = org →
      IsLiteralPrefix ((s.heap base).Paths ++ ".") (s.heap f).Paths →
      ProperAncestor s.heap base f := by
  induction k with
  | zero => intro f hlt; omega
  | succ k ih =>
    intro f hlt hf hfo hpre
    unfold IsLiteralPrefix at hpre
    rw [String.data_append] at hpre
    have hdot : (".").data = ['.'] := rfl
    rw [hdot] at hpre
    cases hp : (s.heap f).Parent with
    | none =>
      rw [pathInv_data_none (hPI f hf) hp] at hpre
      have hmem : '.' ∈ (s.heap f).Name.data := hpre.subset (by simp)
      exact absurd hmem (hDF f hf)
    | some p =>
      have hdata := pathInv_data_some (hPI f hf) hp
      rw [hdata] at hpre
      obtain ⟨hpf, hpo⟩ := hPR f hf p hp
      rcases prefix_dot_cases _ _ _ (hDF f hf) hpre with hshort | heq
      · have hlen : (s.heap p).Paths.data.length < k := by
          have := congrArg List.length hdata
          simp only [List.length_append, List.length_cons, List.length_nil] at this
          omega
        have hrec := ih p hlen hpf (hpo.trans hfo)
          (by unfold IsLiteralPrefix; rw [String.data_append, hdot]; exact hshort)
        exact Relation.TransGen.head hp hrec
      · have hpaths : (s.heap base).Paths = (s.heap p).Paths := String.ext heq
        have hname := name_eq_of_paths_eq s.heap base p (hPI base hb) (hPI p hpf)
          (hDF base hb) (hDF p hpf) hpaths
        have hbp : base = p := hDN base p hb hpf hbo (hpo.trans hfo) hname
        rw [hbp]
        exact Relation.TransGen.single hp

theorem prefix_iff_ancestor {n : Nat} (s : State n) (org : UUID) (hPR : ParentsRegistered s)
    (hDF : NamesDotFree s) (hPI : ∀ f, f ∈ s.folders → PathInv s.heap f)
    (hDN : DistinctNamesIn s org) (base : Fin n) (hb : base ∈ s.folders)
    (hbo : (s.heap base).OrgId = org) (f : Fin n) (hf : f ∈ s.folders)
    (hfo : (s.heap f).OrgId = org) :
    IsLiteralPrefix ((s.heap base).Paths ++ ".") (s.heap f).Paths
      ↔ ProperAncestor s.heap base f :=
  ⟨ancestor_of_dotted s org hPR hDF hPI hDN base hb hbo _ f (Nat.lt_succ_self _) hf hfo,
    prefix_of_ancestor s hPR hPI base f hf⟩

/-- The descendant query as a filter by ancestry, under the hypotheses that
tie paths to parent chains. -/
theorem GetAllChildFolders_mem_iff_ancestor {n : Nat} (s : State n) (org : UUID)
    (name : String) (hPR : ParentsRegistered s) (hDF : NamesDotFree s)
    (hPI : ∀ f, f ∈ s.folders → PathInv s.heap f) (hDN : DistinctNamesIn s org)
    (base : Fin n) (hbase : firstNamed s org name = some base) (f : Fin n) :
    f ∈ GetAllChildFolders s org name
      ↔ f ∈ GetFoldersByOrgID s org ∧ ProperAncestor s.heap base f := by
  obtain ⟨hb, hbo, _⟩ := firstNamed_some s org name base hbase
  rw [GetAllChildFolders_of_base s org name base hbase, GetFoldersByOrgID_eq, List.mem_filter]
  constructor
  · rintro ⟨hmem, hpre⟩
    have hm := hmem
    unfold ofOrg at hm
    rw [List.mem_filter] at hm
    exact ⟨hmem, (prefix_iff_ancestor s org hPR hDF hPI hDN base hb hbo f hm.1
      (by simpa using hm.2)).1 (by simpa using hpre)⟩
  · rintro ⟨hmem, hanc⟩
    have hm := hmem
    unfold ofOrg at hm
    rw [List.mem_filter] at hm
    exact ⟨hmem, by simpa using prefix_of_ancestor s hPR hPI base f hm.1 hanc⟩

/-- C21: string descendants coincide with structural descendants.  In a
registry where every registered folder's parent is registered in the same
organization, names hold no dot, paths satisfy the path invariant and the
folders of `org` have pairwise distinct names, the folder of `org` named `name`
is unique and `GetAllChildFolders(org, name)` is, in storage order, the list of
the folders of `org` that have it as a proper ancestor through `Parent` links;
with no such folder the result is empty. -/
theorem GetAllChildFolders_structural {n : Nat} (s : State n) (org : UUID) (name : String)
    (hPR : ParentsRegistered s) (hDF : NamesDotFree s)
    (hPI : ∀ f, f ∈ s.folders → PathInv s.heap f) (hDN : DistinctNamesIn s org) :
    (∀ base, firstNamed s org name = some base →
      (∀ g, g ∈ s.folders → (s.heap g).OrgId = org → (s.heap g).Name = name → g = base)
      ∧ (∀ f, f ∈ GetAllChildFolders s org name
          ↔ f ∈ GetFoldersByOrgID s org ∧ ProperAncestor s.heap base f)
      ∧ (∀ keep : Fin n → Bool, (∀ f, keep f = true ↔ ProperAncestor s.heap base f) →
          GetAllChildFolders s org name = (GetFoldersByOrgID s org).filter keep))
    ∧ (firstNamed s org name = none → GetAllChildFolders s org name = []) := by
  constructor
  · intro base hbase
    obtain ⟨hb, hbo, hbn⟩ := firstNamed_some s org name base hbase
    refine ⟨fun g hg hgo hgn => hDN g base hg hb hgo hbo (hgn.trans hbn.symm),
      GetAllChildFolders_mem_iff_ancestor s org name hPR hDF hPI hDN base hbase, ?_⟩
    intro keep hkeep
    rw [GetAllChildFolders_of_base s org name base hbase, GetFoldersByOrgID_eq]
    apply List.filter_congr
    intro f hf
    have hm := hf
    unfold ofOrg at hm
    rw [List.mem_filter] at hm
    have hiff := prefix_iff_ancestor s org hPR hDF hPI hDN base hb hbo f hm.1
      (by simpa using hm.2)
    by_cases hanc : ProperAncestor s.heap base f
    · rw [(hkeep f).2 hanc]
      simpa using hiff.2 hanc
    · have hk : keep f = false := by
        cases hkf : keep f with
        | false => rfl
        | true => exact absurd ((hkeep f).1 hkf) hanc
      rw [hk]
      simpa using fun hpre => hanc (hiff.1 hpre)
  · intro hnone
    rw [GetAllChildFolders_eq_filter, hnone]

theorem GetAllChildFolders_structural_witness :
    (ParentsRegistered testState ∧ NamesDotFree testState
      ∧ (∀ f, f ∈ testState.folders → PathInv testState.heap f)
      ∧ DistinctNamesIn testState 1 ∧ firstNamed testState 1 "alpha" = some 0)
    ∧ ((2 : Fin 7) ∈ GetAllChildFolders testState 1 "alpha"
        ↔ (2 : Fin 7) ∈ GetFoldersByOrgID testState 1 ∧ ProperAncestor testState.heap 0 2) :=
  ⟨⟨by decide, by decide, by decide, by decide, by decide⟩,
    ((GetAllChildFolders_structural testState 1 "alpha" (by decide) (by decide) (by decide)
      (by decide)).1 0 (by decide)).2.1 2⟩


/-! ## Parent chains before and after a move -/

theorem relink_edge_of_ne {n : Nat} (h : Heap n) (src d x y : Fin n) (hne : src ≠ d)
    (hx : x ≠ src) (hxy : parentRel h x y) : parentRel (relink h src d) x y := by
  unfold parentRel at hxy ⊢
  rw [relink_Parent h src d x hne, if_neg hx]
  exact hxy

theorem relink_chain_to_src {n : Nat} (h : Heap n) (src d f : Fin n) (hne : src ≠ d)
    (hA : Acyclic h) (hch : Relation.ReflTransGen (parentRel h) f src) :
    Relation.ReflTransGen (parentRel (relink h src d)) f src := by
  induction hch using Relation.ReflTransGen.head_induction_on with
  | refl => exact Relation.ReflTransGen.refl
  | @head a c hac hcs ih =>
    have ha : a ≠ src := by
      intro e
      subst e
      exact hA a (Relation.TransGen.head' hac hcs)
    exact Relation.ReflTransGen.head (relink_edge_of_ne h src d a c hne ha hac) ih

theorem relink_chain_avoiding {n : Nat} (h : Heap n) (src d f b : Fin n) (hne : src ≠ d)
    (hfb : Relation.TransGen (parentRel h) f b)
    (hns : ¬ Relation.ReflTransGen (parentRel h) f src) :
    Relation.TransGen (parentRel (relink h src d)) f b := by
  revert hns
  induction hfb using Relation.TransGen.head_induction_on with
  | base hab =>
    intro hns
    have ha : _ ≠ src := fun e => hns (e ▸ Relation.ReflTransGen.refl)
    exact Relation.TransGen.single (relink_edge_of_ne h src d _ _ hne ha hab)
  | ih hac _ hrec =>
    intro hns
    have ha : _ ≠ src := fun e => hns (e ▸ Relation.ReflTransGen.refl)
    have hcs : ¬ Relation.ReflTransGen (parentRel h) _ src :=
      fun hc => hns (Relation.ReflTransGen.head hac hc)
    exact Relation.TransGen.head (relink_edge_of_ne h src d _ _ hne ha hac) (hrec hcs)

/-- The proper descendants of the moved folder are the same before and after
relinking. -/
theorem relink_ancestor_src {n : Nat} (h : Heap n) (src d f : Fin n) (hne : src ≠ d)
    (hA : Acyclic h) (hnc : ¬ InParentChain h src d) :
    ProperAncestor (relink h src d) src f ↔ ProperAncestor h src f := by
  unfold ProperAncestor
  constructor
  · intro hf
    rcases relink_transGen h src d f src hne hf with hl | ⟨_, hds⟩
    · exact hl
    · exact absurd hds hnc
  · intro hf
    obtain ⟨b, hfb, hbs⟩ := Relation.TransGen.head'_iff.1 hf
    have hfs : f ≠ src := by
      intro e
      subst e
      exact hA f hf
    exact Relation.TransGen.head' (relink_edge_of_ne h src d f b hne hfs hfb)
      (relink_chain_to_src h src d b hne hA hbs)

/-- After relinking, the proper descendants of the destination are its earlier
ones together with the moved folder and the folders below it. -/
theorem relink_ancestor_dst {n : Nat} (h : Heap n) (src d f : Fin n) (hne : src ≠ d)
    (hA : Acyclic h) :
    ProperAncestor (relink h src d) d f ↔ ProperAncestor h d f ∨ InParentChain h src f := by
  unfold ProperAncestor InParentChain
  constructor
  · intro hf
    rcases relink_transGen h src d f d hne hf with hl | ⟨hfs, _⟩
    · exact Or.inl hl
    · exact Or.inr hfs
  · intro hf
    by_cases hfs : Relation.ReflTransGen (parentRel h) f src
    · have hedge : parentRel (relink h src d) src d := by
        unfold parentRel
        rw [relink_Parent h src d src hne, if_pos rfl]
      exact Relation.TransGen.tail' (relink_chain_to_src h src d f hne hA hfs) hedge
    · rcases hf with hl | hr
      · exact relink_chain_avoiding h src d f d hne hl hfs
      · exact absurd hr hfs

/-- The organization is constant along the parent chain of a registered
folder, and the chain stays inside the registry. -/
theorem chain_registered {n : Nat} (s : State n) (hPR : ParentsRegistered s) (f a : Fin n)
    (hf : f ∈ s.folders) (hch : Relation.ReflTransGen (parentRel s.heap) f a) :
    a ∈ s.folders ∧ (s.heap a).OrgId = (s.heap f).OrgId := by
  induction hch with
  | refl => exact ⟨hf, rfl⟩
  | tail _ hbc ih =>
    obtain ⟨hb, hbo⟩ := ih
    obtain ⟨hc, hco⟩ := hPR _ hb _ hbc
    exact ⟨hc, hco.trans hbo⟩

/-- Fields of the store after a successful move, in terms of the store before. -/
theorem MoveFolder_success_fields {n : Nat} (fuel : Nat) (s : State n) (name dst : String)
    (r : MoveResult n) (hr : MoveFolder fuel s name dst = some r) (he : r.err = none)
    (src d : Fin n) (hsrc : resolve s name = some src) (hdst : resolve s dst = some d) :
    r.state.folders = s.folders
    ∧ (∀ g, (r.state.heap g).Name = (s.heap g).Name)
    ∧ (∀ g, (r.state.heap g).OrgId = (s.heap g).OrgId)
    ∧ (∀ g, (r.state.heap g).Parent = if g = src then some d else (s.heap g).Parent)
    ∧ parentRel r.state.heap = parentRel (relink s.heap src d) := by
  obtain ⟨hne, _, _, _, hsh⟩ := MoveFolder_success_heap fuel s name dst r hr he src d hsrc hdst
  refine ⟨MoveFolder_keeps_folders fuel s name dst r hr, ?_, ?_, ?_, hsh.parentRel_eq⟩
  · intro g; rw [(hsh g).1, relink_Name]
  · intro g; rw [(hsh g).2.1, relink_OrgId]
  · intro g; rw [(hsh g).2.2.1, relink_Parent _ _ _ _ hne]


theorem firstNamed_of_unique {n : Nat} (s : State n) (org : UUID) (name : String)
    (hDN : DistinctNames s) (a : Fin n) (ha : a ∈ s.folders) (hao : (s.heap a).OrgId = org)
    (han : (s.heap a).Name = name) : firstNamed s org name = some a := by
  cases hf : firstNamed s org name with
  | none =>
    unfold firstNamed at hf
    rw [List.find?_eq_none] at hf
    exact absurd (by simp [hao, han]) (hf a ha)
  | some b =>
    obtain ⟨hb, _, hbn⟩ := firstNamed_some s org name b hf
    rw [hDN b a hb ha (hbn.trans han.symm)]

theorem GetAllChildFolders_other_org {n : Nat} (s : State n) (org : UUID) (name : String)
    (hDN : DistinctNames s) (a : Fin n) (ha : a ∈ s.folders) (han : (s.heap a).Name = name)
    (hao : (s.heap a).OrgId ≠ org) : GetAllChildFolders s org name = [] := by
  apply GetAllChildFolders_of_no_base
  intro f hf hfo hfn
  have : f = a := hDN f a hf ha (hfn.trans han.symm)
  rw [this] at hfo
  exact hao hfo

/-- On the lists of elements a move carries the whole subtree with it in the
eyes of the descendant query.  In a state satisfying the data-model invariants (path invariant,
`Children` consistent with `Parent`, acyclic parent chain, every registered
folder's parent registered in the same organization) with dot-free, pairwise
distinct names, after a successful `MoveFolder(name, dst)`, for every
organization, `GetAllChildFolders(org, name)` is the same sequence as before
the move, and `GetAllChildFolders(org, dst)` is, in storage order, its earlier
result together with the moved folder and all folders of the moved subtree. -/
theorem MoveFolder_carries_subtree {n : Nat} (fuel : Nat) (s : State n) (name dst : String)
    (r : MoveResult n) (src d : Fin n) (org : UUID)
    (hP : ∀ g, PathInv s.heap g) (hC : Consistent s.heap) (hA : Acyclic s.heap)
    (hPR : ParentsRegistered s) (hDF : NamesDotFree s) (hDN : DistinctNames s)
    (hr : MoveFolder fuel s name dst = some r) (he : r.err = none)
    (hsrc : resolve s name = some src) (hdst : resolve s dst = some d) :
    GetAllChildFolders r.state org name = GetAllChildFolders s org name
    ∧ (∀ f, f ∈ GetAllChildFolders r.state org dst
        ↔ f ∈ GetFoldersByOrgID s org
          ∧ (f ∈ GetAllChildFolders s org dst ∨ InSubtree s.heap src f))
    ∧ (∀ keep : Fin n → Bool, (∀ f, keep f = true ↔ InSubtree s.heap src f) →
        GetAllChildFolders r.state org dst
          = (GetFoldersByOrgID s org).filter
              (fun f => decide (f ∈ GetAllChildFolders s org dst) || keep f)) := by
  obtain ⟨hfold, hname, horgid, hpar, hrel⟩ :=
    MoveFolder_success_fields fuel s name dst r hr he src d hsrc hdst
  obtain ⟨hne, hnc, horg, _, _⟩ := MoveFolder_success_heap fuel s name dst r hr he src d hsrc hdst
  obtain ⟨hsf, hsn⟩ := resolve_some s name src hsrc
  obtain ⟨hdf, hdn⟩ := resolve_some s dst d hdst
  have hPI2 : ∀ f, f ∈ r.state.folders → PathInv r.state.heap f :=
    fun f _ => MoveFolder_keeps_pathInv fuel s name dst r hr hP hC hA f
  have hPR2 : ParentsRegistered r.state := by
    intro f hf p hp
    rw [hfold] at hf ⊢
    rw [hpar] at hp
    rw [horgid, horgid]
    by_cases hfs : f = src
    · rw [if_pos hfs] at hp
      cases hp
      rw [hfs]
      exact ⟨hdf, horg.symm⟩
    · rw [if_neg hfs] at hp
      exact hPR f hf p hp
  have hDF2 : NamesDotFree r.state := by
    intro f hf
    rw [hfold] at hf
    rw [hname]
    exact hDF f hf
  have hDN2 : DistinctNames r.state := by
    intro f g hf hg hfg
    rw [hfold] at hf hg
    rw [hname, hname] at hfg
    exact hDN f g hf hg hfg
  have hofOrg : ofOrg r.state org = ofOrg s org := by
    unfold ofOrg
    rw [hfold]
    exact List.filter_congr (fun f _ => by rw [horgid])
  have hmain : ∀ keep : Fin n → Bool, (∀ f, keep f = true ↔ InSubtree s.heap src f) →
      GetAllChildFolders r.state org dst
        = (GetFoldersByOrgID s org).filter
            (fun f => decide (f ∈ GetAllChildFolders s org dst) || keep f) := by
    intro keep hkeep
    by_cases horgc : (s.heap src).OrgId = org
    · have hdo : (s.heap d).OrgId = org := horg.symm.trans horgc
      have hfd := firstNamed_of_unique s org dst hDN d hdf hdo hdn
      have hfd2 := firstNamed_of_unique r.state org dst hDN2 d (by rw [hfold]; exact hdf)
        (by rw [horgid]; exact hdo) (by rw [hname]; exact hdn)
      rw [GetAllChildFolders_of_base r.state org dst d hfd2, hofOrg, GetFoldersByOrgID_eq]
      apply List.filter_congr
      intro f hf
      have hm := hf
      unfold ofOrg at hm
      rw [List.mem_filter] at hm
      have hfo : (s.heap f).OrgId = org := by simpa using hm.2
      have h1 := prefix_iff_ancestor r.state org hPR2 hDF2 hPI2
        (fun a b ha hb _ _ hab => hDN2 a b ha hb hab) d (by rw [hfold]; exact hdf)
        (by rw [horgid]; exact hdo) f (by rw [hfold]; exact hm.1) (by rw [horgid]; exact hfo)
      have h2 : ProperAncestor r.state.heap d f
          ↔ ProperAncestor s.heap d f ∨ InParentChain s.heap src f := by
        unfold ProperAncestor
        rw [hrel]
        exact relink_ancestor_dst s.heap src d f hne hA
      have h3 := GetAllChildFolders_mem_iff_ancestor s org dst hPR hDF (fun g _ => hP g)
        (fun a b ha hb _ _ hab => hDN a b ha hb hab) d hfd f
      rw [Bool.eq_iff_iff]
      simp only [decide_eq_true_eq, Bool.or_eq_true]
      rw [h1, h2, h3, hkeep f, inSubtree_iff_chain s.heap hC, GetFoldersByOrgID_eq]
      constructor
      · rintro (hl | hr2)
        · exact Or.inl ⟨hf, hl⟩
        · exact Or.inr hr2
      · rintro (⟨_, hl⟩ | hr2)
        · exact Or.inl hl
        · exact Or.inr hr2
    · have hdo : (s.heap d).OrgId ≠ org := fun e => horgc (horg.trans e)
      rw [GetAllChildFolders_other_org r.state org dst hDN2 d (by rw [hfold]; exact hdf)
        (by rw [hname]; exact hdn) (by rw [horgid]; exact hdo)]
      symm
      rw [List.filter_eq_nil_iff]
      intro f hf
      rw [GetFoldersByOrgID_eq] at hf
      unfold ofOrg at hf
      rw [List.mem_filter] at hf
      have hfo : (s.heap f).OrgId = org := by simpa using hf.2
      rw [GetAllChildFolders_other_org s org dst hDN d hdf hdn hdo]
      simp only [List.not_mem_nil, decide_False, Bool.false_or]
      intro hk
      have hch := (inSubtree_iff_chain s.heap hC src f).1 ((hkeep f).1 hk)
      exact horgc ((chain_registered s hPR f src hf.1 hch).2.trans hfo)
  refine ⟨?_, ?_, hmain⟩
  · by_cases horgc : (s.heap src).OrgId = org
    · have hfs := firstNamed_of_unique s org name hDN src hsf horgc hsn
      have hfs2 := firstNamed_of_unique r.state org name hDN2 src (by rw [hfold]; exact hsf)
        (by rw [horgid]; exact horgc) (by rw [hname]; exact hsn)
      rw [GetAllChildFolders_of_base r.state org name src hfs2,
        GetAllChildFolders_of_base s org name src hfs, hofOrg]
      apply List.filter_congr
      intro f hf
      have hm := hf
      unfold ofOrg at hm
      rw [List.mem_filter] at hm
      have hfo : (s.heap f).OrgId = org := by simpa using hm.2
      have h1 := prefix_iff_ancestor r.state org hPR2 hDF2 hPI2
        (fun a b ha hb _ _ hab => hDN2 a b ha hb hab) src (by rw [hfold]; exact hsf)
        (by rw [horgid]; exact horgc) f (by rw [hfold]; exact hm.1)
        (by rw [horgid]; exact hfo)
      have h2 : ProperAncestor r.state.heap src f ↔ ProperAncestor s.heap src f := by
        unfold ProperAncestor
        rw [hrel]
        exact relink_ancestor_src s.heap src d f hne hA hnc
      have h3 := prefix_iff_ancestor s org hPR hDF (fun g _ => hP g)
        (fun a b ha hb _ _ hab => hDN a b ha hb hab) src hsf horgc f hm.1 hfo
      rw [Bool.eq_iff_iff]
      simp only [decide_eq_true_eq]
      rw [h1, h2, h3]
    · rw [GetAllChildFolders_other_org r.state org name hDN2 src (by rw [hfold]; exact hsf)
          (by rw [hname]; exact hsn) (by rw [horgid]; exact horgc),
        GetAllChildFolders_other_org s org name hDN src hsf hsn horgc]
  · intro f
    have hk := hmain (fun g => @decide (InSubtree s.heap src g) (Classical.propDecidable _))
      (fun g => by simp)
    rw [hk, List.mem_filter]
    simp

theorem MoveFolder_carries_subtree_witness :
    ((∀ g, PathInv testState.heap g) ∧ Consistent testState.heap ∧ Acyclic testState.heap
      ∧ ParentsRegistered testState ∧ NamesDotFree testState ∧ DistinctNames testState
      ∧ MoveFolder 10 testState "bravo" "delta" = some testMoved ∧ testMoved.err = none
      ∧ resolve testState "bravo" = some 1 ∧ resolve testState "delta" = some 3)
    ∧ GetAllChildFolders testMoved.state 1 "bravo" = GetAllChildFolders testState 1 "bravo" :=
  ⟨⟨testState_pathInv, testState_consistent, testState_acyclic, by decide, by decide,
      by decide, rfl, rfl, by decide, by decide⟩,
    (MoveFolder_carries_subtree 10 testState "bravo" "delta" testMoved 1 3 1
      testState_pathInv testState_consistent testState_acyclic (by decide) (by decide)
      (by decide) rfl rfl (by decide) (by decide)).1⟩

/-! ## Moving a folder under the parent it already has -/

theorem shadowState_acyclic : Acyclic shadowState.heap :=
  acyclic_of_rank _ (fun f => (shadowState.heap f).Paths.length) (by decide)

/-- C25, as stated, fails when a name is borne by a second folder: `shadowState`
satisfies the data-model invariants and folder 1, named s, has parent 0, named
p; but the name s resolves to folder 2 of another organization, registered
later, and `MoveFolder("s", "p")` is rejected. -/
theorem MoveFolder_shadowed_name_counterexample :
    ((∀ g, PathInv shadowState.heap g) ∧ Consistent shadowState.heap
      ∧ NodupChildren shadowState.heap ∧ Acyclic shadowState.heap
      ∧ SameOrgAsParent shadowState.heap)
    ∧ (shadowState.heap 1).Parent = some 0
    ∧ (MoveFolder 5 shadowState (shadowState.heap 1).Name (shadowState.heap 0).Name).map
        (fun r => r.err) = some (some (.CrossOrganizationMove "s")) :=
  ⟨⟨by decide, by decide, by decide, shadowState_acyclic, by decide⟩, by decide, by decide⟩

/-- C25, amended: in a state satisfying the data-model invariants, for a folder
`c` with parent `p` whose names resolve to `c` and `p` themselves (no folder
registered later bears either name), `MoveFolder(c.Name, p.Name)` returns and
succeeds; it leaves every folder's `Paths` and `Parent` unchanged and every
`Children` list other than `p.Children` unchanged, and `p.Children` becomes the
earlier list with the first entry identical to `c` removed and `c` appended
last. -/
theorem MoveFolder_under_same_parent {n : Nat} (s : State n) (c p : Fin n)
    (hP : ∀ g, PathInv s.heap g) (hC : Consistent s.heap) (hA : Acyclic s.heap)
    (hO : SameOrgAsParent s.heap) (hcp : (s.heap c).Parent = some p)
    (hrc : resolve s (s.heap c).Name = some c) (hrp : resolve s (s.heap p).Name = some p) :
    (∃ fuel r, MoveFolder fuel s (s.heap c).Name (s.heap p).Name = some r)
    ∧ ∀ fuel r, MoveFolder fuel s (s.heap c).Name (s.heap p).Name = some r →
        r.err = none ∧ r.folders = some s.folders
        ∧ (∀ g, (r.state.heap g).Paths = (s.heap g).Paths
            ∧ (r.state.heap g).Parent = (s.heap g).Parent)
        ∧ (∀ g, g ≠ p → (r.state.heap g).Children = (s.heap g).Children)
        ∧ (r.state.heap p).Children = (s.heap p).Children.erase c ++ [c] := by
  have hpar : parentRel s.heap c p := hcp
  have hne : c ≠ p := by
    intro e
    rw [← e] at hpar
    exact hA c (Relation.TransGen.single hpar)
  have hnc : ¬ InParentChain s.heap c p := fun hch =>
    hA c (Relation.TransGen.head' hpar hch)
  refine ⟨MoveFolder_total s _ _ hC hA, ?_⟩
  intro fuel r hr
  have he : r.err = none := by
    rcases MoveFolder_classify fuel s _ _ r hr with
      ⟨g1, _⟩ | ⟨_, _, g2, _⟩ | ⟨x, g1, g2, _⟩ | ⟨x, y, g1, g2, _, gc, _⟩ |
      ⟨x, y, g1, g2, _, _, go, _⟩ | ⟨_, _, _, _, _, _, _, h⟩
    · rw [hrc] at g1; cases g1
    · rw [hrp] at g2; cases g2
    · rw [hrc] at g1; rw [hrp] at g2; cases g1; cases g2; exact absurd rfl hne
    · rw [hrc] at g1; rw [hrp] at g2; cases g1; cases g2; exact absurd gc hnc
    · rw [hrc] at g1; rw [hrp] at g2; cases g1; cases g2; exact absurd (hO c p hcp) go
    · exact h
  obtain ⟨_, hname, _, hparent, _⟩ := MoveFolder_success_fields fuel s _ _ r hr he c p hrc hrp
  obtain ⟨_, _, _, _, hsh⟩ := MoveFolder_success_heap fuel s _ _ r hr he c p hrc hrp
  obtain ⟨_, hframe, _, _, hsP, _, hrest⟩ :=
    MoveFolder_success_paths fuel s _ _ r hr he c p hrc hrp hC hA
  obtain ⟨_, _, _, _, _, _, _, _, _, hret⟩ := MoveFolder_success fuel s _ _ r hr he
  have hparent2 : ∀ g, (r.state.heap g).Parent = (s.heap g).Parent := by
    intro g
    rw [hparent]
    by_cases hg : g = c
    · rw [if_pos hg, hg, hcp]
    · rw [if_neg hg]
  have hsub : ∀ g, InSubtree s.heap c g → (r.state.heap g).Paths = (s.heap g).Paths := by
    intro g hg
    unfold InSubtree at hg
    induction hg with
    | refl => rw [hsP]; exact ((hP c).some hcp).symm
    | @tail b y hb hby ih =>
      by_cases hy : y = c
      · rw [hy, hsP]; exact ((hP c).some hcp).symm
      · obtain ⟨q, hq, _, hpath⟩ := hrest y (Relation.ReflTransGen.tail hb hby) hy
        have hyb : (s.heap y).Parent = some b := (hC b y).1 hby
        rw [hparent2, hyb] at hq
        have hqb : b = q := Option.some.inj hq
        rw [hpath, ← hqb, ih, hname]
        exact ((hP y).some hyb).symm
  refine ⟨he, hret, ?_, ?_, ?_⟩
  · intro g
    refine ⟨?_, hparent2 g⟩
    by_cases hg : InSubtree s.heap c g
    · exact hsub g hg
    · rw [hframe g hg, relink_Paths]
  · intro g hg
    have h1 : ¬ (s.heap c).Parent = some g := by
      rw [hcp]
      intro e
      exact hg (Option.some.inj e).symm
    rw [(hsh g).2.2.2, relink_Children, if_neg h1, if_neg hg, List.append_nil]
  · rw [(hsh p).2.2.2, relink_Children, if_pos hcp, if_pos rfl, removeFirst_eq_erase]

theorem MoveFolder_under_same_parent_witness :
    ((∀ g, PathInv testState.heap g) ∧ Consistent testState.heap ∧ Acyclic testState.heap
      ∧ SameOrgAsParent testState.heap ∧ (testState.heap 1).Parent = some 0
      ∧ resolve testState (testState.heap 1).Name = some 1
      ∧ resolve testState (testState.heap 0).Name = some 0)
    ∧ ∃ fuel r, MoveFolder fuel testState (testState.heap 1).Name (testState.heap 0).Name
        = some r :=
  ⟨⟨testState_pathInv, testState_consistent, testState_acyclic, by decide, by decide,
      by decide, by decide⟩,
    (MoveFolder_under_same_parent testState 1 0 testState_pathInv testState_consistent
      testState_acyclic (by decide) (by decide) (by decide) (by decide)).1⟩


/-! ## The calls of the path rewrite -/

theorem foldlM_option_inv_split {α β : Type} (f : β → α → Option β)
    (I : β → List α → Prop) (l : List α) (b b2 : β) (h0 : I b [])
    (step : ∀ x done a rest y, done ++ a :: rest = l → I x done → f x a = some y →
      I y (done ++ [a]))
    (hr : l.foldlM f b = some b2) : I b2 l := by
  have key : ∀ (rest done : List α) (x : β), done ++ rest = l → I x done →
      rest.foldlM f x = some b2 → I b2 l := by
    intro rest
    induction rest with
    | nil =>
      intro done x hl hI hx
      simp only [List.foldlM_nil, pure, Option.some.injEq] at hx
      rw [List.append_nil] at hl
      subst hl; subst hx; exact hI
    | cons a t ih =>
      intro done x hl hI hx
      rw [List.foldlM_cons] at hx
      cases hfa : f x a with
      | none => rw [hfa] at hx; cases hx
      | some y =>
        rw [hfa] at hx
        exact ih (done ++ [a]) y (by rw [← hl]; simp) (step x done a t y hl hI hfa) hx
  exact key l [] b rfl h0 hr

theorem foldlM_option_erase {α β γ : Type} (F : β × γ → α → Option (β × γ))
    (G : β → α → Option β) (hFG : ∀ acc a, (F acc a).map Prod.fst = G acc.1 a)
    (l : List α) (init : β × γ) :
    (l.foldlM F init).map Prod.fst = l.foldlM G init.1 := by
  induction l generalizing init with
  | nil => rfl
  | cons a t ih =>
    rw [List.foldlM_cons, List.foldlM_cons]
    have h := hFG init a
    cases hF : F init a with
    | none =>
      rw [hF] at h
      rw [← h]
      rfl
    | some y =>
      rw [hF] at h
      rw [← h]
      exact ih y

theorem updatePathsLog_succ {n : Nat} (k : Nat) (h : Heap n) (f : Fin n) (pp : String) :
    updatePathsLog (k + 1) h f pp
      = (h f).Children.foldlM
          (fun acc child =>
            (updatePathsLog k acc.1 child (acc.1 f).Paths).map
              (fun res => (res.1, acc.2 ++ res.2)))
          (h.set f { h f with Paths := pp ++ "." ++ (h f).Name }, [f]) := rfl

/-- Dropping the log gives `updatePaths` back. -/
theorem updatePathsLog_erase {n : Nat} (k : Nat) (h : Heap n) (f : Fin n) (pp : String) :
    (updatePathsLog k h f pp).map Prod.fst = updatePaths k h f pp := by
  induction k generalizing h f pp with
  | zero => rfl
  | succ k ih =>
    rw [updatePathsLog_succ, updatePaths_succ]
    refine foldlM_option_erase _ _ ?_ _ _
    intro acc a
    rw [← ih acc.1 a (acc.1 f).Paths, Option.map_map]
    rfl

theorem updatePathsLog_of_updatePaths {n : Nat} (k : Nat) (h h2 : Heap n) (f : Fin n)
    (pp : String) (hr : updatePaths k h f pp = some h2) :
    ∃ log, updatePathsLog k h f pp = some (h2, log) := by
  have he := updatePathsLog_erase k h f pp
  rw [hr] at he
  cases hl : updatePathsLog k h f pp with
  | none => rw [hl] at he; cases he
  | some res =>
    rw [hl] at he
    have : res.1 = h2 := Option.some.inj he
    exact ⟨res.2, by rw [← this]⟩

theorem updatePaths_of_updatePathsLog {n : Nat} (k : Nat) (h h2 : Heap n) (f : Fin n)
    (pp : String) (log : List (Fin n)) (hr : updatePathsLog k h f pp = some (h2, log)) :
    updatePaths k h f pp = some h2 := by
  rw [← updatePathsLog_erase, hr]
  rfl

/-- Inside a sound subtree of an acyclic store, the subtrees of two different
children of one folder share no folder. -/
theorem subtree_disjoint {n : Nat} (h : Heap n) (f c a g : Fin n) (hS : SubtreeSound h f)
    (hA : Acyclic h) (hc : c ∈ (h f).Children) (ha : a ∈ (h f).Children) (hca : c ≠ a)
    (hcg : InSubtree h c g) (hag : InSubtree h a g) : False := by
  have hcf : InSubtree h f c := Relation.ReflTransGen.single hc
  have haf : InSubtree h f a := Relation.ReflTransGen.single ha
  have h1 := (hS.child hcf).chain hcg
  have h2 := (hS.child haf).chain hag
  have hpc : parentRel h c f := hS f Relation.ReflTransGen.refl c hc
  have hpa : parentRel h a f := hS f Relation.ReflTransGen.refl a ha
  have huniq : Relator.RightUnique (parentRel h) := by
    intro x y z hxy hxz
    unfold parentRel at hxy hxz
    rw [hxy] at hxz
    exact Option.some.inj hxz
  rcases Relation.ReflTransGen.total_of_right_unique huniq h1 h2 with hca2 | hac2
  · rcases Relation.ReflTransGen.cases_head hca2 with heq | ⟨q, hq, hrest⟩
    · exact hca heq
    · have : q = f := huniq hq hpc
      rw [this] at hrest
      exact hA a (Relation.TransGen.head' hpa hrest)
  · rcases Relation.ReflTransGen.cases_head hac2 with heq | ⟨q, hq, hrest⟩
    · exact hca heq.symm
    · have : q = f := huniq hq hpa
      rw [this] at hrest
      exact hA c (Relation.TransGen.head' hpc hrest)


/-- The calls of the rewrite of a sound subtree, on an acyclic store: every
folder of the subtree is visited and no other folder is; no folder is visited
twice when no `Children` list holds a folder twice. -/
theorem updatePathsLog_visits {n : Nat} (k : Nat) (h h2 : Heap n) (f : Fin n) (pp : String)
    (log : List (Fin n)) (hS : SubtreeSound h f) (hA : Acyclic h)
    (hr : updatePathsLog k h f pp = some (h2, log)) :
    (∀ g, g ∈ log ↔ InSubtree h f g) ∧ (NodupChildren h → log.Nodup) := by
  induction k generalizing h h2 f pp log with
  | zero => cases hr
  | succ k ih =>
    rw [updatePathsLog_succ] at hr
    have key := foldlM_option_inv_split _
      (fun (acc : Heap n × List (Fin n)) (done : List (Fin n)) =>
        SameShape h acc.1
        ∧ (∀ g, g ∈ acc.2 ↔ g = f ∨ ∃ c, c ∈ done ∧ InSubtree h c g)
        ∧ (NodupChildren h → acc.2.Nodup)) _ _ _ ?_ ?_ hr
    · obtain ⟨_, hmem, hnd⟩ := key
      refine ⟨?_, hnd⟩
      intro g
      rw [hmem g]
      constructor
      · rintro (heq | ⟨c, hc, hcg⟩)
        · rw [heq]; exact Relation.ReflTransGen.refl
        · exact Relation.ReflTransGen.head hc hcg
      · intro hg
        rcases Relation.ReflTransGen.cases_head hg with heq | ⟨c, hc, hcg⟩
        · exact Or.inl heq.symm
        · exact Or.inr ⟨c, hc, hcg⟩
    · refine ⟨SameShape.set_Paths h f _, ?_, fun _ => List.nodup_singleton f⟩
      intro g
      simp
    · intro x done a rest y hsplit hI hy
      obtain ⟨hsh, hmem, hnd⟩ := hI
      obtain ⟨res, hres, hyres⟩ := Option.map_eq_some'.1 hy
      have ha : a ∈ (h f).Children := by rw [← hsplit]; simp
      have hdone : ∀ c, c ∈ done → c ∈ (h f).Children := fun c hc => by
        rw [← hsplit]; exact List.mem_append_left _ hc
      have haf : InSubtree h f a := Relation.ReflTransGen.single ha
      have hSa : SubtreeSound x.1 a := hsh.subtreeSound a (hS.child haf)
      have hAx : Acyclic x.1 := hsh.acyclic hA
      have hres2 : updatePathsLog k x.1 a (x.1 f).Paths = some (res.1, res.2) := hres
      obtain ⟨hvis, hvnd⟩ := ih x.1 res.1 a (x.1 f).Paths res.2 hSa hAx hres2
      have hshy : SameShape x.1 res.1 :=
        updatePaths_shape _ _ _ _ _ (updatePaths_of_updatePathsLog _ _ _ _ _ _ hres2)
      have hvis2 : ∀ g, g ∈ res.2 ↔ InSubtree h a g := fun g =>
        (hvis g).trans (hsh.inSubtree_iff a g)
      rw [← hyres]
      refine ⟨hsh.trans hshy, ?_, ?_⟩
      · intro g
        simp only [List.mem_append, List.mem_singleton]
        rw [hmem g, hvis2 g]
        constructor
        · rintro ((heq | ⟨c, hc, hcg⟩) | hag)
          · exact Or.inl heq
          · exact Or.inr ⟨c, Or.inl hc, hcg⟩
          · exact Or.inr ⟨a, Or.inr rfl, hag⟩
        · rintro (heq | ⟨c, hc | hc, hcg⟩)
          · exact Or.inl (Or.inl heq)
          · exact Or.inl (Or.inr ⟨c, hc, hcg⟩)
          · rw [hc] at hcg; exact Or.inr hcg
      · intro hN
        have hNx : NodupChildren x.1 := hsh.nodupChildren hN
        have hlist : (done ++ a :: rest).Nodup := by rw [hsplit]; exact hN f
        have hadone : a ∉ done := fun hin =>
          (List.nodup_append.1 hlist).2.2 hin (List.mem_cons_self a rest)
        refine List.Nodup.append (hnd hN) (hvnd hNx) ?_
        intro g hg1 hg2
        have hag := (hvis2 g).1 hg2
        rcases (hmem g).1 hg1 with heq | ⟨c, hc, hcg⟩
        · rw [heq] at hag
          exact hS.no_back hA ha hag
        · have hca : c ≠ a := fun e => hadone (e ▸ hc)
          exact subtree_disjoint h f c a g hS hA (hdone c hc) ha hca hcg hag

/-- C23, as stated, fails on the count of visits: `dupState` has `Children`
consistent with `Parent` and an acyclic parent chain, `MoveFolder("p", "e")`
succeeds on it, and the rewrite that it runs calls `updatePaths` on p, on s
and on s again. -/
theorem updatePaths_visits_counterexample :
    (Consistent dupState.heap ∧ Acyclic dupState.heap)
    ∧ resolve dupState "p" = some 0 ∧ resolve dupState "e" = some 3
    ∧ (MoveFolder 2 dupState "p" "e").map (fun r => r.err) = some none
    ∧ (updatePathsLog 2 (relink dupState.heap 0 3) 0 (dupState.heap 3).Paths).map Prod.snd
        = some [0, 1, 1] :=
  ⟨⟨by decide, dupState_acyclic⟩, by decide, by decide, by decide, by decide⟩

/-- C23, amended: `MoveFolder` is total on well-formed forests.  On a store
whose parent chain is acyclic and whose `Children` lists are consistent with
the `Parent` links, every call of `MoveFolder` returns, the upward walk of
`isDescendant` ends for every pair of folders, and for every source and
destination that pass the checks the descent of `updatePaths` on the relinked
store ends, calling `updatePaths` on every folder of the moved subtree and on
no other folder; each folder of the subtree is visited exactly once when no
`Children` list holds a folder twice. -/
theorem MoveFolder_total_on_forests {n : Nat} (s : State n) (hC : Consistent s.heap)
    (hA : Acyclic s.heap) :
    (∀ name dst, ∃ fuel r, MoveFolder fuel s name dst = some r)
    ∧ (∀ source dest : Fin n, ∃ fuel b, isDescendant fuel s.heap source dest = some b)
    ∧ (∀ src d : Fin n, src ≠ d → ¬ InParentChain s.heap src d →
        ∃ fuel h2 log,
          updatePathsLog fuel (relink s.heap src d) src (s.heap d).Paths = some (h2, log)
          ∧ updatePaths fuel (relink s.heap src d) src (s.heap d).Paths = some h2
          ∧ (∀ g, g ∈ log ↔ InSubtree s.heap src g)
          ∧ (NodupChildren s.heap → ∀ g, InSubtree s.heap src g → log.count g = 1)) := by
  refine ⟨fun name dst => MoveFolder_total s name dst hC hA, ?_, ?_⟩
  · intro source dest
    exact isDescendantLoop_terminates s.heap hA source (some dest)
  · intro src d hne hnc
    obtain ⟨fuel, h2, hup⟩ :=
      updatePaths_relink_terminates s.heap src d hne hC hA hnc (s.heap d).Paths
    obtain ⟨log, hlog⟩ := updatePathsLog_of_updatePaths _ _ _ _ _ hup
    obtain ⟨hvis, hnd⟩ := updatePathsLog_visits fuel _ h2 src _ log
      (relink_subtreeSound s.heap src d hne hC hA hnc) (relink_acyclic s.heap src d hne hA hnc)
      hlog
    have hvis2 : ∀ g, g ∈ log ↔ InSubtree s.heap src g := fun g =>
      (hvis g).trans (relink_inSubtree s.heap src d hC hA hnc g)
    refine ⟨fuel, h2, log, hlog, hup, hvis2, ?_⟩
    intro hN g hg
    exact List.count_eq_one_of_mem (hnd (relink_nodupChildren s.heap src d hC hN))
      ((hvis2 g).2 hg)

theorem MoveFolder_total_on_forests_witness :
    (Consistent testState.heap ∧ Acyclic testState.heap)
    ∧ ∃ fuel r, MoveFolder fuel testState "bravo" "delta" = some r :=
  ⟨⟨testState_consistent, testState_acyclic⟩,
    (MoveFolder_total_on_forests testState testState_consistent testState_acyclic).1
      "bravo" "delta"⟩


/-! ## Slices in memory: the relinking writes -/

theorem Slice.elems_length {n : Nat} (cells : Nat → Fin n) (sl : Slice) :
    (sl.elems cells).length = sl.len := by
  unfold Slice.elems
  rw [List.length_map, List.length_range]

theorem Slice.elems_congr {n : Nat} (c1 c2 : Nat → Fin n) (sl : Slice)
    (h : ∀ i, i < sl.len → c2 (sl.ptr + i) = c1 (sl.ptr + i)) :
    sl.elems c2 = sl.elems c1 := by
  unfold Slice.elems
  apply List.map_congr_left
  intro i hi
  exact h i (List.mem_range.1 hi)

theorem Slice.elems_getElem {n : Nat} (cells : Nat → Fin n) (sl : Slice) (j : Nat)
    (hj : j < (sl.elems cells).length) : (sl.elems cells)[j] = cells (sl.ptr + j) := by
  unfold Slice.elems
  rw [List.getElem_map, List.getElem_range]

theorem firstIndex_none {n : Nat} (c : Fin n) (l : List (Fin n)) (k : Nat)
    (h : firstIndex c l k = none) : removeFirst c l = l := by
  induction l generalizing k with
  | nil => rfl
  | cons a t ih =>
    by_cases hac : a = c
    · rw [firstIndex, if_pos hac] at h; cases h
    · rw [firstIndex, if_neg hac] at h
      rw [removeFirst, if_neg hac, ih (k + 1) h]

theorem firstIndex_some {n : Nat} (c : Fin n) (l : List (Fin n)) (k i : Nat)
    (h : firstIndex c l k = some i) :
    ∃ j, i = k + j ∧ j < l.length ∧ removeFirst c l = l.eraseIdx j := by
  induction l generalizing k with
  | nil => cases h
  | cons a t ih =>
    by_cases hac : a = c
    · rw [firstIndex, if_pos hac] at h
      cases h
      exact ⟨0, rfl, by simp, by rw [removeFirst, if_pos hac]; rfl⟩
    · rw [firstIndex, if_neg hac] at h
      obtain ⟨j, hij, hj, hrem⟩ := ih (k + 1) h
      refine ⟨j + 1, by omega, by simp; omega, ?_⟩
      rw [removeFirst, if_neg hac, hrem]
      rfl

/-- The cells after the in-place `append` of `removeChild` at index `i`. -/
theorem elems_shift {n : Nat} (cells : Nat → Fin n) (sl : Slice) (i : Nat) (hi : i < sl.len) :
    (Slice.mk sl.ptr (sl.len - 1) sl.cap).elems
        (fun a => if sl.ptr + i ≤ a ∧ a + 1 < sl.ptr + sl.len then cells (a + 1) else cells a)
      = (sl.elems cells).eraseIdx i := by
  apply List.ext_getElem
  · rw [Slice.elems_length, List.length_eraseIdx, Slice.elems_length, if_pos hi]
  · intro j h1 h2
    rw [Slice.elems_getElem, List.getElem_eraseIdx]
    rw [Slice.elems_length] at h1
    simp only at h1
    by_cases hji : j < i
    · rw [dif_pos hji, Slice.elems_getElem]
      have : ¬ (sl.ptr + i ≤ sl.ptr + j ∧ sl.ptr + j + 1 < sl.ptr + sl.len) := by omega
      simp only [this, if_false]
    · rw [dif_neg hji, Slice.elems_getElem]
      have : sl.ptr + i ≤ sl.ptr + j ∧ sl.ptr + j + 1 < sl.ptr + sl.len := by omega
      simp only [this, and_self, if_true]
      rfl

/-- A slice apart from the one that is shifted keeps its elements. -/
theorem elems_shift_apart {n : Nat} (cells : Nat → Fin n) (sl t : Slice) (i next : Nat)
    (hsl : sl.WF next) (ht : t.WF next) (hap : t.Apart sl) :
    t.elems
        (fun a => if sl.ptr + i ≤ a ∧ a + 1 < sl.ptr + sl.len then cells (a + 1) else cells a)
      = t.elems cells := by
  apply Slice.elems_congr
  intro j hj
  unfold Slice.WF at hsl ht
  unfold Slice.Apart at hap
  have : ¬ (sl.ptr + i ≤ t.ptr + j ∧ t.ptr + j + 1 < sl.ptr + sl.len) := by omega
  simp only [this, if_false]

theorem State.ext2 {n : Nat} (s1 s2 : State n) (hh : s1.heap = s2.heap)
    (hf : s1.folders = s2.folders) : s1 = s2 := by
  cases s1; cases s2
  simp only at hh hf
  rw [hh, hf]


theorem Slice.apart_comm {a b : Slice} (h : a.Apart b) : b.Apart a := by
  unfold Slice.Apart at h ⊢
  omega

theorem removeChildS_miss {n : Nat} (m : Memory n) (p c : Fin n)
    (h : firstIndex c ((m.heap p).Children.elems m.cells) 0 = none) :
    removeChildS m (some p) c = m := by
  unfold removeChildS
  simp only [h]

theorem removeChildS_hit {n : Nat} (m : Memory n) (p c : Fin n) (i : Nat)
    (h : firstIndex c ((m.heap p).Children.elems m.cells) 0 = some i) :
    removeChildS m (some p) c =
      { m with
        cells := fun a =>
          if (m.heap p).Children.ptr + i ≤ a ∧ a + 1 < (m.heap p).Children.ptr
              + (m.heap p).Children.len then m.cells (a + 1) else m.cells a
        heap := fun g =>
          if g = p then
            { m.heap p with
              Children := ⟨(m.heap p).Children.ptr, (m.heap p).Children.len - 1,
                (m.heap p).Children.cap⟩ }
          else m.heap g } := by
  unfold removeChildS
  simp only [h]

/-- On separated memory `removeChildS` does to the elements what `removeChild`
does to the lists, and it leaves the memory separated. -/
theorem removeChildS_toState {n : Nat} (m : Memory n) (par : Option (Fin n)) (c : Fin n)
    (hS : Separated m) :
    (removeChildS m par c).toState
        = { heap := removeChild m.toState.heap par c, folders := m.toState.folders }
    ∧ Separated (removeChildS m par c) := by
  obtain ⟨hwf, hwc, hapf, hapc⟩ := hS
  cases par with
  | none => exact ⟨rfl, hwf, hwc, hapf, hapc⟩
  | some p =>
    cases hidx : firstIndex c ((m.heap p).Children.elems m.cells) 0 with
    | none =>
      rw [removeChildS_miss m p c hidx]
      refine ⟨?_, hwf, hwc, hapf, hapc⟩
      apply State.ext2
      · funext g
        show m.toState.heap g = (m.toState.heap.set p _) g
        rw [Heap.set_apply]
        by_cases hg : g = p
        · rw [if_pos hg, hg]
          have : removeFirst c (m.toState.heap p).Children = (m.toState.heap p).Children :=
            firstIndex_none c _ 0 hidx
          rw [this]
        · rw [if_neg hg]
      · rfl
    | some i =>
      obtain ⟨j, hij, hj, hrem⟩ := firstIndex_some c _ 0 i hidx
      rw [Slice.elems_length] at hj
      have hi : i < (m.heap p).Children.len := by omega
      have hij2 : i = j := by omega
      rw [removeChildS_hit m p c i hidx]
      refine ⟨?_, ?_⟩
      · apply State.ext2
        · funext g
          show _ = (m.toState.heap.set p _) g
          rw [Heap.set_apply]
          by_cases hg : g = p
          · rw [if_pos hg]
            simp only [Memory.toState, hg, if_true]
            rw [elems_shift m.cells (m.heap p).Children i hi, hij2]
            have : removeFirst c ((m.heap p).Children.elems m.cells)
                = ((m.heap p).Children.elems m.cells).eraseIdx j := hrem
            rw [this]
          · rw [if_neg hg]
            simp only [Memory.toState, hg, if_false]
            rw [elems_shift_apart m.cells (m.heap p).Children (m.heap g).Children i m.next
              (hwc p) (hwc g) (hapc g p hg)]
        · simp only [Memory.toState]
          exact elems_shift_apart m.cells (m.heap p).Children m.folders i m.next
            (hwc p) hwf (Slice.apart_comm (hapf p))
      · refine ⟨hwf, ?_, ?_, ?_⟩
        · intro g
          simp only
          by_cases hg : g = p
          · rw [if_pos hg]
            have := hwc p
            unfold Slice.WF at this ⊢
            simp only
            omega
          · rw [if_neg hg]; exact hwc g
        · intro g
          simp only
          by_cases hg : g = p
          · rw [if_pos hg]
            have := hapf p
            unfold Slice.Apart at this ⊢
            simp only
            exact this
          · rw [if_neg hg]; exact hapf g
        · intro g g2 hgg
          have key : ∀ x, ((if x = p then
                ({ m.heap p with
                  Children := ⟨(m.heap p).Children.ptr, (m.heap p).Children.len - 1,
                    (m.heap p).Children.cap⟩ } : FolderS n)
              else m.heap x).Children.ptr = (m.heap x).Children.ptr)
              ∧ ((if x = p then
                ({ m.heap p with
                  Children := ⟨(m.heap p).Children.ptr, (m.heap p).Children.len - 1,
                    (m.heap p).Children.cap⟩ } : FolderS n)
              else m.heap x).Children.cap = (m.heap x).Children.cap) := by
            intro x
            by_cases hx : x = p
            · rw [if_pos hx, hx]; exact ⟨rfl, rfl⟩
            · rw [if_neg hx]; exact ⟨rfl, rfl⟩
          have := hapc g g2 hgg
          unfold Slice.Apart at this ⊢
          simp only
          rw [(key g).1, (key g).2, (key g2).1, (key g2).2]
          exact this


theorem setParentS_toState {n : Nat} (m : Memory n) (a b : Fin n) (hS : Separated m) :
    (setParentS m a b).toState
        = { heap := m.toState.heap.set a { m.toState.heap a with Parent := some b },
            folders := m.toState.folders }
    ∧ Separated (setParentS m a b) := by
  obtain ⟨hwf, hwc, hapf, hapc⟩ := hS
  have key : ∀ x, (if x = a then ({ m.heap a with Parent := some b } : FolderS n)
      else m.heap x).Children = (m.heap x).Children := by
    intro x
    by_cases hx : x = a
    · rw [if_pos hx, hx]
    · rw [if_neg hx]
  refine ⟨?_, hwf, ?_, ?_, ?_⟩
  · apply State.ext2
    · funext g
      show _ = (m.toState.heap.set a _) g
      rw [Heap.set_apply]
      by_cases hg : g = a
      · rw [if_pos hg]
        simp only [Memory.toState, setParentS, hg, if_true]
      · rw [if_neg hg]
        simp only [Memory.toState, setParentS, hg, if_false]
    · rfl
  · intro g
    show Slice.WF m.next (if g = a then _ else m.heap g).Children
    rw [key g]; exact hwc g
  · intro g
    show Slice.Apart (if g = a then _ else m.heap g).Children m.folders
    rw [key g]; exact hapf g
  · intro g g2 hgg
    show Slice.Apart (if g = a then _ else m.heap g).Children
      (if g2 = a then _ else m.heap g2).Children
    rw [key g, key g2]; exact hapc g g2 hgg

theorem Slice.elems_succ {n : Nat} (cells : Nat → Fin n) (p l c : Nat) :
    (Slice.mk p (l + 1) c).elems cells = (Slice.mk p l c).elems cells ++ [cells (p + l)] := by
  unfold Slice.elems
  simp only
  rw [List.range_succ, List.map_append]
  rfl

/-- On separated memory `appendChildS` appends to the elements of the
destination's `Children` and changes the elements of no other slice. -/
theorem appendChildS_toState {n : Nat} (grow : Nat → Nat) (m : Memory n) (d c : Fin n)
    (hS : Separated m) :
    (appendChildS grow m d c).toState
      = { heap := m.toState.heap.set d
            { m.toState.heap d with Children := (m.toState.heap d).Children ++ [c] },
          folders := m.toState.folders } := by
  obtain ⟨hwf, hwc, hapf, hapc⟩ := hS
  have hd := hwc d
  unfold Slice.WF at hd hwf
  by_cases hroom : (m.heap d).Children.len < (m.heap d).Children.cap
  · -- in place
    have hother : ∀ t : Slice, t.WF m.next → t.Apart (m.heap d).Children →
        t.elems (fun a => if a = (m.heap d).Children.ptr + (m.heap d).Children.len then c
          else m.cells a) = t.elems m.cells := by
      intro t ht hap
      apply Slice.elems_congr
      intro j hj
      unfold Slice.WF at ht
      unfold Slice.Apart at hap
      have : ¬ (t.ptr + j = (m.heap d).Children.ptr + (m.heap d).Children.len) := by omega
      simp only [this, if_false]
    apply State.ext2
    · funext g
      show _ = (m.toState.heap.set d _) g
      rw [Heap.set_apply]
      by_cases hg : g = d
      · rw [if_pos hg]
        simp only [Memory.toState, appendChildS, hroom, if_true, hg]
        rw [Slice.elems_succ]
        congr 1
        refine congrArg₂ (fun a b => a ++ b) ?_ ?_
        · apply Slice.elems_congr
          intro j hj
          simp only at hj
          have : ¬ ((m.heap d).Children.ptr + j
              = (m.heap d).Children.ptr + (m.heap d).Children.len) := by omega
          simp only [this, if_false]
        · simp
      · rw [if_neg hg]
        simp only [Memory.toState, appendChildS, hroom, if_true, hg, if_false]
        rw [hother (m.heap g).Children (hwc g) (hapc g d hg)]
    · simp only [Memory.toState, appendChildS, hroom, if_true]
      exact hother m.folders hwf (Slice.apart_comm (hapf d))
  · -- fresh cells
    have hother : ∀ t : Slice, t.WF m.next →
        t.elems (fun a =>
          if m.next ≤ a ∧ a < m.next + (m.heap d).Children.len then
            m.cells ((m.heap d).Children.ptr + (a - m.next))
          else if a = m.next + (m.heap d).Children.len then c
          else m.cells a) = t.elems m.cells := by
      intro t ht
      apply Slice.elems_congr
      intro j hj
      unfold Slice.WF at ht
      have h1 : ¬ (m.next ≤ t.ptr + j ∧ t.ptr + j < m.next + (m.heap d).Children.len) := by
        omega
      have h2 : ¬ (t.ptr + j = m.next + (m.heap d).Children.len) := by omega
      simp only [h1, h2, if_false]
    apply State.ext2
    · funext g
      show _ = (m.toState.heap.set d _) g
      rw [Heap.set_apply]
      by_cases hg : g = d
      · rw [if_pos hg]
        simp only [Memory.toState, appendChildS, hroom, if_false, hg, if_true]
        rw [Slice.elems_succ]
        congr 1
        refine congrArg₂ (fun a b => a ++ b) ?_ ?_
        · unfold Slice.elems
          apply List.map_congr_left
          intro j hj
          have hj2 := List.mem_range.1 hj
          simp only at hj2 ⊢
          have h1 : m.next ≤ m.next + j ∧ m.next + j < m.next + (m.heap d).Children.len := by
            omega
          simp only [h1, and_self, if_true]
          congr 2
          omega
        · have h1 : ¬ (m.next ≤ m.next + (m.heap d).Children.len
              ∧ m.next + (m.heap d).Children.len < m.next + (m.heap d).Children.len) := by
            omega
          simp only [h1, if_false, if_true]
      · rw [if_neg hg]
        simp only [Memory.toState, appendChildS, hroom, if_false, hg]
        rw [hother (m.heap g).Children (hwc g)]
    · simp only [Memory.toState, appendChildS, hroom, if_false]
      exact hother m.folders hwf


theorem Memory.withPaths_self {n : Nat} (m : Memory n) : m.withPaths m.toState.heap = m := rfl

theorem Memory.withPaths_toState {n : Nat} (m : Memory n) (h : Heap n)
    (hs : SameShape m.toState.heap h) :
    (m.withPaths h).toState = { heap := h, folders := m.toState.folders } := by
  apply State.ext2
  · funext g
    obtain ⟨h1, h2, h3, h4⟩ := hs g
    show ({ Name := (m.heap g).Name, OrgId := (m.heap g).OrgId, Paths := (h g).Paths,
            Parent := (m.heap g).Parent,
            Children := (m.heap g).Children.elems m.cells } : Folder n) = h g
    have e1 : (m.heap g).Name = (h g).Name := h1.symm
    have e2 : (m.heap g).OrgId = (h g).OrgId := h2.symm
    have e3 : (m.heap g).Parent = (h g).Parent := h3.symm
    have e4 : (m.heap g).Children.elems m.cells = (h g).Children := h4.symm
    rw [e1, e2, e3, e4]
  · rfl

theorem updatePathsS_succ {n : Nat} (k : Nat) (m : Memory n) (f : Fin n) (pp : String) :
    updatePathsS (k + 1) m f pp
      = ((m.heap f).Children.elems m.cells).foldlM
          (fun mc child => updatePathsS k mc child (mc.heap f).Paths)
          { m with
            heap := fun g =>
              if g = f then { m.heap f with Paths := pp ++ "." ++ (m.heap f).Name }
              else m.heap g } := rfl

/-- The path rewrite on memory is the path rewrite on lists: it writes `Paths`
fields only and reads the children through unchanged headers and cells. -/
theorem updatePathsS_withPaths {n : Nat} (k : Nat) (m : Memory n) (h : Heap n) (f : Fin n)
    (pp : String) (hs : SameShape m.toState.heap h) :
    updatePathsS k (m.withPaths h) f pp = (updatePaths k h f pp).map m.withPaths := by
  induction k generalizing h f pp with
  | zero => rfl
  | succ k ih =>
    rw [updatePathsS_succ, updatePaths_succ]
    have hl : ((m.withPaths h).heap f).Children.elems (m.withPaths h).cells
        = (h f).Children := (hs f).2.2.2.symm
    have hn : ((m.withPaths h).heap f).Name = (h f).Name := (hs f).1.symm
    have hm1 : ({ m.withPaths h with
          heap := fun g =>
            if g = f then
              { (m.withPaths h).heap f with
                Paths := pp ++ "." ++ ((m.withPaths h).heap f).Name }
            else (m.withPaths h).heap g } : Memory n)
        = m.withPaths (h.set f { h f with Paths := pp ++ "." ++ (h f).Name }) := by
      rw [hn]
      unfold Memory.withPaths
      simp only
      congr 1
      funext g
      rw [Heap.set_apply]
      by_cases hg : g = f
      · rw [if_pos hg, if_pos hg, hg]
      · rw [if_neg hg, if_neg hg]
    rw [hl, hm1]
    have hs1 : SameShape m.toState.heap
        (h.set f { h f with Paths := pp ++ "." ++ (h f).Name }) :=
      hs.trans (SameShape.set_Paths h f _)
    generalize (h.set f { h f with Paths := pp ++ "." ++ (h f).Name }) = h1 at hs1
    generalize (h f).Children = l
    induction l generalizing h1 with
    | nil => rfl
    | cons a l ihl =>
      rw [List.foldlM_cons, List.foldlM_cons]
      have e : ((m.withPaths h1).heap f).Paths = (h1 f).Paths := rfl
      rw [e, ih h1 a (h1 f).Paths hs1]
      cases hu : updatePaths k h1 a (h1 f).Paths with
      | none => rfl
      | some h2 =>
        have hs2 : SameShape m.toState.heap h2 := hs1.trans (updatePaths_shape _ _ _ _ _ hu)
        exact ihl h2 hs2


/-- The three relinking statements on separated memory are the three
relinking statements on lists. -/
theorem relinkS_toState {n : Nat} (grow : Nat → Nat) (m : Memory n) (src dst : Fin n)
    (hS : Separated m) :
    (appendChildS grow (setParentS (removeChildS m (m.heap src).Parent src) src dst)
        dst src).toState
      = { heap := relink m.toState.heap src dst, folders := m.toState.folders } := by
  obtain ⟨h1, hS1⟩ := removeChildS_toState m (m.heap src).Parent src hS
  obtain ⟨h2, hS2⟩ := setParentS_toState (removeChildS m (m.heap src).Parent src) src dst hS1
  rw [appendChildS_toState grow _ dst src hS2, h2, h1]
  rfl

/-- On separated memory `MoveFolderS` does what `MoveFolder` does on the
lists of elements: same outcome, same state, same returned elements. -/
theorem MoveFolderS_refines {n : Nat} (grow : Nat → Nat) (fuel : Nat) (m : Memory n)
    (name dst : String) (hS : Separated m) :
    (MoveFolderS grow fuel m name dst).map MoveResultS.toResult
      = MoveFolder fuel m.toState name dst := by
  unfold MoveFolderS MoveFolder
  have hfo : m.folders.elems m.cells = m.toState.folders := rfl
  simp only [hfo]
  cases hsrc : buildMap m.toState.heap m.toState.folders (fun _ => none) name with
  | none => rfl
  | some src =>
    simp only
    cases hdst : buildMap m.toState.heap m.toState.folders (fun _ => none) dst with
    | none => rfl
    | some d =>
      simp only
      by_cases hsd : src = d
      · simp only [hsd, if_true]
        rfl
      · simp only [hsd, if_false]
        cases hdesc : isDescendant fuel m.toState.heap src d with
        | none => rfl
        | some b =>
          cases b with
          | true => rfl
          | false =>
            simp only
            by_cases ho : (m.heap src).OrgId ≠ (m.heap d).OrgId
            · have ho2 : (m.toState.heap src).OrgId ≠ (m.toState.heap d).OrgId := ho
              rw [if_pos ho, if_pos ho2]
              rfl
            · have ho2 : ¬ ((m.toState.heap src).OrgId ≠ (m.toState.heap d).OrgId) := ho
              rw [if_neg ho, if_neg ho2]
              have h3 := relinkS_toState grow m src d hS
              generalize (appendChildS grow
                (setParentS (removeChildS m (m.heap src).Parent src) src d) d src) = m3 at h3
              have hh : m3.toState.heap = relink m.toState.heap src d := by rw [h3]
              have hf : m3.toState.folders = m.toState.folders := by rw [h3]
              have hrel : relink m.toState.heap src d
                  = ((removeChild m.toState.heap (m.toState.heap src).Parent src).set src
                      { removeChild m.toState.heap (m.toState.heap src).Parent src src with
                        Parent := some d }).set d
                      { ((removeChild m.toState.heap (m.toState.heap src).Parent src).set src
                          { removeChild m.toState.heap (m.toState.heap src).Parent src src with
                            Parent := some d }) d with
                        Children :=
                          (((removeChild m.toState.heap (m.toState.heap src).Parent src).set
                            src
                            { removeChild m.toState.heap (m.toState.heap src).Parent src src
                              with Parent := some d }) d).Children ++ [src] } := rfl
              rw [← hrel, ← hh]
              have hp : (m3.heap d).Paths = (m3.toState.heap d).Paths := rfl
              rw [hp]
              have hw : updatePathsS fuel m3 src (m3.toState.heap d).Paths
                  = (updatePaths fuel m3.toState.heap src (m3.toState.heap d).Paths).map
                      m3.withPaths := by
                have := updatePathsS_withPaths fuel m3 m3.toState.heap src
                  (m3.toState.heap d).Paths (SameShape.refl _)
                rw [Memory.withPaths_self] at this
                exact this
              rw [hw]
              cases hu : updatePaths fuel m3.toState.heap src (m3.toState.heap d).Paths with
              | none => rfl
              | some h4 =>
                have hs4 : SameShape m3.toState.heap h4 := updatePaths_shape _ _ _ _ _ hu
                have ht := Memory.withPaths_toState m3 h4 hs4
                show some (MoveResultS.toResult
                    ⟨m3.withPaths h4, some (m3.withPaths h4).folders, none⟩)
                  = some ⟨{ m.toState with heap := h4 }, some m.toState.folders, none⟩
                unfold MoveResultS.toResult
                simp only [Option.map_some']
                rw [ht]
                have e2 : (m3.withPaths h4).folders.elems (m3.withPaths h4).cells
                    = m3.toState.folders := rfl
                rw [e2, hf]


theorem Slice.WF.mono {sl : Slice} {a b : Nat} (h : sl.WF a) (hab : a ≤ b) : sl.WF b := by
  unfold Slice.WF at h ⊢
  omega

/-- The append to the destination's `Children` leaves the memory separated:
an append in place stays within the capacity, and fresh cells lie above every
slice. -/
theorem appendChildS_separated {n : Nat} (grow : Nat → Nat) (m : Memory n) (d c : Fin n)
    (hS : Separated m) : Separated (appendChildS grow m d c) := by
  obtain ⟨hwf, hwc, hapf, hapc⟩ := hS
  have hd := hwc d
  by_cases hroom : (m.heap d).Children.len < (m.heap d).Children.cap
  · have hm : appendChildS grow m d c =
        { m with
          cells := fun a =>
            if a = (m.heap d).Children.ptr + (m.heap d).Children.len then c else m.cells a
          heap := fun g =>
            if g = d then
              { m.heap d with
                Children := ⟨(m.heap d).Children.ptr, (m.heap d).Children.len + 1,
                  (m.heap d).Children.cap⟩ }
            else m.heap g } := by
      unfold appendChildS
      simp only [hroom, if_true]
    rw [hm]
    refine ⟨hwf, ?_, ?_, ?_⟩
    · intro g
      show Slice.WF m.next (if g = d then _ else m.heap g).Children
      by_cases hg : g = d
      · rw [if_pos hg]
        unfold Slice.WF at hd ⊢
        simp only
        omega
      · rw [if_neg hg]; exact hwc g
    · intro g
      show Slice.Apart (if g = d then _ else m.heap g).Children m.folders
      by_cases hg : g = d
      · rw [if_pos hg]
        have := hapf d
        unfold Slice.Apart at this ⊢
        simp only
        omega
      · rw [if_neg hg]; exact hapf g
    · intro g g2 hgg
      show Slice.Apart (if g = d then _ else m.heap g).Children
        (if g2 = d then _ else m.heap g2).Children
      by_cases hg : g = d
      · have hg2 : g2 ≠ d := fun e => hgg (hg.trans e.symm)
        rw [if_pos hg, if_neg hg2]
        have := hapc d g2 (fun e => hg2 e.symm)
        unfold Slice.Apart at this ⊢
        simp only
        omega
      · rw [if_neg hg]
        by_cases hg2 : g2 = d
        · rw [if_pos hg2]
          have := hapc g d hg
          unfold Slice.Apart at this ⊢
          simp only
          omega
        · rw [if_neg hg2]; exact hapc g g2 hgg
  · have hm : appendChildS grow m d c =
        { m with
          cells := fun a =>
            if m.next ≤ a ∧ a < m.next + (m.heap d).Children.len then
              m.cells ((m.heap d).Children.ptr + (a - m.next))
            else if a = m.next + (m.heap d).Children.len then c
            else m.cells a
          next := m.next + max ((m.heap d).Children.len + 1) (grow (m.heap d).Children.cap)
          heap := fun g =>
            if g = d then
              { m.heap d with
                Children := ⟨m.next, (m.heap d).Children.len + 1,
                  max ((m.heap d).Children.len + 1) (grow (m.heap d).Children.cap)⟩ }
            else m.heap g } := by
      unfold appendChildS
      simp only [hroom, if_false]
    rw [hm]
    have hnc : (m.heap d).Children.len + 1
        ≤ max ((m.heap d).Children.len + 1) (grow (m.heap d).Children.cap) := le_max_left _ _
    generalize max ((m.heap d).Children.len + 1) (grow (m.heap d).Children.cap) = nc at hnc
    refine ⟨hwf.mono (Nat.le_add_right _ _), ?_, ?_, ?_⟩
    · intro g
      show Slice.WF (m.next + nc) (if g = d then _ else m.heap g).Children
      by_cases hg : g = d
      · rw [if_pos hg]
        unfold Slice.WF
        simp only
        omega
      · rw [if_neg hg]; exact (hwc g).mono (Nat.le_add_right _ _)
    · intro g
      show Slice.Apart (if g = d then _ else m.heap g).Children m.folders
      by_cases hg : g = d
      · rw [if_pos hg]
        unfold Slice.WF at hwf
        unfold Slice.Apart
        simp only
        omega
      · rw [if_neg hg]; exact hapf g
    · intro g g2 hgg
      show Slice.Apart (if g = d then _ else m.heap g).Children
        (if g2 = d then _ else m.heap g2).Children
      by_cases hg : g = d
      · have hg2 : g2 ≠ d := fun e => hgg (hg.trans e.symm)
        rw [if_pos hg, if_neg hg2]
        have := hwc g2
        unfold Slice.WF at this
        unfold Slice.Apart
        simp only
        omega
      · rw [if_neg hg]
        by_cases hg2 : g2 = d
        · rw [if_pos hg2]
          have := hwc g
          unfold Slice.WF at this
          unfold Slice.Apart
          simp only
          omega
        · rw [if_neg hg2]; exact hapc g g2 hgg


theorem updatePathsS_eq {n : Nat} (k : Nat) (m : Memory n) (f : Fin n) (pp : String) :
    updatePathsS k m f pp = (updatePaths k m.toState.heap f pp).map m.withPaths := by
  have := updatePathsS_withPaths k m m.toState.heap f pp (SameShape.refl _)
  rw [Memory.withPaths_self] at this
  exact this

theorem Memory.withPaths_separated {n : Nat} (m : Memory n) (h : Heap n) (hS : Separated m) :
    Separated (m.withPaths h) := hS

theorem removeChildS_folders {n : Nat} (m : Memory n) (par : Option (Fin n)) (c : Fin n) :
    (removeChildS m par c).folders = m.folders := by
  cases par with
  | none => rfl
  | some p =>
    cases h : firstIndex c ((m.heap p).Children.elems m.cells) 0 with
    | none => rw [removeChildS_miss m p c h]
    | some i => rw [removeChildS_hit m p c i h]

theorem appendChildS_folders {n : Nat} (grow : Nat → Nat) (m : Memory n) (d c : Fin n) :
    (appendChildS grow m d c).folders = m.folders := by
  unfold appendChildS
  simp only
  split <;> rfl

/-- A successful call returns the header of the driver's `folders`, which no
statement assigns. -/
theorem MoveFolderS_header {n : Nat} (grow : Nat → Nat) (fuel : Nat) (m : Memory n)
    (name dst : String) (r : MoveResultS n)
    (hr : MoveFolderS grow fuel m name dst = some r) (he : r.err = none) :
    r.folders = some m.folders ∧ r.state.folders = m.folders := by
  unfold MoveFolderS at hr
  have hfo : m.folders.elems m.cells = m.toState.folders := rfl
  simp only [hfo] at hr
  cases hsrc : buildMap m.toState.heap m.toState.folders (fun _ => none) name with
  | none =>
    rw [hsrc] at hr
    cases hr; cases he
  | some src =>
    rw [hsrc] at hr
    simp only at hr
    cases hdst : buildMap m.toState.heap m.toState.folders (fun _ => none) dst with
    | none =>
      rw [hdst] at hr
      cases hr; cases he
    | some d =>
      rw [hdst] at hr
      simp only at hr
      by_cases hsd : src = d
      · rw [if_pos hsd] at hr
        cases hr; cases he
      · rw [if_neg hsd] at hr
        cases hdesc : isDescendant fuel m.toState.heap src d with
        | none => rw [hdesc] at hr; cases hr
        | some b =>
          rw [hdesc] at hr
          cases b with
          | true => cases hr; cases he
          | false =>
            simp only at hr
            by_cases ho : (m.heap src).OrgId ≠ (m.heap d).OrgId
            · rw [if_pos ho] at hr
              cases hr; cases he
            · rw [if_neg ho] at hr
              have hf3 : (appendChildS grow
                  (setParentS (removeChildS m (m.heap src).Parent src) src d) d src).folders
                  = m.folders := by
                rw [appendChildS_folders]
                exact removeChildS_folders m (m.heap src).Parent src
              generalize (appendChildS grow
                (setParentS (removeChildS m (m.heap src).Parent src) src d) d src) = m3
                at hr hf3
              rw [updatePathsS_eq] at hr
              cases hu : updatePaths fuel m3.toState.heap src (m3.heap d).Paths with
              | none => rw [hu] at hr; cases hr
              | some h4 =>
                rw [hu] at hr
                cases hr
                exact ⟨congrArg some hf3, hf3⟩

/-- A call that returns leaves separated memory separated. -/
theorem MoveFolderS_keeps_separated {n : Nat} (grow : Nat → Nat) (fuel : Nat) (m : Memory n)
    (name dst : String) (r : MoveResultS n) (hS : Separated m)
    (hr : MoveFolderS grow fuel m name dst = some r) : Separated r.state := by
  unfold MoveFolderS at hr
  have hfo : m.folders.elems m.cells = m.toState.folders := rfl
  simp only [hfo] at hr
  cases hsrc : buildMap m.toState.heap m.toState.folders (fun _ => none) name with
  | none =>
    rw [hsrc] at hr
    cases hr; exact hS
  | some src =>
    rw [hsrc] at hr
    simp only at hr
    cases hdst : buildMap m.toState.heap m.toState.folders (fun _ => none) dst with
    | none =>
      rw [hdst] at hr
      cases hr; exact hS
    | some d =>
      rw [hdst] at hr
      simp only at hr
      by_cases hsd : src = d
      · rw [if_pos hsd] at hr
        cases hr; exact hS
      · rw [if_neg hsd] at hr
        cases hdesc : isDescendant fuel m.toState.heap src d with
        | none => rw [hdesc] at hr; cases hr
        | some b =>
          rw [hdesc] at hr
          cases b with
          | true => cases hr; exact hS
          | false =>
            simp only at hr
            by_cases ho : (m.heap src).OrgId ≠ (m.heap d).OrgId
            · rw [if_pos ho] at hr
              cases hr; exact hS
            · rw [if_neg ho] at hr
              have hS3 : Separated (appendChildS grow
                  (setParentS (removeChildS m (m.heap src).Parent src) src d) d src) :=
                appendChildS_separated grow _ d src
                  (setParentS_toState _ src d
                    (removeChildS_toState m (m.heap src).Parent src hS).2).2
              generalize (appendChildS grow
                (setParentS (removeChildS m (m.heap src).Parent src) src d) d src) = m3
                at hr hS3
              rw [updatePathsS_eq] at hr
              cases hu : updatePaths fuel m3.toState.heap src (m3.heap d).Paths with
              | none => rw [hu] at hr; cases hr
              | some h4 =>
                rw [hu] at hr
                cases hr
                exact hS3

/-- A call on separated memory that returns is the call on the lists of
elements, and it leaves the memory separated. -/
theorem MoveFolderS_step {n : Nat} (grow : Nat → Nat) (fuel : Nat) (m : Memory n)
    (name dst : String) (r : MoveResultS n) (hS : Separated m)
    (hr : MoveFolderS grow fuel m name dst = some r) :
    MoveFolder fuel m.toState name dst = some r.toResult ∧ Separated r.state := by
  refine ⟨?_, MoveFolderS_keeps_separated grow fuel m name dst r hS hr⟩
  rw [← MoveFolderS_refines grow fuel m name dst hS, hr]
  rfl

/-- A sequence of calls on separated memory is the sequence of calls on the
lists of elements, and it leaves the memory separated. -/
theorem runMovesS_step {n : Nat} (grow : Nat → Nat) (fuel : Nat) (m m2 : Memory n)
    (moves : List (String × String)) (hS : Separated m)
    (hr : runMovesS grow fuel m moves = some m2) :
    runMoves fuel m.toState moves = some m2.toState ∧ Separated m2 := by
  induction moves generalizing m with
  | nil =>
    rw [runMovesS] at hr
    cases hr
    exact ⟨rfl, hS⟩
  | cons mv moves ih =>
    obtain ⟨name, dst⟩ := mv
    rw [runMovesS] at hr
    cases hm : MoveFolderS grow fuel m name dst with
    | none => rw [hm] at hr; cases hr
    | some r =>
      rw [hm] at hr
      obtain ⟨h1, hS1⟩ := MoveFolderS_step grow fuel m name dst r hS hm
      obtain ⟨h2, hS2⟩ := ih r.state hS1 hr
      refine ⟨?_, hS2⟩
      rw [runMoves, h1]
      exact h2


/-! ## The registry after a move, on memory -/

theorem sharedMemory_acyclic : Acyclic sharedMemory.toState.heap :=
  acyclic_of_rank _ (fun f => (sharedMemory.toState.heap f).Paths.length) (by decide)

theorem apartMemory_acyclic : Acyclic apartMemory.toState.heap :=
  acyclic_of_rank _ (fun f => (apartMemory.toState.heap f).Paths.length) (by decide)

theorem apartMoved_eq : MoveFolderS growDouble 5 apartMemory "bravo" "delta" = some apartMoved :=
  rfl

/-- C16, as stated, fails in its last clause when the source name is not
registered: the test fixture has no empty-named folder, and
`MoveFolder("nope", "")` answers with the text of the source check, not with
`destination folder '' does not exist`. -/
theorem MoveFolder_empty_destination_counterexample :
    (∀ f, f ∈ testState.folders → (testState.heap f).Name ≠ "")
    ∧ (MoveFolder 0 testState "nope" "").map (fun r => r.err.map MoveError.Error)
        = some (some "source folder 'nope' does not exist")
    ∧ "source folder 'nope' does not exist" ≠ "destination folder '' does not exist" :=
  ⟨by decide, by decide, by decide⟩

/-- C17, as stated, fails when a `Children` slice shares cells with the
registry slice.  `sharedMemory` is consistent and acyclic and all its slices
are well formed; `MoveFolder("bravo", "delta")` succeeds, and the in-place
`append` of `removeChild` moves delta one cell down inside `alpha.Children`,
which is a cell of the registry: the registry alpha, bravo, delta becomes
alpha, delta, delta. -/
theorem MoveFolderS_frame_counterexample :
    (Consistent sharedMemory.toState.heap ∧ Acyclic sharedMemory.toState.heap
      ∧ SlicesWF sharedMemory)
    ∧ sharedMemory.toState.folders = [0, 1, 2]
    ∧ (MoveFolderS growDouble 5 sharedMemory "bravo" "delta").map
        (fun r => (r.err, r.state.toState.folders)) = some (none, [0, 2, 2]) :=
  ⟨⟨by decide, sharedMemory_acyclic, by decide⟩, by decide, by decide⟩

/-- C17, amended: frame of a successful `MoveFolder` in a memory whose slices
(the registry's and the folders' `Children`) share no cells, whose `Children`
are consistent with `Parent` and whose parent chain is acyclic.  The elements
of the registry and every `Name` and `OrgId` are unchanged; `Parent` changes
for the moved folder only; the elements of `Children` change at most for the
old parent and the destination; `Paths` change only inside the moved subtree;
so a folder outside that subtree keeps its `Paths`, its `Parent` and, unless it
is the old parent or the destination, its `Children`. -/
theorem MoveFolderS_frame {n : Nat} (grow : Nat → Nat) (fuel : Nat) (m : Memory n)
    (name dst : String) (r : MoveResultS n) (src d : Fin n) (hS : Separated m)
    (hC : Consistent m.toState.heap) (hA : Acyclic m.toState.heap)
    (hr : MoveFolderS grow fuel m name dst = some r) (he : r.err = none)
    (hsrc : resolve m.toState name = some src) (hdst : resolve m.toState dst = some d) :
    r.state.folders.elems r.state.cells = m.folders.elems m.cells
    ∧ (∀ g, (r.state.heap g).Name = (m.heap g).Name
        ∧ (r.state.heap g).OrgId = (m.heap g).OrgId)
    ∧ (∀ g, g ≠ src → (r.state.heap g).Parent = (m.heap g).Parent)
    ∧ (∀ g, g ≠ d → (m.heap src).Parent ≠ some g →
        (r.state.heap g).Children.elems r.state.cells = (m.heap g).Children.elems m.cells)
    ∧ (∀ g, ¬ InSubtree m.toState.heap src g → (r.state.heap g).Paths = (m.heap g).Paths)
    ∧ (∀ g, ¬ InSubtree m.toState.heap src g →
        (r.state.heap g).Paths = (m.heap g).Paths
        ∧ (r.state.heap g).Parent = (m.heap g).Parent
        ∧ (g ≠ d → (m.heap src).Parent ≠ some g →
            (r.state.heap g).Children.elems r.state.cells
              = (m.heap g).Children.elems m.cells)) :=
  MoveFolder_frame fuel m.toState name dst r.toResult src d hC hA
    (MoveFolderS_step grow fuel m name dst r hS hr).1 he hsrc hdst

theorem MoveFolderS_frame_witness :
    (Separated apartMemory ∧ Consistent apartMemory.toState.heap
      ∧ Acyclic apartMemory.toState.heap
      ∧ MoveFolderS growDouble 5 apartMemory "bravo" "delta" = some apartMoved
      ∧ apartMoved.err = none
      ∧ resolve apartMemory.toState "bravo" = some 1
      ∧ resolve apartMemory.toState "delta" = some 2)
    ∧ apartMoved.state.folders.elems apartMoved.state.cells = [0, 1, 2] :=
  ⟨⟨by decide, by decide, apartMemory_acyclic, apartMoved_eq, by decide, by decide,
      by decide⟩,
    (MoveFolderS_frame growDouble 5 apartMemory "bravo" "delta" apartMoved 1 2 (by decide)
      (by decide) apartMemory_acyclic apartMoved_eq (by decide) (by decide) (by decide)).1⟩

/-- C18, as stated, fails when a `Children` slice shares cells with the
registry slice.  The driver is built from the slice alpha, bravo, delta of
`sharedMemory`, whose slices are all well formed; `MoveFolder("bravo",
"delta")` returns no error together with the slice alpha, delta, delta: bravo
is gone and delta stands twice. -/
theorem MoveFolderS_returns_registry_counterexample :
    SlicesWF (NewDriverS sharedMemory.heap sharedMemory.cells 3 ⟨0, 3, 3⟩)
    ∧ (⟨0, 3, 3⟩ : Slice).elems sharedMemory.cells = [0, 1, 2]
    ∧ (MoveFolderS growDouble 5 (NewDriverS sharedMemory.heap sharedMemory.cells 3 ⟨0, 3, 3⟩)
        "bravo" "delta").map (fun r => (r.err, r.toResult.folders))
        = some (none, some [0, 2, 2]) :=
  ⟨by decide, by decide, by decide⟩

/-- C18, amended: in a memory whose slices (the registry's and the folders'
`Children`) share no cells, a successful `MoveFolder` returns no error together
with the registry slice itself, whose elements are the very elements the
driver was built from by `NewDriver`: same folders, same order, same length,
neither filtered nor sorted; and this stays so after any earlier sequence of
moves on that driver. -/
theorem MoveFolderS_returns_registry {n : Nat} (grow : Nat → Nat)
    (heap : Fin n → FolderS n) (cells : Nat → Fin n) (next : Nat) (folders : Slice)
    (fuel : Nat) (name dst : String) (r : MoveResultS n)
    (hS : Separated (NewDriverS heap cells next folders))
    (hr : MoveFolderS grow fuel (NewDriverS heap cells next folders) name dst = some r)
    (he : r.err = none) :
    r.folders = some folders
    ∧ r.toResult.folders = some (folders.elems cells)
    ∧ (∀ l, r.toResult.folders = some l → l.length = (folders.elems cells).length)
    ∧ r.state.folders.elems r.state.cells = folders.elems cells
    ∧ (∀ moves m2 fuel2 name2 dst2 r2,
        runMovesS grow fuel (NewDriverS heap cells next folders) moves = some m2 →
        MoveFolderS grow fuel2 m2 name2 dst2 = some r2 → r2.err = none →
        r2.toResult.folders = some (folders.elems cells)) := by
  obtain ⟨h1, _⟩ := MoveFolderS_step grow fuel _ name dst r hS hr
  obtain ⟨hret, hlen, hfold, hseq⟩ :=
    MoveFolder_returns_registry (NewDriverS heap cells next folders).toState.heap
      (folders.elems cells) fuel name dst r.toResult h1 he
  refine ⟨?_, hret, hlen, hfold, ?_⟩
  · exact (MoveFolderS_header grow fuel _ name dst r hr he).1
  · intro moves m2 fuel2 name2 dst2 r2 hrun hr2 he2
    obtain ⟨hrun1, hS2⟩ := runMovesS_step grow fuel _ m2 moves hS hrun
    obtain ⟨h2, _⟩ := MoveFolderS_step grow fuel2 m2 name2 dst2 r2 hS2 hr2
    exact hseq moves m2.toState fuel2 name2 dst2 r2.toResult hrun1 h2 he2


theorem MoveFolderS_returns_registry_witness :
    (Separated (NewDriverS apartMemory.heap apartMemory.cells 5 ⟨0, 3, 3⟩)
      ∧ MoveFolderS growDouble 5 (NewDriverS apartMemory.heap apartMemory.cells 5 ⟨0, 3, 3⟩)
          "bravo" "delta" = some apartMoved
      ∧ apartMoved.err = none)
    ∧ apartMoved.folders = some ⟨0, 3, 3⟩
    ∧ apartMoved.toResult.folders = some ((⟨0, 3, 3⟩ : Slice).elems apartMemory.cells)
    ∧ (⟨0, 3, 3⟩ : Slice).elems apartMemory.cells = [0, 1, 2] :=
  ⟨⟨by decide, rfl, by decide⟩,
    (MoveFolderS_returns_registry growDouble apartMemory.heap apartMemory.cells 5 ⟨0, 3, 3⟩ 5
      "bravo" "delta" apartMoved (by decide) rfl (by decide)).1,
    (MoveFolderS_returns_registry growDouble apartMemory.heap apartMemory.cells 5 ⟨0, 3, 3⟩ 5
      "bravo" "delta" apartMoved (by decide) rfl (by decide)).2.1,
    by decide⟩

/-- C24, as stated, fails when a `Children` slice shares cells with the
registry slice.  `sharedMemory` satisfies the data-model invariants, its names
are dot-free and pairwise distinct and its slices are well formed; before the
move `GetAllChildFolders(1, "delta")` is empty; `MoveFolder("bravo", "delta")`
succeeds, and afterwards `GetAllChildFolders(1, "delta")` is still empty
instead of holding the moved folder bravo: the in-place `append` of
`removeChild` has overwritten bravo's cell of the registry. -/
theorem MoveFolderS_carries_subtree_counterexample :
    ((∀ g, PathInv sharedMemory.toState.heap g) ∧ Consistent sharedMemory.toState.heap
      ∧ Acyclic sharedMemory.toState.heap ∧ ParentsRegistered sharedMemory.toState
      ∧ NamesDotFree sharedMemory.toState ∧ DistinctNames sharedMemory.toState
      ∧ SlicesWF sharedMemory)
    ∧ GetAllChildFolders sharedMemory.toState 1 "delta" = []
    ∧ (MoveFolderS growDouble 5 sharedMemory "bravo" "delta").map
        (fun r => (r.err, GetAllChildFolders r.state.toState 1 "delta")) = some (none, []) :=
  ⟨⟨by decide, by decide, sharedMemory_acyclic, by decide, by decide, by decide, by decide⟩,
    by decide, by decide⟩

/-- C24, amended: a move carries the whole subtree with it in the eyes of the
descendant query, in a memory whose slices (the registry's and the folders'
`Children`) share no cells.  In such a memory satisfying the data-model
invariants (path invariant, `Children` consistent with `Parent`, acyclic parent
chain, every registered folder's parent registered in the same organization)
with dot-free, pairwise distinct names, after a successful `MoveFolder(name,
dst)`, for every organization, `GetAllChildFolders(org, name)` is the same
sequence as before the move, and `GetAllChildFolders(org, dst)` is, in storage
order, its earlier result together with the moved folder and all folders of
the moved subtree. -/
theorem MoveFolderS_carries_subtree {n : Nat} (grow : Nat → Nat) (fuel : Nat) (m : Memory n)
    (name dst : String) (r : MoveResultS n) (src d : Fin n) (org : UUID)
    (hS : Separated m)
    (hP : ∀ g, PathInv m.toState.heap g) (hC : Consistent m.toState.heap)
    (hA : Acyclic m.toState.heap) (hPR : ParentsRegistered m.toState)
    (hDF : NamesDotFree m.toState) (hDN : DistinctNames m.toState)
    (hr : MoveFolderS grow fuel m name dst = some r) (he : r.err = none)
    (hsrc : resolve m.toState name = some src) (hdst : resolve m.toState dst = some d) :
    GetAllChildFolders r.state.toState org name = GetAllChildFolders m.toState org name
    ∧ (∀ f, f ∈ GetAllChildFolders r.state.toState org dst
        ↔ f ∈ GetFoldersByOrgID m.toState org
          ∧ (f ∈ GetAllChildFolders m.toState org dst ∨ InSubtree m.toState.heap src f))
    ∧ (∀ keep : Fin n → Bool, (∀ f, keep f = true ↔ InSubtree m.toState.heap src f) →
        GetAllChildFolders r.state.toState org dst
          = (GetFoldersByOrgID m.toState org).filter
              (fun f => decide (f ∈ GetAllChildFolders m.toState org dst) || keep f)) :=
  MoveFolder_carries_subtree fuel m.toState name dst r.toResult src d org hP hC hA hPR hDF hDN
    (MoveFolderS_step grow fuel m name dst r hS hr).1 he hsrc hdst

theorem MoveFolderS_carries_subtree_witness :
    (Separated apartMemory
      ∧ (∀ g, PathInv apartMemory.toState.heap g) ∧ Consistent apartMemory.toState.heap
      ∧ Acyclic apartMemory.toState.heap ∧ ParentsRegistered apartMemory.toState
      ∧ NamesDotFree apartMemory.toState ∧ DistinctNames apartMemory.toState
      ∧ MoveFolderS growDouble 5 apartMemory "bravo" "delta" = some apartMoved
      ∧ apartMoved.err = none
      ∧ resolve apartMemory.toState "bravo" = some 1
      ∧ resolve apartMemory.toState "delta" = some 2)
    ∧ GetAllChildFolders apartMoved.state.toState 1 "bravo"
        = GetAllChildFolders apartMemory.toState 1 "bravo"
    ∧ GetAllChildFolders apartMoved.state.toState 1 "delta" = [1] :=
  ⟨⟨by decide, by decide, by decide, apartMemory_acyclic, by decide, by decide, by decide,
      apartMoved_eq, by decide, by decide, by decide⟩,
    (MoveFolderS_carries_subtree growDouble 5 apartMemory "bravo" "delta" apartMoved 1 2 1
      (by decide) (by decide) (by decide) apartMemory_acyclic (by decide) (by decide)
      (by decide) apartMoved_eq (by decide) (by decide) (by decide)).1,
    by decide⟩


end folder
